import Mathlib

/-!
A shallow embedding of the jsonrs JSON codec (src/types.rs, src/parse.rs)
and proofs about it.

Modelling conventions:
* input bytes are `List Nat` (each entry a byte value);
* the Rust `f64` payload of numbers is an abstract type `Flt`; the two
  operations the codec performs on it (`str::parse::<f64>` on the bytes of a
  term, and `f64::to_string` in the encoder) are parameters `parseNum` and
  `fltRepr`, constrained by hypotheses where a claim needs them;
* Rust `String` values built by `push` are `List Char` (Lean `Char` is a
  Unicode scalar value, exactly like Rust `char`);
* `HashMap<String, Value>` is an association list `MemberList` built by
  `hashInsert`, which overwrites the value of an existing key (the map is
  unordered in Rust; the list order of the model is one fixed iteration
  order);
* the process-aborting `panic!` branch of `Value::string_repr` is modelled
  as the `none` outcome of an `Option`;
* `usize` underflow of `self.pos -= 1` in `read_token` is modelled by the
  checked decrement `decPos`, whose failure is the `PErr.underflow` outcome;
* the recursive-descent loop (`read_value` / `read_object` / `read_array`)
  is given explicit fuel; running out of fuel is the `PErr.fuelOut` outcome,
  proved unreachable for the fuel `deserialize` supplies.
-/

namespace JR

/-- Abnormal outcomes of the embedded parser.  `msg` is the `JSONError` of the
source; `fuelOut` and `underflow` are modelling artifacts proved unreachable. -/
inductive PErr where
  | fuelOut
  | underflow
  | msg (s : String)
deriving DecidableEq

/-- `Token` of src/types.rs. -/
inductive Tok (Flt : Type) where
  | lbrace
  | rbrace
  | langle
  | rangle
  | comma
  | colon
  | str (s : List Char)
  | number (n : Flt)
  | boolean (b : Bool)
  | null

mutual
/-- `Value` of src/types.rs.  `Object` is an association list standing for the
`HashMap`; `Array` is a list. -/
inductive Value (Flt : Type) where
  | vstring (s : List Char)
  | vnumber (n : Flt)
  | vbool (b : Bool)
  | vnull
  | varray (items : ValueList Flt)
  | vobject (members : MemberList Flt)
/-- The element list of an `Array` value. -/
inductive ValueList (Flt : Type) where
  | nil
  | cons (v : Value Flt) (tl : ValueList Flt)
/-- The entry list of an `Object` value (the `HashMap` model). -/
inductive MemberList (Flt : Type) where
  | nil
  | cons (k : List Char) (v : Value Flt) (tl : MemberList Flt)
end

/-- Parser state: `pos` and the one-token lookahead `cache` of `Parser`. -/
structure PSt (Flt : Type) where
  pos : Nat
  cache : Option (Except PErr (Tok Flt))

/-- `Parser::is_whitespace`. -/
def isWsB (b : Nat) : Bool :=
  b = 32 || b = 10 || b = 13 || b = 9

/-- `Parser::is_delimiter`. -/
def isDelimB (b : Nat) : Bool :=
  b = 123 || b = 125 || b = 91 || b = 93 || b = 58 || b = 44

/-- `Parser::current`. -/
def currentAt (buf : List Nat) (pos : Nat) : Option Nat :=
  buf[pos]?

/-- `Parser::read_byte`: the read byte together with the advanced position. -/
def readByteAt (buf : List Nat) (pos : Nat) : Option (Nat × Nat) :=
  match currentAt buf pos with
  | some b => some (b, pos + 1)
  | none => none

/-- Checked decrement modelling `self.pos -= 1` (`usize` subtraction aborts on
underflow). -/
def decPos (n : Nat) : Option Nat :=
  if n = 0 then none else some (n - 1)

/-- `b as char` on a byte. -/
def byteChar (b : Nat) : Char :=
  Char.ofNat b

/-- `char::from_u32`: `some` exactly on Unicode scalar values. -/
def charFromNat (n : Nat) : Option Char :=
  if h : n.isValidChar then some (Char.ofNatAux n h) else none

/-- Value of one hexadecimal digit byte (upper or lower case). -/
def hexDigitVal (b : Nat) : Option Nat :=
  if 48 ≤ b ∧ b ≤ 57 then some (b - 48)
  else if 65 ≤ b ∧ b ≤ 70 then some (b - 55)
  else if 97 ≤ b ∧ b ≤ 102 then some (b - 87)
  else none

/-- Fold a run of bytes that must all be hexadecimal digits. -/
def parseHexRun : List Nat → Nat → Option Nat
  | [], acc => some acc
  | b :: rest, acc =>
    match hexDigitVal b with
    | some d => parseHexRun rest (acc * 16 + d)
    | none => none

/-- `u32::from_str_radix(str::from_utf8(hex)?, 16)` on the four escape bytes:
an optional leading plus sign followed by a nonempty run of hex digits.
(A byte sequence that is not of this shape fails either UTF-8 validation or
digit parsing in the source; both failures collapse to `none` here.  Four hex
digits cannot overflow `u32`.) -/
def parseHex4 : List Nat → Option Nat
  | [] => none
  | b :: rest =>
    if b = 43 then (if rest.isEmpty then none else parseHexRun rest 0)
    else parseHexRun (b :: rest) 0

section Parser

variable {Flt : Type} (parseNum : List Nat → Option Flt)

/-- The loop of `Parser::skip_whitespace`, bounded by the bytes remaining. -/
def skipWsAux (buf : List Nat) : Nat → Nat → Nat
  | 0, pos => pos
  | k+1, pos =>
    match currentAt buf pos with
    | none => pos
    | some b => if isWsB b then skipWsAux buf k (pos + 1) else pos

/-- `Parser::skip_whitespace`. -/
def skipWs (buf : List Nat) (pos : Nat) : Nat :=
  skipWsAux buf (buf.length - pos) pos

/-- Prepend a pushed character to a successful string scan. -/
def pushCont (c : Char) : (Except PErr (List Char)) × Nat → (Except PErr (List Char)) × Nat
  | (.ok s, p) => (.ok (c :: s), p)
  | r => r

/-- The loop of `Parser::read_string`, bounded by the bytes remaining (each
iteration consumes at least one byte, so the bound never bites before the
buffer is exhausted, where the source reports EOF as well). -/
def readStringAux (buf : List Nat) : Nat → Nat → (Except PErr (List Char)) × Nat
  | 0, pos => (.error (.msg "EOF"), pos)
  | k+1, pos =>
    match readByteAt buf pos with
    | none => (.error (.msg "EOF"), pos)
    | some (b, p1) =>
      if b = 34 then (.ok [], p1)
      else if b = 92 then
        match readByteAt buf p1 with
        | none => (.error (.msg "EOF"), p1)
        | some (c, p2) =>
          if c = 34 || c = 92 || c = 47 then pushCont (byteChar c) (readStringAux buf k p2)
          else if c = 98 then pushCont (Char.ofNat 8) (readStringAux buf k p2)
          else if c = 102 then pushCont (Char.ofNat 12) (readStringAux buf k p2)
          else if c = 110 then pushCont (Char.ofNat 10) (readStringAux buf k p2)
          else if c = 114 then pushCont (Char.ofNat 13) (readStringAux buf k p2)
          else if c = 116 then pushCont (Char.ofNat 9) (readStringAux buf k p2)
          else if c = 117 then
            match readByteAt buf p2 with
            | none => (.error (.msg "EOF"), p2)
            | some (h1, p3) =>
              match readByteAt buf p3 with
              | none => (.error (.msg "EOF"), p3)
              | some (h2, p4) =>
                match readByteAt buf p4 with
                | none => (.error (.msg "EOF"), p4)
                | some (h3, p5) =>
                  match readByteAt buf p5 with
                  | none => (.error (.msg "EOF"), p5)
                  | some (h4, p6) =>
                    match parseHex4 [h1, h2, h3, h4] with
                    | none => (.error (.msg "invalid hex in unicode escape"), p6)
                    | some code =>
                      match charFromNat code with
                      | none => (.error (.msg "invalid unicode code point"), p6)
                      | some ch => pushCont ch (readStringAux buf k p6)
          else (.error (.msg "invalid escape character"), p2)
      else pushCont (byteChar b) (readStringAux buf k p1)

/-- `Parser::read_string` (called with `pos` just past the opening quote). -/
def readString (buf : List Nat) (pos : Nat) : (Except PErr (List Char)) × Nat :=
  readStringAux buf (buf.length - pos) pos

/-- The scanning loop of `Parser::read_term`, bounded by the bytes remaining. -/
def termEndAux (buf : List Nat) : Nat → Nat → Nat
  | 0, pos => pos
  | k+1, pos =>
    match currentAt buf pos with
    | none => pos
    | some b => if isWsB b || isDelimB b then pos else termEndAux buf k (pos + 1)

/-- End position of the term starting at `pos`. -/
def termEnd (buf : List Nat) (pos : Nat) : Nat :=
  termEndAux buf (buf.length - pos) pos

/-- The bytes of `"true"`. -/
def trueB : List Nat := [116, 114, 117, 101]

/-- The bytes of `"false"`. -/
def falseB : List Nat := [102, 97, 108, 115, 101]

/-- The bytes of `"null"`. -/
def nullB : List Nat := [110, 117, 108, 108]

/-- Classification of a scanned term slice in `Parser::read_term`. -/
def termTok (bs : List Nat) : Except PErr (Tok Flt) :=
  if bs = trueB then .ok (.boolean true)
  else if bs = falseB then .ok (.boolean false)
  else if bs = nullB then .ok .null
  else
    match parseNum bs with
    | some n => .ok (.number n)
    | none => .error (.msg "invalid number literal")

/-- `Parser::read_term`. -/
def readTerm (buf : List Nat) (pos : Nat) : (Except PErr (Tok Flt)) × Nat :=
  let e := termEnd buf pos
  (termTok parseNum ((buf.drop pos).take (e - pos)), e)

/-- The cacheless part of `Parser::read_token`: skip whitespace, then
dispatch on the next byte. -/
def readTokenRaw (buf : List Nat) (pos : Nat) : (Except PErr (Tok Flt)) × Nat :=
  let p := skipWs buf pos
  match readByteAt buf p with
  | none => (.error (.msg "EOF"), p)
  | some (b, p1) =>
    if b = 34 then
      match readString buf p1 with
      | (.ok s, p2) => (.ok (.str s), p2)
      | (.error e, p2) => (.error e, p2)
    else if b = 91 then (.ok .langle, p1)
    else if b = 93 then (.ok .rangle, p1)
    else if b = 123 then (.ok .lbrace, p1)
    else if b = 125 then (.ok .rbrace, p1)
    else if b = 44 then (.ok .comma, p1)
    else if b = 58 then (.ok .colon, p1)
    else
      match decPos p1 with
      | none => (.error .underflow, p1)
      | some q => readTerm parseNum buf q

/-- `Parser::read_token`: pop the cached token if present, else read afresh. -/
def readToken (buf : List Nat) (s : PSt Flt) : (Except PErr (Tok Flt)) × PSt Flt :=
  match s.cache with
  | some r => (r, ⟨s.pos, none⟩)
  | none =>
    match readTokenRaw parseNum buf s.pos with
    | (r, p) => (r, ⟨p, none⟩)

/-- `Parser::peek_token`: read a token and store it in the cache. -/
def peekToken (buf : List Nat) (s : PSt Flt) : (Except PErr (Tok Flt)) × PSt Flt :=
  match readToken parseNum buf s with
  | (r, s1) => (r, ⟨s1.pos, some r⟩)

/-- Rust `Debug` name of a token constructor (payloads elided); only used
inside error message strings. -/
def tokName : Tok Flt → String
  | .lbrace => "LBrace"
  | .rbrace => "RBrace"
  | .langle => "LAngle"
  | .rangle => "RAngle"
  | .comma => "Comma"
  | .colon => "Colon"
  | .str _ => "String"
  | .number _ => "Number"
  | .boolean _ => "Boolean"
  | .null => "Null"

/-- The token of a single-byte structural delimiter. -/
def tokOfDelim (b : Nat) : Tok Flt :=
  if b = 91 then .langle
  else if b = 93 then .rangle
  else if b = 123 then .lbrace
  else if b = 125 then .rbrace
  else if b = 44 then .comma
  else .colon

end Parser

/-- `HashMap::insert`: overwrite the value of an existing key, otherwise add
the binding. -/
def hashInsert {Flt : Type} : MemberList Flt → List Char → Value Flt → MemberList Flt
  | .nil, k, v => .cons k v .nil
  | .cons k0 v0 tl, k, v =>
    if k0 = k then .cons k0 v tl else .cons k0 v0 (hashInsert tl k v)

/-- `Vec::push` on the element accumulator of `read_array`. -/
def vlSnoc {Flt : Type} : ValueList Flt → Value Flt → ValueList Flt
  | .nil, v => .cons v .nil
  | .cons h tl, v => .cons h (vlSnoc tl v)

section ParserRec

variable {Flt : Type} (parseNum : List Nat → Option Flt)

mutual
/-- `Parser::read_value` with fuel. -/
def readValue (buf : List Nat) : Nat → PSt Flt → (Except PErr (Value Flt)) × PSt Flt
  | 0, s => (.error .fuelOut, s)
  | k+1, s =>
    match readToken parseNum buf s with
    | (.error e, s1) => (.error e, s1)
    | (.ok t, s1) =>
      match t with
      | .lbrace =>
        match readObjectLoop buf k .nil s1 with
        | (.ok ms, s2) => (.ok (.vobject ms), s2)
        | (.error e, s2) => (.error e, s2)
      | .langle =>
        match readArrayLoop buf k .nil s1 with
        | (.ok vs, s2) => (.ok (.varray vs), s2)
        | (.error e, s2) => (.error e, s2)
      | .str s0 => (.ok (.vstring s0), s1)
      | .number n => (.ok (.vnumber n), s1)
      | .boolean b => (.ok (.vbool b), s1)
      | .null => (.ok .vnull, s1)
      | t => (.error (.msg ("unexpected token " ++ tokName t)), s1)

/-- The loop of `Parser::read_object` with fuel, `acc` being the map built
so far. -/
def readObjectLoop (buf : List Nat) :
    Nat → MemberList Flt → PSt Flt → (Except PErr (MemberList Flt)) × PSt Flt
  | 0, _, s => (.error .fuelOut, s)
  | k+1, acc, s =>
    match peekToken parseNum buf s with
    | (.ok .rbrace, s1) =>
      match readToken parseNum buf s1 with
      | (_, s2) => (.ok acc, s2)
    | (.error e, s1) => (.error e, s1)
    | (.ok _, s1) =>
      match readToken parseNum buf s1 with
      | (.ok (.str key), s2) =>
        match readToken parseNum buf s2 with
        | (.ok .colon, s3) =>
          match readValue buf k s3 with
          | (.ok v, s4) =>
            match readToken parseNum buf s4 with
            | (.ok .comma, s5) => readObjectLoop buf k (hashInsert acc key v) s5
            | (.ok .rbrace, s5) => (.ok (hashInsert acc key v), s5)
            | (.ok t, s5) =>
              (.error (.msg ("expected comma or \x7d, got " ++ tokName t)), s5)
            | (.error e, s5) => (.error e, s5)
          | (.error e, s4) => (.error e, s4)
        | (.ok t, s3) => (.error (.msg ("expected colon, got " ++ tokName t)), s3)
        | (.error e, s3) => (.error e, s3)
      | (.ok t, s2) => (.error (.msg ("expected string, got " ++ tokName t)), s2)
      | (.error e, s2) => (.error e, s2)

/-- The loop of `Parser::read_array` with fuel, `acc` being the elements
collected so far. -/
def readArrayLoop (buf : List Nat) :
    Nat → ValueList Flt → PSt Flt → (Except PErr (ValueList Flt)) × PSt Flt
  | 0, _, s => (.error .fuelOut, s)
  | k+1, acc, s =>
    match peekToken parseNum buf s with
    | (.ok .rangle, s1) =>
      match readToken parseNum buf s1 with
      | (_, s2) => (.ok acc, s2)
    | (.error e, s1) => (.error e, s1)
    | (.ok _, s1) =>
      match readValue buf k s1 with
      | (.ok v, s2) =>
        match readToken parseNum buf s2 with
        | (.ok .comma, s3) => readArrayLoop buf k (vlSnoc acc v) s3
        | (.ok .rangle, s3) => (.ok (vlSnoc acc v), s3)
        | (.ok t, s3) =>
          (.error (.msg ("expected comma or ], got " ++ tokName t)), s3)
        | (.error e, s3) => (.error e, s3)
      | (.error e, s2) => (.error e, s2)
end

/-- `deserialize` of src/parse.rs: parse one value from position 0 with a
fresh parser.  The fuel `2 * buf.length + 1` is proved sufficient below. -/
def deserialize (buf : List Nat) : Except PErr (Value Flt) :=
  (readValue parseNum buf (2 * buf.length + 1) ⟨0, none⟩).fst

end ParserRec

section Encoder

variable {Flt : Type} (fltRepr : Flt → List Char)

/-- Uppercase hexadecimal digit character. -/
def hexDigitChar (n : Nat) : Char :=
  if n < 10 then Char.ofNat (48 + n) else Char.ofNat (55 + n)

/-- Most-significant-first hex digits, accumulator style; the fuel 8 covers
every value below `16 ^ 8`, in particular every Unicode scalar value. -/
def hexDigitsAux : Nat → Nat → List Char → List Char
  | 0, _, acc => acc
  | f+1, n, acc => if n = 0 then acc else hexDigitsAux f (n / 16) (hexDigitChar (n % 16) :: acc)

/-- `format!("{:04X}", n)`: minimal uppercase hex digits of `n`, left padded
with zeros to at least four digits. -/
def hexMin4 (n : Nat) : List Char :=
  let ds := if n = 0 then ['0'] else hexDigitsAux 8 n []
  List.replicate (4 - ds.length) '0' ++ ds

/-- One character of `Value::string_repr`; `none` is the `panic!` branch on
an ASCII control character without a named escape. -/
def charRepr (c : Char) : Option (List Char) :=
  if c = '"' || c = '\\' || c = '/' then some ['\\', c]
  else if c = '\x08' then some ['\\', 'b']
  else if c = '\x0c' then some ['\\', 'f']
  else if c = '\x0a' then some ['\\', 'n']
  else if c = '\x0d' then some ['\\', 'r']
  else if c = '\x09' then some ['\\', 't']
  else if c.toNat ≤ 31 || c.toNat = 127 then none
  else if c.toNat ≤ 127 then some [c]
  else some ('\\' :: 'u' :: hexMin4 c.toNat)

/-- The body of `Value::string_repr` over all characters. -/
def strBody : List Char → Option (List Char)
  | [] => some []
  | c :: cs => do
    let r ← charRepr c
    let rest ← strBody cs
    pure (r ++ rest)

/-- `Value::string_repr`. -/
def stringRepr (s : List Char) : Option (List Char) := do
  let b ← strBody s
  pure ('"' :: (b ++ ['"']))

mutual
/-- `Value::to_json` (with the `string_repr` panic surfaced as `none`). -/
def to_json : Value Flt → Option (List Char)
  | .vstring s => stringRepr s
  | .vnumber n => some (fltRepr n)
  | .vbool b => some (if b then "true".data else "false".data)
  | .vnull => some "null".data
  | .varray items => do
    let body ← itemsJson items
    pure ('[' :: (body ++ [']']))
  | .vobject ms => do
    let body ← membersJson ms
    pure ('\x7b' :: (body ++ ['\x7d']))

/-- Array elements rendered and joined with `", "`. -/
def itemsJson : ValueList Flt → Option (List Char)
  | .nil => some []
  | .cons v .nil => to_json v
  | .cons v tl => do
    let a ← to_json v
    let b ← itemsJson tl
    pure (a ++ ',' :: ' ' :: b)

/-- Object members rendered as `"key": value` and joined with `", "`. -/
def membersJson : MemberList Flt → Option (List Char)
  | .nil => some []
  | .cons k v .nil => do
    let ks ← stringRepr k
    let vs ← to_json v
    pure (ks ++ ':' :: ' ' :: vs)
  | .cons k v tl => do
    let ks ← stringRepr k
    let vs ← to_json v
    let rest ← membersJson tl
    pure (ks ++ ':' :: ' ' :: (vs ++ ',' :: ' ' :: rest))
end

/-- `serialize` of src/parse.rs (`val.to_json()`). -/
def serialize (v : Value Flt) : Option (List Char) :=
  to_json fltRepr v

end Encoder

/-- UTF-8 encoding of one scalar value. -/
def utf8EncodeChar (c : Char) : List Nat :=
  let n := c.toNat
  if n < 128 then [n]
  else if n < 2048 then [192 + n / 64, 128 + n % 64]
  else if n < 65536 then [224 + n / 4096, 128 + n / 64 % 64, 128 + n % 64]
  else [240 + n / 262144, 128 + n / 4096 % 64, 128 + n / 64 % 64, 128 + n % 64]

/-- UTF-8 encoding of a character sequence (Rust `String::as_bytes`). -/
def utf8Encode (s : List Char) : List Nat :=
  (s.map utf8EncodeChar).flatten

/-- Bytes of a Lean string literal, for concrete test inputs. -/
def strBytes (s : String) : List Nat :=
  utf8Encode s.data

/-- A decimal run of digit bytes, value-accumulator style. -/
def parseDecRun : List Nat → Nat → Option Nat
  | [], acc => some acc
  | b :: rest, acc =>
    if 48 ≤ b ∧ b ≤ 57 then parseDecRun rest (acc * 10 + (b - 48)) else none

/-- A simple integer literal parser over bytes, used to instantiate the
abstract number type with `Int` in concrete witnesses. -/
def parseIntLit : List Nat → Option Int
  | [] => none
  | 45 :: rest =>
    if rest.isEmpty then none else (parseDecRun rest 0).map (fun n => -(n : Int))
  | bs => (parseDecRun bs 0).map (fun n => (n : Int))

/-- Decimal rendering of an `Int`, matching `parseIntLit` on its image. -/
def intRepr (i : Int) : List Char :=
  (toString i).data

/-- 1 when the lookahead cache is occupied. -/
def cacheBit {Flt : Type} (s : PSt Flt) : Nat :=
  match s.cache with
  | some _ => 1
  | none => 0

/-- Termination measure of a parser state: twice the bytes remaining plus the
cache bit.  Every token read strictly decreases it. -/
def msr {Flt : Type} (buf : List Nat) (s : PSt Flt) : Nat :=
  2 * (buf.length - s.pos) + cacheBit s

/-- The cache holds no abnormal error (it is empty or holds a raw token
result, whose errors are all message errors). -/
def cacheOkP {Flt : Type} (s : PSt Flt) : Prop :=
  ∀ e, s.cache = some (.error e) → ∃ m, e = PErr.msg m

/-- An ASCII control character other than the five with named escapes: the
characters on which `string_repr` aborts. -/
def isBadControl (c : Char) : Bool :=
  (c.toNat ≤ 31 || c.toNat = 127) &&
    !(c = '\x08' || c = '\x0c' || c = '\x0a' || c = '\x0d' || c = '\x09')

mutual
/-- No string inside the value contains a control character without a named
escape (the domain on which the encoder cannot abort). -/
def valCtlOk {Flt : Type} : Value Flt → Bool
  | .vstring s => s.all (fun c => !isBadControl c)
  | .vnumber _ => true
  | .vbool _ => true
  | .vnull => true
  | .varray items => itemsCtlOk items
  | .vobject ms => membersCtlOk ms
/-- `valCtlOk` on every element of an array. -/
def itemsCtlOk {Flt : Type} : ValueList Flt → Bool
  | .nil => true
  | .cons v tl => valCtlOk v && itemsCtlOk tl
/-- `valCtlOk` on every key and value of an object. -/
def membersCtlOk {Flt : Type} : MemberList Flt → Bool
  | .nil => true
  | .cons k v tl => k.all (fun c => !isBadControl c) && valCtlOk v && membersCtlOk tl
end

/-- Value of an uppercase-or-digit hexadecimal character (specification side,
used to interpret encoder output). -/
def hexCharVal (c : Char) : Nat :=
  if c.toNat ≤ 57 then c.toNat - 48 else c.toNat - 55

/-- Interpretation of a most-significant-first hex digit string. -/
def hexValue (ds : List Char) : Nat :=
  ds.foldl (fun a c => a * 16 + hexCharVal c) 0

/-- An uppercase hexadecimal digit character. -/
def isUpperHexDigit (c : Char) : Bool :=
  (48 ≤ c.toNat && c.toNat ≤ 57) || (65 ≤ c.toNat && c.toNat ≤ 70)

/-- The single-character escapes of `read_string` and the characters they
produce. -/
def escMap (c : Nat) : Option Char :=
  if c = 34 || c = 92 || c = 47 then some (byteChar c)
  else if c = 98 then some (Char.ofNat 8)
  else if c = 102 then some (Char.ofNat 12)
  else if c = 110 then some (Char.ofNat 10)
  else if c = 114 then some (Char.ofNat 13)
  else if c = 116 then some (Char.ofNat 9)
  else none

/-- A string character that survives the encode/decode round trip: not a
character on which the encoder aborts, and inside the Basic Multilingual
Plane (the encoder escapes a larger code point with more than 4 hex digits,
of which the decoder reads back exactly 4). -/
def goodChar (c : Char) : Bool :=
  !isBadControl c && c.toNat < 65536

/-- Every character of the string is a `goodChar`. -/
def goodStr (s : List Char) : Bool :=
  s.all goodChar

mutual
/-- The round-trip domain: strings hold only `goodChar`s, and every number
payload renders to a nonempty run of non-whitespace non-delimiter ASCII
bytes that `read_term` classifies back as the same number. -/
def goodV {Flt : Type} (parseNum : List Nat → Option Flt)
    (fltRepr : Flt → List Char) : Value Flt → Prop
  | .vstring s => goodStr s = true
  | .vnumber n => fltRepr n ≠ [] ∧
      (∀ c ∈ fltRepr n, c.toNat < 128 ∧ isWsB c.toNat = false ∧
        isDelimB c.toNat = false ∧ c.toNat ≠ 34) ∧
      termTok parseNum ((fltRepr n).map Char.toNat) = .ok (.number n)
  | .vbool _ => True
  | .vnull => True
  | .varray items => goodItems parseNum fltRepr items
  | .vobject ms => goodMembers parseNum fltRepr ms
/-- `goodV` on every element of an array. -/
def goodItems {Flt : Type} (parseNum : List Nat → Option Flt)
    (fltRepr : Flt → List Char) : ValueList Flt → Prop
  | .nil => True
  | .cons v tl => goodV parseNum fltRepr v ∧ goodItems parseNum fltRepr tl
/-- `goodStr` on every key and `goodV` on every value of an object. -/
def goodMembers {Flt : Type} (parseNum : List Nat → Option Flt)
    (fltRepr : Flt → List Char) : MemberList Flt → Prop
  | .nil => True
  | .cons k v tl => goodStr k = true ∧ goodV parseNum fltRepr v ∧
      goodMembers parseNum fltRepr tl
end

/-- Fold a sequence of parsed members into the map with `hashInsert`, the
way `read_object` builds its `HashMap`. -/
def foldIns {Flt : Type} : MemberList Flt → MemberList Flt → MemberList Flt
  | acc, .nil => acc
  | acc, .cons k v tl => foldIns (hashInsert acc k v) tl

/-- The element accumulation of `read_array`: push each element in turn. -/
def vlAppend {Flt : Type} : ValueList Flt → ValueList Flt → ValueList Flt
  | acc, .nil => acc
  | acc, .cons v tl => vlAppend (vlSnoc acc v) tl

/-- Plain concatenation of element lists. -/
def vlCat {Flt : Type} : ValueList Flt → ValueList Flt → ValueList Flt
  | .nil, ys => ys
  | .cons x xs, ys => .cons x (vlCat xs ys)

/-- Plain concatenation of member lists. -/
def mlCat {Flt : Type} : MemberList Flt → MemberList Flt → MemberList Flt
  | .nil, ys => ys
  | .cons k v xs, ys => .cons k v (mlCat xs ys)

mutual
/-- What decoding does to an encoded tree: strings, numbers and scalars pass
through, arrays map elementwise, and every object is rebuilt by folding its
rendered entries through `hashInsert`. -/
def canonV {Flt : Type} : Value Flt → Value Flt
  | .vstring s => .vstring s
  | .vnumber n => .vnumber n
  | .vbool b => .vbool b
  | .vnull => .vnull
  | .varray items => .varray (canonItems items)
  | .vobject ms => .vobject (foldIns .nil (canonMembers ms))
/-- `canonV` on every element. -/
def canonItems {Flt : Type} : ValueList Flt → ValueList Flt
  | .nil => .nil
  | .cons v tl => .cons (canonV v) (canonItems tl)
/-- `canonV` on every member value, keys unchanged. -/
def canonMembers {Flt : Type} : MemberList Flt → MemberList Flt
  | .nil => .nil
  | .cons k v tl => .cons k (canonV v) (canonMembers tl)
end

/-- The keys of a member list, in order. -/
def memKeys {Flt : Type} : MemberList Flt → List (List Char)
  | .nil => []
  | .cons k _ tl => k :: memKeys tl

/-- `HashMap::get`-style lookup in the association-list model. -/
def memLookup {Flt : Type} : MemberList Flt → List Char → Option (Value Flt)
  | .nil, _ => none
  | .cons k0 v0 tl, k => if k0 = k then some v0 else memLookup tl k

/-- The value of the last occurrence of a key in an entry sequence. -/
def lastVal {Flt : Type} : MemberList Flt → List Char → Option (Value Flt)
  | .nil, _ => none
  | .cons k0 v0 tl, k =>
    match lastVal tl k with
    | some w => some w
    | none => if k0 = k then some v0 else none

/-- How often a key occurs in an entry sequence. -/
def countKey {Flt : Type} : MemberList Flt → List Char → Nat
  | .nil, _ => 0
  | .cons k0 _ tl, k => (if k0 = k then 1 else 0) + countKey tl k

mutual
/-- No object anywhere in the tree binds the same key twice. -/
def keysNodupV {Flt : Type} : Value Flt → Prop
  | .vstring _ => True
  | .vnumber _ => True
  | .vbool _ => True
  | .vnull => True
  | .varray items => keysNodupItems items
  | .vobject ms => (memKeys ms).Nodup ∧ keysNodupMembers ms
/-- `keysNodupV` on every element. -/
def keysNodupItems {Flt : Type} : ValueList Flt → Prop
  | .nil => True
  | .cons v tl => keysNodupV v ∧ keysNodupItems tl
/-- `keysNodupV` on every member value. -/
def keysNodupMembers {Flt : Type} : MemberList Flt → Prop
  | .nil => True
  | .cons _ v tl => keysNodupV v ∧ keysNodupMembers tl
end

/-- The byte after a value, if any, lets the term scanner stop: whitespace
or a delimiter. -/
def stopOk (rest : List Nat) : Prop :=
  ∀ b, rest.head? = some b → (isWsB b || isDelimB b) = true

/-- A value whose rendering ends in its own closing quote, bracket or brace
(strings, arrays, objects): the final lexeme is closed by that byte, so the
scanner never reads past it and trailing bytes cannot extend it. -/
def selfDelim {Flt : Type} : Value Flt → Bool
  | .vstring _ => true
  | .varray _ => true
  | .vobject _ => true
  | _ => false

/-- One well-delimited piece of a string literal body: a plain byte (neither
quote nor backslash), a two-byte escape, or a six-byte unicode escape.  The
pieces may still be invalid (a bad escape letter, bad hex, a surrogate), in
which case the scanner errors; the decomposition only pins down how many
bytes the scanner consumes. -/
inductive StrItem where
  | plain (b : Nat)
  | esc2 (c : Nat)
  | escU (h1 h2 h3 h4 : Nat)

/-- The bytes of one string-body item. -/
def itemBytes : StrItem → List Nat
  | .plain b => [b]
  | .esc2 c => [92, c]
  | .escU h1 h2 h3 h4 => [92, 117, h1, h2, h3, h4]

/-- The bytes of a string-literal body. -/
def itemsBytes (items : List StrItem) : List Nat :=
  (items.map itemBytes).flatten

/-- Well-formedness of one item: a plain byte is neither quote nor backslash
(so the closing quote of the literal is really terminal), and a two-byte
escape is not `\u` (which consumes six bytes). -/
def itemOk : StrItem → Prop
  | .plain b => b ≠ 34 ∧ b ≠ 92
  | .esc2 c => c ≠ 117
  | .escU _ _ _ _ => True

/-- What `read_string` computes on a well-delimited body, item by item. -/
def scanItems : List StrItem → Except PErr (List Char)
  | [] => .ok []
  | .plain b :: rest => (scanItems rest).map (fun s => byteChar b :: s)
  | .esc2 c :: rest =>
    match escMap c with
    | some ch => (scanItems rest).map (fun s => ch :: s)
    | none => .error (.msg "invalid escape character")
  | .escU h1 h2 h3 h4 :: rest =>
    match parseHex4 [h1, h2, h3, h4] with
    | none => .error (.msg "invalid hex in unicode escape")
    | some code =>
      match charFromNat code with
      | none => .error (.msg "invalid unicode code point")
      | some ch => (scanItems rest).map (fun s => ch :: s)

/-- A lexeme of the token scanner: a one-byte structural delimiter, a string
literal, or a bare term. -/
inductive Lex where
  | delim (b : Nat)
  | str (items : List StrItem)
  | term (bs : List Nat)

/-- The bytes of a lexeme. -/
def lexBytes : Lex → List Nat
  | .delim b => [b]
  | .str items => 34 :: (itemsBytes items ++ [34])
  | .term bs => bs

/-- The token `read_token` produces for a lexeme: a function of the lexeme
alone, independent of the surrounding whitespace. -/
def lexTok {Flt : Type} (parseNum : List Nat → Option Flt) : Lex → Except PErr (Tok Flt)
  | .delim b => .ok (tokOfDelim b)
  | .str items =>
    match scanItems items with
    | .ok s => .ok (.str s)
    | .error e => .error e
  | .term bs => termTok parseNum bs

/-- Well-formedness of a lexeme: a delimiter byte is a delimiter; string items
are well delimited; a term is a nonempty run of non-whitespace non-delimiter
bytes not starting with a quote. -/
def lexOk : Lex → Prop
  | .delim b => isDelimB b = true
  | .str items => ∀ i ∈ items, itemOk i
  | .term bs => bs ≠ [] ∧ (∀ b ∈ bs, isWsB b = false ∧ isDelimB b = false) ∧
      (∀ b, bs.head? = some b → b ≠ 34)

/-- Assemble an input from whitespace-prefixed lexemes and trailing bytes. -/
def asm : List (List Nat × Lex) → List Nat → List Nat
  | [], tail => tail
  | (w, l) :: ps, tail => w ++ (lexBytes l ++ asm ps tail)

/-- Separation after a term lexeme: what follows must not extend the term, so
either the next whitespace run is nonempty or the next lexeme is a
delimiter (the trailing bytes of the input are whitespace by `psOk`). -/
def sepHead : Lex → List (List Nat × Lex) → Prop
  | .term _, [] => True
  | .term _, (w2, l2) :: _ => w2 ≠ [] ∨ ∃ b, l2 = Lex.delim b
  | _, _ => True

/-- Well-formedness of an assembly: every whitespace run is whitespace, every
lexeme is well formed and separated from its successor, and the trailing
bytes are whitespace. -/
def psOk : List (List Nat × Lex) → List Nat → Prop
  | [], tail => ∀ b ∈ tail, isWsB b = true
  | (w, l) :: rest, tail => (∀ b ∈ w, isWsB b = true) ∧ lexOk l ∧
      sepHead l rest ∧ psOk rest tail

/-- Two parser positions are aligned when both stand at a lexeme boundary of
their input, the remaining lexemes agree, and only the whitespace differs. -/
def aligned (buf1 buf2 tail1 tail2 : List Nat) (p1 p2 : Nat) : Prop :=
  ∃ q1 q2 : List (List Nat × Lex), q1.map Prod.snd = q2.map Prod.snd ∧
    psOk q1 tail1 ∧ psOk q2 tail2 ∧
    buf1.drop p1 = asm q1 tail1 ∧ buf2.drop p2 = asm q2 tail2

/-! ## Basic facts about byte access -/

theorem currentAt_eq (buf : List Nat) (pos : Nat) :
    currentAt buf pos = (buf.drop pos).head? := by
  induction buf generalizing pos with
  | nil => simp [currentAt]
  | cons x xs ih =>
    cases pos with
    | zero => simp [currentAt]
    | succ p => simpa [currentAt] using ih p

theorem readByteAt_cons {buf : List Nat} {pos b : Nat} {rest : List Nat}
    (h : buf.drop pos = b :: rest) : readByteAt buf pos = some (b, pos + 1) := by
  simp [readByteAt, currentAt_eq, h]

theorem readByteAt_nil {buf : List Nat} {pos : Nat} (h : buf.drop pos = []) :
    readByteAt buf pos = none := by
  simp [readByteAt, currentAt_eq, h]

theorem drop_succ_of_drop_cons {buf : List Nat} {pos b : Nat} {rest : List Nat}
    (h : buf.drop pos = b :: rest) : buf.drop (pos + 1) = rest := by
  have h1 : (buf.drop pos).drop 1 = rest := by rw [h]; rfl
  rw [List.drop_drop] at h1
  simpa [Nat.add_comm] using h1

theorem lt_of_drop_cons {buf : List Nat} {pos b : Nat} {rest : List Nat}
    (h : buf.drop pos = b :: rest) : pos < buf.length := by
  have h1 : (buf.drop pos).length = rest.length + 1 := by rw [h]; rfl
  rw [List.length_drop] at h1
  omega

theorem drop_len_le {buf : List Nat} {pos : Nat} (h : buf.length ≤ pos) :
    buf.drop pos = [] := by
  exact List.drop_eq_nil_of_le h

/-! ## skip_whitespace -/

theorem skipWs_nil {buf : List Nat} {pos : Nat} (h : buf.drop pos = []) :
    skipWs buf pos = pos := by
  have h0 : buf.length - pos = 0 := by
    have h1 : (buf.drop pos).length = 0 := by rw [h]; rfl
    rw [List.length_drop] at h1; omega
  rw [skipWs, h0]; rfl

theorem skipWs_stop {buf : List Nat} {pos b : Nat} {rest : List Nat}
    (h : buf.drop pos = b :: rest) (hb : isWsB b = false) :
    skipWs buf pos = pos := by
  have hlt := lt_of_drop_cons h
  have h0 : buf.length - pos = (buf.length - (pos + 1)) + 1 := by omega
  rw [skipWs, h0]
  simp [skipWsAux, currentAt_eq, h, hb]

theorem skipWs_step {buf : List Nat} {pos b : Nat} {rest : List Nat}
    (h : buf.drop pos = b :: rest) (hb : isWsB b = true) :
    skipWs buf pos = skipWs buf (pos + 1) := by
  have hlt := lt_of_drop_cons h
  have h0 : buf.length - pos = (buf.length - (pos + 1)) + 1 := by omega
  rw [skipWs, h0]
  simp [skipWsAux, currentAt_eq, h, hb, skipWs]

/-- `skip_whitespace` over a maximal run of whitespace. -/
theorem skipWs_run {buf : List Nat} :
    ∀ (ws : List Nat) {pos : Nat} {rest : List Nat},
      buf.drop pos = ws ++ rest → (∀ b ∈ ws, isWsB b = true) →
      (∀ b, rest.head? = some b → isWsB b = false) →
      skipWs buf pos = pos + ws.length ∧ buf.drop (pos + ws.length) = rest := by
  intro ws
  induction ws with
  | nil =>
    intro pos rest h hws hstop
    refine ⟨?_, by simpa using h⟩
    cases hr : rest with
    | nil => exact skipWs_nil (by simpa [hr] using h)
    | cons b tl =>
      exact skipWs_stop (by simpa [hr] using h) (hstop b (by simp [hr]))
  | cons w ws ih =>
    intro pos rest h hws hstop
    have hw : isWsB w = true := hws w (by simp)
    have h1 : buf.drop pos = w :: (ws ++ rest) := by simpa using h
    have h2 : buf.drop (pos + 1) = ws ++ rest := drop_succ_of_drop_cons h1
    have := ih h2 (fun b hb => hws b (by simp [hb])) hstop
    refine ⟨?_, ?_⟩
    · simp only [List.length_cons]
      rw [skipWs_step h1 hw, this.1]; omega
    · simp only [List.length_cons]
      have h3 : pos + (ws.length + 1) = (pos + 1) + ws.length := by omega
      rw [h3]
      exact this.2

/-! ## read_term scanning -/

theorem termEnd_nil {buf : List Nat} {pos : Nat} (h : buf.drop pos = []) :
    termEnd buf pos = pos := by
  have h0 : buf.length - pos = 0 := by
    have h1 : (buf.drop pos).length = 0 := by rw [h]; rfl
    rw [List.length_drop] at h1; omega
  rw [termEnd, h0]; rfl

theorem termEnd_stop {buf : List Nat} {pos b : Nat} {rest : List Nat}
    (h : buf.drop pos = b :: rest) (hb : (isWsB b || isDelimB b) = true) :
    termEnd buf pos = pos := by
  have hlt := lt_of_drop_cons h
  have h0 : buf.length - pos = (buf.length - (pos + 1)) + 1 := by omega
  rw [termEnd, h0]
  simp [termEndAux, currentAt_eq, h, hb]

theorem termEnd_step {buf : List Nat} {pos b : Nat} {rest : List Nat}
    (h : buf.drop pos = b :: rest) (hb : (isWsB b || isDelimB b) = false) :
    termEnd buf pos = termEnd buf (pos + 1) := by
  have hlt := lt_of_drop_cons h
  have h0 : buf.length - pos = (buf.length - (pos + 1)) + 1 := by omega
  rw [termEnd, h0]
  simp [termEndAux, currentAt_eq, h, hb, termEnd]

/-- The term scan over a maximal run of non-whitespace non-delimiter bytes. -/
theorem termEnd_run {buf : List Nat} :
    ∀ (bs : List Nat) {pos : Nat} {rest : List Nat},
      buf.drop pos = bs ++ rest → (∀ b ∈ bs, (isWsB b || isDelimB b) = false) →
      (∀ b, rest.head? = some b → (isWsB b || isDelimB b) = true) →
      termEnd buf pos = pos + bs.length := by
  intro bs
  induction bs with
  | nil =>
    intro pos rest h hbs hstop
    cases hr : rest with
    | nil => simpa using termEnd_nil (by simpa [hr] using h)
    | cons b tl =>
      simpa using termEnd_stop (by simpa [hr] using h) (hstop b (by simp [hr]))
  | cons x bs ih =>
    intro pos rest h hbs hstop
    have hx : (isWsB x || isDelimB x) = false := hbs x (by simp)
    have h1 : buf.drop pos = x :: (bs ++ rest) := by simpa using h
    have h2 : buf.drop (pos + 1) = bs ++ rest := drop_succ_of_drop_cons h1
    have := ih h2 (fun b hb => hbs b (by simp [hb])) hstop
    simp only [List.length_cons]
    rw [termEnd_step h1 hx, this]
    omega

/-- `Parser::read_term` on a delimited term slice. -/
theorem readTerm_spec {Flt : Type} (parseNum : List Nat → Option Flt)
    {buf : List Nat} {bs : List Nat} {pos : Nat} {rest : List Nat}
    (h : buf.drop pos = bs ++ rest) (hbs : ∀ b ∈ bs, (isWsB b || isDelimB b) = false)
    (hstop : ∀ b, rest.head? = some b → (isWsB b || isDelimB b) = true) :
    readTerm parseNum buf pos = (termTok parseNum bs, pos + bs.length) := by
  have he := termEnd_run bs h hbs hstop
  rw [readTerm]
  simp only [he, h, Nat.add_sub_cancel_left, List.take_left]

/-! ## read_string -/

theorem readByteAt_some {buf : List Nat} {pos b p1 : Nat}
    (h : readByteAt buf pos = some (b, p1)) : pos < buf.length ∧ p1 = pos + 1 := by
  rw [readByteAt] at h
  cases hc : currentAt buf pos with
  | none => rw [hc] at h; exact absurd h (by simp)
  | some x =>
    rw [hc] at h
    have hx : x = b ∧ pos + 1 = p1 := by
      simpa using h
    refine ⟨?_, hx.2.symm⟩
    rw [currentAt_eq] at hc
    by_contra hge
    push_neg at hge
    rw [drop_len_le hge] at hc
    exact absurd hc (by simp)

/-- The string-scan budget never matters once it covers the bytes remaining:
any larger budget computes `readString`. -/
theorem readStringAux_budget (buf : List Nat) :
    ∀ k pos, buf.length - pos ≤ k → readStringAux buf k pos = readString buf pos := by
  intro k
  induction k using Nat.strong_induction_on with
  | _ k ih =>
    intro pos hk
    cases hb : readByteAt buf pos with
    | none =>
      have hpos : buf.length ≤ pos := by
        by_contra hlt
        push_neg at hlt
        cases hd : buf.drop pos with
        | nil =>
          have h1 : (buf.drop pos).length = 0 := by rw [hd]; rfl
          rw [List.length_drop] at h1
          omega
        | cons x xs =>
          rw [readByteAt_cons hd] at hb
          exact absurd hb (by simp)
      have h0 : buf.length - pos = 0 := by omega
      rw [readString, h0]
      cases k with
      | zero => rfl
      | succ k2 => simp [readStringAux, hb]
    | some bp =>
      obtain ⟨b, p1⟩ := bp
      obtain ⟨hlt, rfl⟩ := readByteAt_some hb
      have hm : buf.length - pos = (buf.length - (pos + 1)) + 1 := by omega
      obtain ⟨k2, rfl⟩ : ∃ k2, k = k2 + 1 := ⟨k - 1, by omega⟩
      rw [readString, hm]
      have leaf : ∀ p2, pos + 1 ≤ p2 →
          readStringAux buf k2 p2 = readStringAux buf (buf.length - (pos + 1)) p2 := by
        intro p2 hp2
        rw [ih k2 (by omega) p2 (by omega), ih (buf.length - (pos + 1)) (by omega) p2 (by omega)]
      simp only [readStringAux, hb]
      by_cases h34 : b = 34
      · simp [h34]
      · simp only [if_neg h34]
        by_cases h92 : b = 92
        · simp only [if_pos h92]
          cases hc : readByteAt buf (pos + 1) with
          | none => rfl
          | some cp =>
            obtain ⟨c, p2⟩ := cp
            obtain ⟨hlt2, rfl⟩ := readByteAt_some hc
            by_cases hesc : c = 34 || c = 92 || c = 47
            · simp only [if_pos hesc]
              rw [leaf (pos + 1 + 1) (by omega)]
            · simp only [if_neg hesc]
              by_cases h98 : c = 98
              · simp only [if_pos h98]; rw [leaf (pos + 1 + 1) (by omega)]
              · simp only [if_neg h98]
                by_cases h102 : c = 102
                · simp only [if_pos h102]; rw [leaf (pos + 1 + 1) (by omega)]
                · simp only [if_neg h102]
                  by_cases h110 : c = 110
                  · simp only [if_pos h110]; rw [leaf (pos + 1 + 1) (by omega)]
                  · simp only [if_neg h110]
                    by_cases h114 : c = 114
                    · simp only [if_pos h114]; rw [leaf (pos + 1 + 1) (by omega)]
                    · simp only [if_neg h114]
                      by_cases h116 : c = 116
                      · simp only [if_pos h116]; rw [leaf (pos + 1 + 1) (by omega)]
                      · simp only [if_neg h116]
                        by_cases h117 : c = 117
                        · simp only [if_pos h117]
                          cases hd1 : readByteAt buf (pos + 1 + 1) with
                          | none => rfl
                          | some d1p =>
                            obtain ⟨d1, p3⟩ := d1p
                            obtain ⟨hlt3, rfl⟩ := readByteAt_some hd1
                            dsimp only
                            cases hd2 : readByteAt buf (pos + 1 + 1 + 1) with
                            | none => rfl
                            | some d2p =>
                              obtain ⟨d2, p4⟩ := d2p
                              obtain ⟨hlt4, rfl⟩ := readByteAt_some hd2
                              dsimp only
                              cases hd3 : readByteAt buf (pos + 1 + 1 + 1 + 1) with
                              | none => rfl
                              | some d3p =>
                                obtain ⟨d3, p5⟩ := d3p
                                obtain ⟨hlt5, rfl⟩ := readByteAt_some hd3
                                dsimp only
                                cases hd4 : readByteAt buf (pos + 1 + 1 + 1 + 1 + 1) with
                                | none => rfl
                                | some d4p =>
                                  obtain ⟨d4, p6⟩ := d4p
                                  obtain ⟨hlt6, rfl⟩ := readByteAt_some hd4
                                  dsimp only
                                  cases parseHex4 [d1, d2, d3, d4] with
                                  | none => rfl
                                  | some code =>
                                    dsimp only
                                    cases charFromNat code with
                                    | none => rfl
                                    | some ch =>
                                      dsimp only
                                      rw [leaf (pos + 1 + 1 + 1 + 1 + 1 + 1) (by omega)]
                        · simp only [if_neg h117]
        · simp only [if_neg h92]
          rw [leaf (pos + 1) (by omega)]

theorem readString_end {buf : List Nat} {pos : Nat} (h : buf.drop pos = []) :
    readString buf pos = (.error (.msg "EOF"), pos) := by
  have h0 : buf.length - pos = 0 := by
    have h1 : (buf.drop pos).length = 0 := by rw [h]; rfl
    rw [List.length_drop] at h1; omega
  rw [readString, h0]; rfl

theorem readString_quote {buf : List Nat} {pos : Nat} {rest : List Nat}
    (h : buf.drop pos = 34 :: rest) :
    readString buf pos = (.ok [], pos + 1) := by
  have hlt := lt_of_drop_cons h
  have hm : buf.length - pos = (buf.length - (pos + 1)) + 1 := by omega
  rw [readString, hm]
  simp [readStringAux, readByteAt_cons h]

theorem readString_plain {buf : List Nat} {pos b : Nat} {rest : List Nat}
    (h : buf.drop pos = b :: rest) (h34 : b ≠ 34) (h92 : b ≠ 92) :
    readString buf pos = pushCont (byteChar b) (readString buf (pos + 1)) := by
  have hlt := lt_of_drop_cons h
  have hm : buf.length - pos = (buf.length - (pos + 1)) + 1 := by omega
  rw [readString, hm]
  simp only [readStringAux, readByteAt_cons h, if_neg h34, if_neg h92]
  rfl

theorem readString_escSimple {buf : List Nat} {pos c : Nat} {rest : List Nat} {ch : Char}
    (h : buf.drop pos = 92 :: c :: rest) (hc : escMap c = some ch) :
    readString buf pos = pushCont ch (readString buf (pos + 2)) := by
  have hlt := lt_of_drop_cons h
  have h1 : buf.drop (pos + 1) = c :: rest := drop_succ_of_drop_cons h
  have hm : buf.length - pos = (buf.length - (pos + 1)) + 1 := by omega
  have hb : readStringAux buf (buf.length - (pos + 1)) (pos + 1 + 1) =
      readString buf (pos + 2) := by
    have h2 : pos + 1 + 1 = pos + 2 := by omega
    rw [h2, readStringAux_budget buf (buf.length - (pos + 1)) (pos + 2) (by omega)]
  rw [readString, hm]
  simp only [readStringAux, readByteAt_cons h, readByteAt_cons h1]
  rw [escMap] at hc
  by_cases he : c = 34 || c = 92 || c = 47
  · rw [if_pos he] at hc
    simp only [if_neg (show ¬(92 = 34) by decide), if_pos rfl, if_pos he, if_true]
    rw [Option.some_inj] at hc
    rw [hc, hb]
  · rw [if_neg he] at hc
    simp only [if_neg (show ¬(92 = 34) by decide), if_pos rfl, if_neg he, if_true]
    by_cases h98 : c = 98
    · rw [if_pos h98] at hc
      simp only [if_pos h98, ← Option.some_inj.mp hc, hb, if_true]
    · rw [if_neg h98] at hc
      simp only [if_neg h98]
      by_cases h102 : c = 102
      · rw [if_pos h102] at hc
        simp only [if_pos h102, ← Option.some_inj.mp hc, hb, if_true]
      · rw [if_neg h102] at hc
        simp only [if_neg h102]
        by_cases h110 : c = 110
        · rw [if_pos h110] at hc
          simp only [if_pos h110, ← Option.some_inj.mp hc, hb, if_true]
        · rw [if_neg h110] at hc
          simp only [if_neg h110]
          by_cases h114 : c = 114
          · rw [if_pos h114] at hc
            simp only [if_pos h114, ← Option.some_inj.mp hc, hb, if_true]
          · rw [if_neg h114] at hc
            simp only [if_neg h114]
            by_cases h116 : c = 116
            · rw [if_pos h116] at hc
              simp only [if_pos h116, ← Option.some_inj.mp hc, hb, if_true]
            · rw [if_neg h116] at hc
              exact absurd hc (by simp)

theorem readString_escU {buf : List Nat} {pos d1 d2 d3 d4 : Nat} {rest : List Nat}
    (h : buf.drop pos = 92 :: 117 :: d1 :: d2 :: d3 :: d4 :: rest) :
    readString buf pos =
      match parseHex4 [d1, d2, d3, d4] with
      | none => (.error (.msg "invalid hex in unicode escape"), pos + 6)
      | some code =>
        match charFromNat code with
        | none => (.error (.msg "invalid unicode code point"), pos + 6)
        | some ch => pushCont ch (readString buf (pos + 6)) := by
  have hlt := lt_of_drop_cons h
  have h1 : buf.drop (pos + 1) = 117 :: d1 :: d2 :: d3 :: d4 :: rest :=
    drop_succ_of_drop_cons h
  have h2 : buf.drop (pos + 1 + 1) = d1 :: d2 :: d3 :: d4 :: rest :=
    drop_succ_of_drop_cons h1
  have h3 : buf.drop (pos + 1 + 1 + 1) = d2 :: d3 :: d4 :: rest :=
    drop_succ_of_drop_cons h2
  have h4 : buf.drop (pos + 1 + 1 + 1 + 1) = d3 :: d4 :: rest :=
    drop_succ_of_drop_cons h3
  have h5 : buf.drop (pos + 1 + 1 + 1 + 1 + 1) = d4 :: rest :=
    drop_succ_of_drop_cons h4
  have hm : buf.length - pos = (buf.length - (pos + 1)) + 1 := by omega
  have hb : readStringAux buf (buf.length - (pos + 1)) (pos + 1 + 1 + 1 + 1 + 1 + 1) =
      readString buf (pos + 6) := by
    have h6 : pos + 1 + 1 + 1 + 1 + 1 + 1 = pos + 6 := by omega
    rw [h6, readStringAux_budget buf (buf.length - (pos + 1)) (pos + 6) (by omega)]
  have h6 : pos + 1 + 1 + 1 + 1 + 1 + 1 = pos + 6 := by omega
  rw [readString, hm]
  simp only [readStringAux, readByteAt_cons h, readByteAt_cons h1, readByteAt_cons h2,
    readByteAt_cons h3, readByteAt_cons h4, readByteAt_cons h5]
  simp only [if_neg (show ¬(92 = 34) by decide), if_pos rfl,
    if_neg (show ¬(117 = 34 || 117 = 92 || 117 = 47) = true by decide),
    if_neg (show ¬(117 = 98) by decide), if_neg (show ¬(117 = 102) by decide),
    if_neg (show ¬(117 = 110) by decide), if_neg (show ¬(117 = 114) by decide),
    if_neg (show ¬(117 = 116) by decide), if_pos rfl, if_true]
  cases parseHex4 [d1, d2, d3, d4] with
  | none => simp [h6]
  | some code =>
    dsimp only
    cases charFromNat code with
    | none => simp [h6]
    | some ch => simp [hb]

theorem readString_escBad {buf : List Nat} {pos c : Nat} {rest : List Nat}
    (h : buf.drop pos = 92 :: c :: rest) (hc : escMap c = none) (h117 : c ≠ 117) :
    readString buf pos = (.error (.msg "invalid escape character"), pos + 2) := by
  have hlt := lt_of_drop_cons h
  have h1 : buf.drop (pos + 1) = c :: rest := drop_succ_of_drop_cons h
  have hm : buf.length - pos = (buf.length - (pos + 1)) + 1 := by omega
  rw [readString, hm]
  simp only [readStringAux, readByteAt_cons h, readByteAt_cons h1]
  rw [escMap] at hc
  by_cases he : c = 34 || c = 92 || c = 47
  · rw [if_pos he] at hc; exact absurd hc (by simp)
  · rw [if_neg he] at hc
    by_cases h98 : c = 98
    · rw [if_pos h98] at hc; exact absurd hc (by simp)
    · rw [if_neg h98] at hc
      by_cases h102 : c = 102
      · rw [if_pos h102] at hc; exact absurd hc (by simp)
      · rw [if_neg h102] at hc
        by_cases h110 : c = 110
        · rw [if_pos h110] at hc; exact absurd hc (by simp)
        · rw [if_neg h110] at hc
          by_cases h114 : c = 114
          · rw [if_pos h114] at hc; exact absurd hc (by simp)
          · rw [if_neg h114] at hc
            by_cases h116 : c = 116
            · rw [if_pos h116] at hc; exact absurd hc (by simp)
            · rw [if_neg h116] at hc
              simp only [if_neg (show ¬(92 = 34) by decide), if_pos rfl, if_neg he,
                if_neg h98, if_neg h102, if_neg h110, if_neg h114, if_neg h116,
                if_neg h117, if_true]

/-! ## read_token -/

theorem readToken_cacheSome {Flt : Type} (parseNum : List Nat → Option Flt)
    (buf : List Nat) (pos : Nat) (r : Except PErr (Tok Flt)) :
    readToken parseNum buf ⟨pos, some r⟩ = (r, ⟨pos, none⟩) := rfl

theorem readToken_cacheNone {Flt : Type} (parseNum : List Nat → Option Flt)
    (buf : List Nat) (pos : Nat) :
    readToken parseNum buf ⟨pos, none⟩ =
      ((readTokenRaw parseNum buf pos).1, ⟨(readTokenRaw parseNum buf pos).2, none⟩) := by
  rw [readToken]

theorem peekToken_eq {Flt : Type} (parseNum : List Nat → Option Flt)
    (buf : List Nat) (s : PSt Flt) :
    peekToken parseNum buf s =
      ((readToken parseNum buf s).1,
        ⟨(readToken parseNum buf s).2.pos, some (readToken parseNum buf s).1⟩) := by
  rw [peekToken]

theorem isDelimB_not_ws {b : Nat} (h : isDelimB b = true) : isWsB b = false := by
  rw [isDelimB] at h
  simp only [Bool.or_eq_true, decide_eq_true_eq] at h
  rw [isWsB]
  rcases h with ((((h | h) | h) | h) | h) | h <;> subst h <;> decide

/-- `read_token` at end of input (possibly after trailing whitespace). -/
theorem readTokenRaw_eof {Flt : Type} (parseNum : List Nat → Option Flt)
    {buf : List Nat} {pos : Nat} {ws : List Nat}
    (hdrop : buf.drop pos = ws) (hws : ∀ x ∈ ws, isWsB x = true) :
    readTokenRaw parseNum buf pos = (.error (.msg "EOF"), pos + ws.length) := by
  have hdrop2 : buf.drop pos = ws ++ ([] : List Nat) := by
    rw [hdrop, List.append_nil]
  have hrun := skipWs_run ws hdrop2 hws (by simp)
  rw [readTokenRaw]
  simp only [hrun.1, readByteAt_nil hrun.2]

/-- `read_token` on a structural delimiter byte. -/
theorem readTokenRaw_delim {Flt : Type} (parseNum : List Nat → Option Flt)
    {buf : List Nat} {pos b : Nat} {ws rest : List Nat}
    (hdrop : buf.drop pos = ws ++ b :: rest) (hws : ∀ x ∈ ws, isWsB x = true)
    (hb : isDelimB b = true) :
    readTokenRaw parseNum buf pos = (.ok (tokOfDelim b), pos + ws.length + 1) := by
  have hrun := skipWs_run ws hdrop hws
    (by intro x hx; simp at hx; subst hx; exact isDelimB_not_ws hb)
  rw [readTokenRaw]
  simp only [hrun.1, readByteAt_cons hrun.2]
  rw [isDelimB] at hb
  simp only [Bool.or_eq_true, decide_eq_true_eq] at hb
  rcases hb with ((((h | h) | h) | h) | h) | h <;> subst h <;>
    simp [tokOfDelim]

/-- `read_token` on an opening quote byte. -/
theorem readTokenRaw_string {Flt : Type} (parseNum : List Nat → Option Flt)
    {buf : List Nat} {pos : Nat} {ws rest : List Nat}
    (hdrop : buf.drop pos = ws ++ 34 :: rest) (hws : ∀ x ∈ ws, isWsB x = true) :
    readTokenRaw parseNum buf pos =
      (match readString buf (pos + ws.length + 1) with
       | (.ok s, p2) => (.ok (.str s), p2)
       | (.error e, p2) => (.error e, p2)) := by
  have hrun := skipWs_run ws hdrop hws (by intro x hx; simp at hx; subst hx; rfl)
  rw [readTokenRaw]
  simp only [hrun.1, readByteAt_cons hrun.2, if_pos rfl, if_true]

/-- `read_token` on a term: any other first byte backs up one position and
scans a term slice. -/
theorem readTokenRaw_term {Flt : Type} (parseNum : List Nat → Option Flt)
    {buf : List Nat} {pos b0 : Nat} {ws bs rest : List Nat}
    (hdrop : buf.drop pos = ws ++ (b0 :: bs) ++ rest)
    (hws : ∀ x ∈ ws, isWsB x = true)
    (hbs : ∀ x ∈ b0 :: bs, (isWsB x || isDelimB x) = false)
    (h34 : b0 ≠ 34)
    (hstop : ∀ x, rest.head? = some x → (isWsB x || isDelimB x) = true) :
    readTokenRaw parseNum buf pos =
      (termTok parseNum (b0 :: bs), pos + ws.length + (bs.length + 1)) := by
  have hb0 := hbs b0 (by simp)
  simp only [Bool.or_eq_false_iff] at hb0
  have hrun := skipWs_run ws (by simpa using hdrop)
    hws (by intro x hx; simp at hx; subst hx; exact hb0.1)
  have hdelim : isDelimB b0 = false := hb0.2
  rw [isDelimB] at hdelim
  simp only [Bool.or_eq_false_iff, decide_eq_false_iff_not] at hdelim
  obtain ⟨⟨⟨⟨⟨h123, h125⟩, h91⟩, h93⟩, h58⟩, h44⟩ := hdelim
  rw [readTokenRaw]
  simp only [hrun.1, readByteAt_cons hrun.2]
  rw [if_neg h34, if_neg h91, if_neg h93, if_neg h123, if_neg h125, if_neg h44, if_neg h58]
  have hdec : decPos (pos + ws.length + 1) = some (pos + ws.length) := by
    rw [decPos, if_neg (by omega), Nat.add_sub_cancel]
  rw [hdec]
  dsimp only
  rw [readTerm_spec parseNum (by simpa using hrun.2) hbs hstop]
  simp only [List.length_cons]

/-- `read_string` copies a backslash-free, quote-free byte run as the
characters of the same numeric values. -/
theorem readString_verbatim {buf : List Nat} :
    ∀ (bs : List Nat) {pos : Nat} {rest : List Nat},
      buf.drop pos = bs ++ 34 :: rest → (∀ b ∈ bs, b ≠ 34 ∧ b ≠ 92) →
      readString buf pos = (.ok (bs.map byteChar), pos + (bs.length + 1)) := by
  intro bs
  induction bs with
  | nil =>
    intro pos rest h _
    simpa using readString_quote (by simpa using h)
  | cons b tl ih =>
    intro pos rest h hb
    have h1 : buf.drop pos = b :: (tl ++ 34 :: rest) := by simpa using h
    have h2 : buf.drop (pos + 1) = tl ++ 34 :: rest := drop_succ_of_drop_cons h1
    have hbb := hb b (by simp)
    rw [readString_plain h1 hbb.1 hbb.2,
      ih h2 (fun x hx => hb x (by simp [hx]))]
    rw [pushCont]
    simp only [List.map_cons, List.length_cons, Prod.mk.injEq]
    exact ⟨trivial, by omega⟩

/-! ## read_value on a single token -/

theorem readValue_str {Flt : Type} (parseNum : List Nat → Option Flt)
    {buf : List Nat} (k : Nat) {pos p : Nat} {s0 : List Char}
    (h : readTokenRaw parseNum buf pos = (.ok (.str s0), p)) :
    readValue parseNum buf (k + 1) ⟨pos, none⟩ = (.ok (.vstring s0), ⟨p, none⟩) := by
  simp only [readValue, readToken_cacheNone, h]

theorem readValue_number {Flt : Type} (parseNum : List Nat → Option Flt)
    {buf : List Nat} (k : Nat) {pos p : Nat} {n : Flt}
    (h : readTokenRaw parseNum buf pos = (.ok (.number n), p)) :
    readValue parseNum buf (k + 1) ⟨pos, none⟩ = (.ok (.vnumber n), ⟨p, none⟩) := by
  simp only [readValue, readToken_cacheNone, h]

theorem readValue_boolean {Flt : Type} (parseNum : List Nat → Option Flt)
    {buf : List Nat} (k : Nat) {pos p : Nat} {b : Bool}
    (h : readTokenRaw parseNum buf pos = (.ok (.boolean b), p)) :
    readValue parseNum buf (k + 1) ⟨pos, none⟩ = (.ok (.vbool b), ⟨p, none⟩) := by
  simp only [readValue, readToken_cacheNone, h]

theorem readValue_null {Flt : Type} (parseNum : List Nat → Option Flt)
    {buf : List Nat} (k : Nat) {pos p : Nat}
    (h : readTokenRaw parseNum buf pos = (.ok .null, p)) :
    readValue parseNum buf (k + 1) ⟨pos, none⟩ = (.ok .vnull, ⟨p, none⟩) := by
  simp only [readValue, readToken_cacheNone, h]

theorem readValue_err {Flt : Type} (parseNum : List Nat → Option Flt)
    {buf : List Nat} (k : Nat) {pos p : Nat} {e : PErr}
    (h : readTokenRaw parseNum buf pos = (.error e, p)) :
    readValue parseNum buf (k + 1) ⟨pos, none⟩ = (.error e, ⟨p, none⟩) := by
  simp only [readValue, readToken_cacheNone, h]

theorem readValue_lbrace {Flt : Type} (parseNum : List Nat → Option Flt)
    {buf : List Nat} (k : Nat) {pos p : Nat}
    (h : readTokenRaw parseNum buf pos = (.ok .lbrace, p)) :
    readValue parseNum buf (k + 1) ⟨pos, none⟩ =
      (match readObjectLoop parseNum buf k .nil ⟨p, none⟩ with
       | (.ok ms, s2) => (.ok (.vobject ms), s2)
       | (.error e, s2) => (.error e, s2)) := by
  simp only [readValue, readToken_cacheNone, h]

theorem readValue_langle {Flt : Type} (parseNum : List Nat → Option Flt)
    {buf : List Nat} (k : Nat) {pos p : Nat}
    (h : readTokenRaw parseNum buf pos = (.ok .langle, p)) :
    readValue parseNum buf (k + 1) ⟨pos, none⟩ =
      (match readArrayLoop parseNum buf k .nil ⟨p, none⟩ with
       | (.ok vs, s2) => (.ok (.varray vs), s2)
       | (.error e, s2) => (.error e, s2)) := by
  simp only [readValue, readToken_cacheNone, h]

/-- A `\u` escape as the entire content of a top-level string literal. -/
theorem deserialize_uescape {Flt : Type} (parseNum : List Nat → Option Flt)
    (d1 d2 d3 d4 : Nat) :
    deserialize parseNum [34, 92, 117, d1, d2, d3, d4, 34] =
      match parseHex4 [d1, d2, d3, d4] with
      | none => .error (.msg "invalid hex in unicode escape")
      | some code =>
        match charFromNat code with
        | none => .error (.msg "invalid unicode code point")
        | some ch => .ok (.vstring [ch]) := by
  set buf : List Nat := [34, 92, 117, d1, d2, d3, d4, 34] with hbuf
  have hd0 : buf.drop 0 = ([] : List Nat) ++ 34 :: [92, 117, d1, d2, d3, d4, 34] := rfl
  have htok := readTokenRaw_string parseNum hd0 (by simp)
  simp only [List.length_nil, Nat.add_zero, Nat.zero_add] at htok
  have hdu : buf.drop 1 = 92 :: 117 :: d1 :: d2 :: d3 :: d4 :: [34] := rfl
  have hu := readString_escU hdu
  have h16 : (1 : Nat) + 6 = 7 := rfl
  rw [deserialize]
  cases hhex : parseHex4 [d1, d2, d3, d4] with
  | none =>
    rw [hhex] at hu
    dsimp only at hu
    rw [hu] at htok
    dsimp only at htok
    rw [readValue_err parseNum _ htok]
  | some code =>
    rw [hhex] at hu
    dsimp only at hu
    cases hch : charFromNat code with
    | none =>
      rw [hch] at hu
      dsimp only at hu
      rw [hu] at htok
      dsimp only at htok
      rw [readValue_err parseNum _ htok]
      dsimp only
      rw [hch]
    | some ch =>
      rw [hch] at hu
      dsimp only at hu
      have hd7 : buf.drop 7 = 34 :: ([] : List Nat) := rfl
      have hq : readString buf 7 = (.ok [], 7 + 1) := readString_quote hd7
      rw [h16, hq] at hu
      dsimp only [pushCont] at hu
      rw [hu] at htok
      dsimp only at htok
      rw [readValue_str parseNum _ htok]
      dsimp only
      rw [hch]

/-! ## Scanner invariants: position bounds and error shapes -/

theorem pushCont_cases (c : Char) (r : (Except PErr (List Char)) × Nat) :
    (∃ s0, r = (.ok s0, r.2) ∧ pushCont c r = (.ok (c :: s0), r.2)) ∨
    (∃ e, r = (.error e, r.2) ∧ pushCont c r = (.error e, r.2)) := by
  rcases r with ⟨res, q⟩
  cases res with
  | ok s0 => exact Or.inl ⟨s0, rfl, rfl⟩
  | error e => exact Or.inr ⟨e, rfl, rfl⟩

theorem skipWsAux_bounds (buf : List Nat) :
    ∀ k pos, pos ≤ skipWsAux buf k pos ∧ skipWsAux buf k pos ≤ pos + k := by
  intro k
  induction k with
  | zero => intro pos; simp [skipWsAux]
  | succ k ih =>
    intro pos
    rw [skipWsAux]
    cases currentAt buf pos with
    | none => simp
    | some b =>
      dsimp only
      split
      · have := ih (pos + 1)
        omega
      · omega

theorem skipWs_bounds (buf : List Nat) (pos : Nat) :
    pos ≤ skipWs buf pos ∧ (pos ≤ buf.length → skipWs buf pos ≤ buf.length) := by
  have := skipWsAux_bounds buf (buf.length - pos) pos
  rw [skipWs]
  omega

theorem termEndAux_bounds (buf : List Nat) :
    ∀ k pos, pos ≤ termEndAux buf k pos ∧ termEndAux buf k pos ≤ pos + k := by
  intro k
  induction k with
  | zero => intro pos; simp [termEndAux]
  | succ k ih =>
    intro pos
    rw [termEndAux]
    cases currentAt buf pos with
    | none => simp
    | some b =>
      dsimp only
      split
      · omega
      · have := ih (pos + 1)
        omega

theorem termEnd_bounds (buf : List Nat) (pos : Nat) :
    pos ≤ termEnd buf pos ∧ (pos ≤ buf.length → termEnd buf pos ≤ buf.length) := by
  have := termEndAux_bounds buf (buf.length - pos) pos
  rw [termEnd]
  omega

/-- The byte (if any) at the position where `skip_whitespace` stops is not
whitespace. -/
theorem skipWs_current (buf : List Nat) :
    ∀ pos b, currentAt buf (skipWs buf pos) = some b → isWsB b = false := by
  suffices h : ∀ n pos b, buf.length - pos ≤ n →
      currentAt buf (skipWs buf pos) = some b → isWsB b = false by
    intro pos b
    exact h (buf.length - pos) pos b le_rfl
  intro n
  induction n with
  | zero =>
    intro pos b hn hcur
    have hd : buf.drop pos = [] := drop_len_le (by omega)
    rw [skipWs_nil hd, currentAt_eq, hd] at hcur
    exact absurd hcur (by simp)
  | succ n ih =>
    intro pos b hn hcur
    cases hd : buf.drop pos with
    | nil =>
      rw [skipWs_nil hd, currentAt_eq, hd] at hcur
      exact absurd hcur (by simp)
    | cons x xs =>
      have hlt := lt_of_drop_cons hd
      by_cases hx : isWsB x = true
      · rw [skipWs_step hd hx] at hcur
        exact ih (pos + 1) b (by omega) hcur
      · rw [skipWs_stop hd (by simpa using hx), currentAt_eq, hd] at hcur
        have : x = b := by simpa using hcur
        subst this
        simpa using hx

/-- `read_string` postcondition: a success strictly advances the position and
stays inside the buffer; an error is always a `msg` error. -/
theorem readStringAux_inv (buf : List Nat) :
    ∀ k pos r p', readStringAux buf k pos = (r, p') →
      (∀ s, r = .ok s → pos < p' ∧ p' ≤ buf.length) ∧
      (∀ e, r = .error e → ∃ m, e = .msg m) := by
  intro k
  induction k with
  | zero =>
    intro pos r p' h
    rw [readStringAux] at h
    rw [Prod.mk.injEq] at h
    refine ⟨fun s hs => ?_, fun e he => ?_⟩
    · rw [← h.1] at hs; exact absurd hs (by simp)
    · rw [← h.1] at he; exact ⟨"EOF", by simpa using he.symm⟩
  | succ k ih =>
    intro pos r p' h
    rw [readStringAux] at h
    cases hb : readByteAt buf pos with
    | none =>
      rw [hb] at h
      rw [Prod.mk.injEq] at h
      refine ⟨fun s hs => ?_, fun e he => ?_⟩
      · rw [← h.1] at hs; exact absurd hs (by simp)
      · rw [← h.1] at he; exact ⟨"EOF", by simpa using he.symm⟩
    | some bp =>
      obtain ⟨b, p1⟩ := bp
      obtain ⟨hlt, rfl⟩ := readByteAt_some hb
      rw [hb] at h
      dsimp only at h
      by_cases h34 : b = 34
      · rw [if_pos h34] at h
        rw [Prod.mk.injEq] at h
        refine ⟨fun s hs => by omega, fun e he => ?_⟩
        rw [← h.1] at he; exact absurd he (by simp)
      · rw [if_neg h34] at h
        by_cases h92 : b = 92
        · rw [if_pos h92] at h
          cases hc : readByteAt buf (pos + 1) with
          | none =>
            rw [hc] at h
            rw [Prod.mk.injEq] at h
            refine ⟨fun s hs => ?_, fun e he => ?_⟩
            · rw [← h.1] at hs; exact absurd hs (by simp)
            · rw [← h.1] at he; exact ⟨"EOF", by simpa using he.symm⟩
          | some cp =>
            obtain ⟨c, p2⟩ := cp
            obtain ⟨hlt2, rfl⟩ := readByteAt_some hc
            rw [hc] at h
            dsimp only at h
            -- helper for the push-continue leaves
            have leaf : ∀ q ch, pos < q →
                pushCont ch (readStringAux buf k q) = (r, p') →
                (∀ s, r = .ok s → pos < p' ∧ p' ≤ buf.length) ∧
                (∀ e, r = .error e → ∃ m, e = .msg m) := by
              intro q ch hq hpc
              rcases pushCont_cases ch (readStringAux buf k q) with
                ⟨s0, hr0, hout⟩ | ⟨e0, hr0, hout⟩
              · rw [hout] at hpc
                have hrec := ih q _ _ (by rw [hr0])
                rw [Prod.mk.injEq] at hpc
                refine ⟨fun s hs => ?_, fun e he => ?_⟩
                · have := (hrec.1 s0 rfl)
                  omega
                · rw [← hpc.1] at he; exact absurd he (by simp)
              · rw [hout] at hpc
                have hrec := ih q _ _ (by rw [hr0])
                rw [Prod.mk.injEq] at hpc
                refine ⟨fun s hs => ?_, fun e he => ?_⟩
                · rw [← hpc.1] at hs; exact absurd hs (by simp)
                · rw [← hpc.1] at he
                  obtain ⟨m, hm⟩ := hrec.2 e0 rfl
                  have he2 : e0 = e := by simpa using he
                  exact ⟨m, by rw [← he2, hm]⟩
            by_cases hesc : c = 34 || c = 92 || c = 47
            · rw [if_pos hesc] at h
              exact leaf _ _ (by omega) h
            · rw [if_neg hesc] at h
              by_cases h98 : c = 98
              · rw [if_pos h98] at h; exact leaf _ _ (by omega) h
              · rw [if_neg h98] at h
                by_cases h102 : c = 102
                · rw [if_pos h102] at h; exact leaf _ _ (by omega) h
                · rw [if_neg h102] at h
                  by_cases h110 : c = 110
                  · rw [if_pos h110] at h; exact leaf _ _ (by omega) h
                  · rw [if_neg h110] at h
                    by_cases h114 : c = 114
                    · rw [if_pos h114] at h; exact leaf _ _ (by omega) h
                    · rw [if_neg h114] at h
                      by_cases h116 : c = 116
                      · rw [if_pos h116] at h; exact leaf _ _ (by omega) h
                      · rw [if_neg h116] at h
                        by_cases h117 : c = 117
                        · rw [if_pos h117] at h
                          cases hd1 : readByteAt buf (pos + 1 + 1) with
                          | none =>
                            rw [hd1] at h
                            rw [Prod.mk.injEq] at h
                            refine ⟨fun s hs => ?_, fun e he => ?_⟩
                            · rw [← h.1] at hs; exact absurd hs (by simp)
                            · rw [← h.1] at he; exact ⟨"EOF", by simpa using he.symm⟩
                          | some d1p =>
                            obtain ⟨d1, p3⟩ := d1p
                            obtain ⟨hlt3, rfl⟩ := readByteAt_some hd1
                            rw [hd1] at h
                            dsimp only at h
                            cases hd2 : readByteAt buf (pos + 1 + 1 + 1) with
                            | none =>
                              rw [hd2] at h
                              rw [Prod.mk.injEq] at h
                              refine ⟨fun s hs => ?_, fun e he => ?_⟩
                              · rw [← h.1] at hs; exact absurd hs (by simp)
                              · rw [← h.1] at he; exact ⟨"EOF", by simpa using he.symm⟩
                            | some d2p =>
                              obtain ⟨d2, p4⟩ := d2p
                              obtain ⟨hlt4, rfl⟩ := readByteAt_some hd2
                              rw [hd2] at h
                              dsimp only at h
                              cases hd3 : readByteAt buf (pos + 1 + 1 + 1 + 1) with
                              | none =>
                                rw [hd3] at h
                                rw [Prod.mk.injEq] at h
                                refine ⟨fun s hs => ?_, fun e he => ?_⟩
                                · rw [← h.1] at hs; exact absurd hs (by simp)
                                · rw [← h.1] at he; exact ⟨"EOF", by simpa using he.symm⟩
                              | some d3p =>
                                obtain ⟨d3, p5⟩ := d3p
                                obtain ⟨hlt5, rfl⟩ := readByteAt_some hd3
                                rw [hd3] at h
                                dsimp only at h
                                cases hd4 : readByteAt buf (pos + 1 + 1 + 1 + 1 + 1) with
                                | none =>
                                  rw [hd4] at h
                                  rw [Prod.mk.injEq] at h
                                  refine ⟨fun s hs => ?_, fun e he => ?_⟩
                                  · rw [← h.1] at hs; exact absurd hs (by simp)
                                  · rw [← h.1] at he; exact ⟨"EOF", by simpa using he.symm⟩
                                | some d4p =>
                                  obtain ⟨d4, p6⟩ := d4p
                                  obtain ⟨hlt6, rfl⟩ := readByteAt_some hd4
                                  rw [hd4] at h
                                  dsimp only at h
                                  cases hp : parseHex4 [d1, d2, d3, d4] with
                                  | none =>
                                    rw [hp] at h
                                    dsimp only at h
                                    rw [Prod.mk.injEq] at h
                                    refine ⟨fun s hs => ?_, fun e he => ?_⟩
                                    · rw [← h.1] at hs; exact absurd hs (by simp)
                                    · rw [← h.1] at he
                                      exact ⟨"invalid hex in unicode escape",
                                        by simpa using he.symm⟩
                                  | some code =>
                                    rw [hp] at h
                                    dsimp only at h
                                    cases hq : charFromNat code with
                                    | none =>
                                      rw [hq] at h
                                      dsimp only at h
                                      rw [Prod.mk.injEq] at h
                                      refine ⟨fun s hs => ?_, fun e he => ?_⟩
                                      · rw [← h.1] at hs; exact absurd hs (by simp)
                                      · rw [← h.1] at he
                                        exact ⟨"invalid unicode code point",
                                          by simpa using he.symm⟩
                                    | some ch =>
                                      rw [hq] at h
                                      dsimp only at h
                                      exact leaf _ _ (by omega) h
                        · rw [if_neg h117] at h
                          rw [Prod.mk.injEq] at h
                          refine ⟨fun s hs => ?_, fun e he => ?_⟩
                          · rw [← h.1] at hs; exact absurd hs (by simp)
                          · rw [← h.1] at he
                            exact ⟨"invalid escape character", by simpa using he.symm⟩
        · rw [if_neg h92] at h
          rcases pushCont_cases (byteChar b) (readStringAux buf k (pos + 1)) with
            ⟨s0, hr0, hout⟩ | ⟨e0, hr0, hout⟩
          · rw [hout] at h
            have hrec := ih (pos + 1) _ _ (by rw [hr0])
            rw [Prod.mk.injEq] at h
            refine ⟨fun s hs => ?_, fun e he => ?_⟩
            · have := hrec.1 s0 rfl
              omega
            · rw [← h.1] at he; exact absurd he (by simp)
          · rw [hout] at h
            have hrec := ih (pos + 1) _ _ (by rw [hr0])
            rw [Prod.mk.injEq] at h
            refine ⟨fun s hs => ?_, fun e he => ?_⟩
            · rw [← h.1] at hs; exact absurd hs (by simp)
            · rw [← h.1] at he
              obtain ⟨m, hm⟩ := hrec.2 e0 rfl
              have he2 : e0 = e := by simpa using he
              exact ⟨m, by rw [← he2, hm]⟩

theorem readString_inv {buf : List Nat} {pos : Nat} {r : Except PErr (List Char)} {p' : Nat}
    (h : readString buf pos = (r, p')) :
    (∀ s, r = .ok s → pos < p' ∧ p' ≤ buf.length) ∧
    (∀ e, r = .error e → ∃ m, e = .msg m) :=
  readStringAux_inv buf _ pos r p' h

theorem currentAt_some_drop {buf : List Nat} {q b : Nat}
    (h : currentAt buf q = some b) : ∃ rest, buf.drop q = b :: rest := by
  rw [currentAt_eq] at h
  cases hd : buf.drop q with
  | nil => rw [hd] at h; exact absurd h (by simp)
  | cons x xs =>
    rw [hd] at h
    have hxb : x = b := by simpa using h
    subst hxb
    exact ⟨xs, rfl⟩

theorem termTok_inv {Flt : Type} (parseNum : List Nat → Option Flt) (bs : List Nat)
    {e : PErr} (h : termTok parseNum bs = .error e) : ∃ m, e = .msg m := by
  rw [termTok] at h
  by_cases h1 : bs = trueB
  · rw [if_pos h1] at h; exact absurd h (by simp)
  · rw [if_neg h1] at h
    by_cases h2 : bs = falseB
    · rw [if_pos h2] at h; exact absurd h (by simp)
    · rw [if_neg h2] at h
      by_cases h3 : bs = nullB
      · rw [if_pos h3] at h; exact absurd h (by simp)
      · rw [if_neg h3] at h
        cases hpn : parseNum bs with
        | none =>
          rw [hpn] at h
          dsimp only at h
          exact ⟨"invalid number literal", by simpa using h.symm⟩
        | some n =>
          rw [hpn] at h
          dsimp only at h
          exact absurd h (by simp)

/-- `read_token` (cacheless) postcondition: a success strictly advances the
position and stays inside the buffer; an error is always a `msg` error (in
particular the underflow branch is dead, since the decrement follows a
successful byte read). -/
theorem readTokenRaw_inv {Flt : Type} (parseNum : List Nat → Option Flt)
    {buf : List Nat} {pos : Nat} {r : Except PErr (Tok Flt)} {p' : Nat}
    (h : readTokenRaw parseNum buf pos = (r, p')) :
    (∀ t, r = .ok t → pos < p' ∧ p' ≤ buf.length) ∧
    (∀ e, r = .error e → ∃ m, e = .msg m) := by
  rw [readTokenRaw] at h
  set q := skipWs buf pos with hq
  have hposq : pos ≤ q := (skipWs_bounds buf pos).1
  cases hb : readByteAt buf q with
  | none =>
    rw [hb] at h
    rw [Prod.mk.injEq] at h
    refine ⟨fun t ht => ?_, fun e he => ?_⟩
    · rw [← h.1] at ht; exact absurd ht (by simp)
    · rw [← h.1] at he; exact ⟨"EOF", by simpa using he.symm⟩
  | some bp =>
    obtain ⟨b, p1⟩ := bp
    obtain ⟨hqlt, rfl⟩ := readByteAt_some hb
    rw [hb] at h
    dsimp only at h
    by_cases h34 : b = 34
    · rw [if_pos h34] at h
      cases hs : readString buf (q + 1) with
      | mk rs p2 =>
        have hsinv := readString_inv hs
        rw [hs] at h
        cases rs with
        | ok s0 =>
          dsimp only at h
          rw [Prod.mk.injEq] at h
          refine ⟨fun t ht => ?_, fun e he => ?_⟩
          · have := hsinv.1 s0 rfl
            omega
          · rw [← h.1] at he; exact absurd he (by simp)
        | error e0 =>
          dsimp only at h
          rw [Prod.mk.injEq] at h
          refine ⟨fun t ht => ?_, fun e he => ?_⟩
          · rw [← h.1] at ht; exact absurd ht (by simp)
          · rw [← h.1] at he
            obtain ⟨m, hm⟩ := hsinv.2 e0 rfl
            have he2 : e0 = e := by simpa using he
            exact ⟨m, by rw [← he2, hm]⟩
    · rw [if_neg h34] at h
      by_cases h91 : b = 91
      · rw [if_pos h91] at h
        rw [Prod.mk.injEq] at h
        refine ⟨fun t ht => by omega, fun e he => ?_⟩
        rw [← h.1] at he; exact absurd he (by simp)
      · rw [if_neg h91] at h
        by_cases h93 : b = 93
        · rw [if_pos h93] at h
          rw [Prod.mk.injEq] at h
          refine ⟨fun t ht => by omega, fun e he => ?_⟩
          rw [← h.1] at he; exact absurd he (by simp)
        · rw [if_neg h93] at h
          by_cases h123 : b = 123
          · rw [if_pos h123] at h
            rw [Prod.mk.injEq] at h
            refine ⟨fun t ht => by omega, fun e he => ?_⟩
            rw [← h.1] at he; exact absurd he (by simp)
          · rw [if_neg h123] at h
            by_cases h125 : b = 125
            · rw [if_pos h125] at h
              rw [Prod.mk.injEq] at h
              refine ⟨fun t ht => by omega, fun e he => ?_⟩
              rw [← h.1] at he; exact absurd he (by simp)
            · rw [if_neg h125] at h
              by_cases h44 : b = 44
              · rw [if_pos h44] at h
                rw [Prod.mk.injEq] at h
                refine ⟨fun t ht => by omega, fun e he => ?_⟩
                rw [← h.1] at he; exact absurd he (by simp)
              · rw [if_neg h44] at h
                by_cases h58 : b = 58
                · rw [if_pos h58] at h
                  rw [Prod.mk.injEq] at h
                  refine ⟨fun t ht => by omega, fun e he => ?_⟩
                  rw [← h.1] at he; exact absurd he (by simp)
                · rw [if_neg h58] at h
                  rw [show decPos (q + 1) = some q from by rw [decPos, if_neg (by omega),
                    Nat.add_sub_cancel]] at h
                  simp only [readTerm] at h
                  rw [Prod.mk.injEq] at h
                  -- the term ends at `termEnd buf q`, which is strictly past `q`
                  have hbq : currentAt buf q = some b := by
                    rw [readByteAt] at hb
                    cases hc : currentAt buf q with
                    | none => rw [hc] at hb; exact absurd hb (by simp)
                    | some x =>
                      rw [hc] at hb
                      have hxb : x = b := by simpa using hb
                      rw [hxb]
                  obtain ⟨rest, hdq⟩ := currentAt_some_drop hbq
                  have hwsb : isWsB b = false := skipWs_current buf pos b hbq
                  have hdelim : isDelimB b = false := by
                    rw [isDelimB]
                    simp [h123, h125, h91, h93, h58, h44]
                  have hstep : termEnd buf q = termEnd buf (q + 1) :=
                    termEnd_step hdq (by rw [hwsb, hdelim]; rfl)
                  have hbound := termEnd_bounds buf (q + 1)
                  have hbound2 := termEnd_bounds buf q
                  refine ⟨fun t ht => ?_, fun e he => ?_⟩
                  · constructor
                    · rw [← h.2]
                      omega
                    · rw [← h.2]
                      exact hbound2.2 (by omega)
                  · rw [← h.1] at he
                    exact termTok_inv parseNum _ he.symm.symm

/-! ## read_token and peek_token state invariants -/

theorem cacheBit_eq_zero {Flt : Type} {s : PSt Flt} (h : s.cache = none) :
    cacheBit s = 0 := by
  rw [cacheBit, h]

theorem cacheBit_eq_one {Flt : Type} {s : PSt Flt} {r : Except PErr (Tok Flt)}
    (h : s.cache = some r) : cacheBit s = 1 := by
  rw [cacheBit, h]

theorem msr_eq {Flt : Type} (buf : List Nat) (s : PSt Flt) :
    msr buf s = 2 * (buf.length - s.pos) + cacheBit s := rfl

theorem readToken_inv {Flt : Type} {parseNum : List Nat → Option Flt}
    {buf : List Nat} {s : PSt Flt} {r : Except PErr (Tok Flt)} {s' : PSt Flt}
    (h : readToken parseNum buf s = (r, s')) :
    s'.cache = none ∧
    (∀ t, r = .ok t →
      msr buf s' + 1 ≤ msr buf s ∧ (s.cache = none → msr buf s' + 2 ≤ msr buf s)) ∧
    (cacheOkP s → ∀ e, r = .error e → ∃ m, e = .msg m) := by
  obtain ⟨pos, cache⟩ := s
  cases cache with
  | some r0 =>
    rw [readToken_cacheSome] at h
    rw [Prod.mk.injEq] at h
    obtain ⟨hr, hs⟩ := h
    subst hr
    subst hs
    refine ⟨rfl, fun t ht => ?_, fun hok e he => ?_⟩
    · refine ⟨?_, fun hnone => absurd hnone (by simp)⟩
      rw [msr_eq, msr_eq, cacheBit_eq_zero rfl, cacheBit_eq_one rfl]
    · subst he
      exact hok e rfl
  | none =>
    cases hraw : readTokenRaw parseNum buf pos with
    | mk r0 p2 =>
      rw [readToken_cacheNone, hraw] at h
      dsimp only at h
      rw [Prod.mk.injEq] at h
      obtain ⟨hr, hs⟩ := h
      subst hr
      subst hs
      have hinv := readTokenRaw_inv parseNum hraw
      refine ⟨rfl, fun t ht => ?_, fun _ e he => hinv.2 e he⟩
      have hb := hinv.1 t ht
      constructor
      · rw [msr_eq, msr_eq, cacheBit_eq_zero rfl, cacheBit_eq_zero rfl]
        dsimp only
        omega
      · intro _
        rw [msr_eq, msr_eq, cacheBit_eq_zero rfl, cacheBit_eq_zero rfl]
        dsimp only
        omega

theorem peekToken_inv {Flt : Type} {parseNum : List Nat → Option Flt}
    {buf : List Nat} {s : PSt Flt} {r : Except PErr (Tok Flt)} {s' : PSt Flt}
    (h : peekToken parseNum buf s = (r, s')) :
    s'.cache = some r ∧
    (∀ t, r = .ok t →
      msr buf s' ≤ msr buf s ∧ (s.cache = none → msr buf s' + 1 ≤ msr buf s)) ∧
    (cacheOkP s → ∀ e, r = .error e → ∃ m, e = .msg m) := by
  cases hrt : readToken parseNum buf s with
  | mk r0 s1 =>
    rw [peekToken_eq, hrt] at h
    dsimp only at h
    rw [Prod.mk.injEq] at h
    obtain ⟨hr, hs⟩ := h
    subst hr
    subst hs
    have hinv := readToken_inv hrt
    refine ⟨rfl, fun t ht => ?_, fun hok e he => hinv.2.2 hok e he⟩
    have hm := hinv.2.1 t ht
    have hc1 := hinv.1
    constructor
    · rw [msr_eq, msr_eq, cacheBit_eq_one rfl]
      rw [msr_eq, msr_eq, cacheBit_eq_zero hc1] at hm
      dsimp only
      omega
    · intro hnone
      have hm2 := hm.2 hnone
      rw [msr_eq, msr_eq, cacheBit_eq_zero hc1] at hm2
      rw [msr_eq, msr_eq, cacheBit_eq_one rfl]
      dsimp only
      omega

theorem readToken_of_cache {Flt : Type} {parseNum : List Nat → Option Flt}
    {buf : List Nat} {s : PSt Flt} {r0 : Except PErr (Tok Flt)}
    (h : s.cache = some r0) :
    readToken parseNum buf s = (r0, ⟨s.pos, none⟩) := by
  obtain ⟨pos, cache⟩ := s
  dsimp only at h
  subst h
  rfl

theorem cacheOkP_none {Flt : Type} (pos : Nat) :
    cacheOkP (⟨pos, none⟩ : PSt Flt) := by
  intro e he
  exact absurd he (by simp)

theorem err_claims {Flt α : Type} (buf : List Nat) (M : Nat) {e : PErr}
    (he : ∃ m, e = PErr.msg m) (sx : PSt Flt) :
    (∀ (e2 : PErr) (s2 : PSt Flt),
      ((Except.error e : Except PErr α), sx) = (.error e2, s2) → ∃ m, e2 = PErr.msg m) ∧
    ∀ (v : α) (s' : PSt Flt), ((Except.error e : Except PErr α), sx) = (.ok v, s') →
      s'.cache = none ∧ msr buf s' + 1 ≤ M := by
  obtain ⟨m, hm⟩ := he
  subst hm
  refine ⟨fun e2 s2 h2 => ?_, fun v s' habs => absurd habs (by simp)⟩
  rw [Prod.mk.injEq] at h2
  have he2 : PErr.msg m = e2 := by simpa using h2.1
  exact ⟨m, he2.symm⟩

theorem msr_none {Flt : Type} (buf : List Nat) (p : Nat) :
    msr buf (⟨p, none⟩ : PSt Flt) = 2 * (buf.length - p) := by
  rw [msr_eq, cacheBit_eq_zero rfl]
  simp

theorem msr_cache_none {Flt : Type} {buf : List Nat} {s : PSt Flt}
    (h : s.cache = none) : msr buf s = 2 * (buf.length - s.pos) := by
  rw [msr_eq, cacheBit_eq_zero h]
  simp

theorem msr_cache_some {Flt : Type} {buf : List Nat} {s : PSt Flt}
    {r : Except PErr (Tok Flt)} (h : s.cache = some r) :
    msr buf s = 2 * (buf.length - s.pos) + 1 := by
  rw [msr_eq, cacheBit_eq_one h]

/-! ## Fuel sufficiency: the fuel `deserialize` supplies never runs out -/

theorem parseFuelSufficient {Flt : Type} (parseNum : List Nat → Option Flt)
    (buf : List Nat) :
    ∀ f,
    (∀ s : PSt Flt, cacheOkP s → msr buf s + 1 ≤ f →
      (∀ e s2, readValue parseNum buf f s = (.error e, s2) → ∃ m, e = PErr.msg m) ∧
      ∀ v s', readValue parseNum buf f s = (.ok v, s') →
        s'.cache = none ∧ msr buf s' + 1 ≤ msr buf s) ∧
    (∀ (acc : MemberList Flt) (pos : Nat), 2 * (buf.length - pos) + 1 ≤ f →
      (∀ e s2, readObjectLoop parseNum buf f acc ⟨pos, none⟩ = (.error e, s2) →
        ∃ m, e = PErr.msg m) ∧
      ∀ ms s', readObjectLoop parseNum buf f acc ⟨pos, none⟩ = (.ok ms, s') →
        s'.cache = none ∧ msr buf s' + 1 ≤ 2 * (buf.length - pos)) ∧
    (∀ (acc : ValueList Flt) (pos : Nat), 2 * (buf.length - pos) + 1 ≤ f →
      (∀ e s2, readArrayLoop parseNum buf f acc ⟨pos, none⟩ = (.error e, s2) →
        ∃ m, e = PErr.msg m) ∧
      ∀ vs s', readArrayLoop parseNum buf f acc ⟨pos, none⟩ = (.ok vs, s') →
        s'.cache = none ∧ msr buf s' + 1 ≤ 2 * (buf.length - pos)) := by
  intro f
  induction f using Nat.strong_induction_on with
  | _ f ih =>
    match f with
    | 0 =>
      exact ⟨fun s _ h => absurd h (by omega),
        fun acc pos h => absurd h (by omega),
        fun acc pos h => absurd h (by omega)⟩
    | k + 1 =>
      refine ⟨?_, ?_, ?_⟩
      · -- read_value
        intro s hsOk hsf
        cases hrt : readToken parseNum buf s with
        | mk r s1 =>
          have hinv := readToken_inv hrt
          simp only [readValue]
          rw [hrt]
          cases r with
          | error e =>
            dsimp only
            exact err_claims buf _ (hinv.2.2 hsOk e rfl) s1
          | ok t =>
            have hmsr1 := (hinv.2.1 t rfl).1
            have hs1c := hinv.1
            cases t with
            | lbrace =>
              dsimp only
              obtain ⟨p1, c1⟩ := s1
              dsimp only at hs1c
              subst hs1c
              have hfobj : 2 * (buf.length - p1) + 1 ≤ k := by
                have h1 := @msr_none Flt buf p1
                omega
              have hobj := (ih k (by omega)).2.1 MemberList.nil p1 hfobj
              cases hloop : readObjectLoop parseNum buf k .nil ⟨p1, none⟩ with
              | mk rl s2 =>
                rw [hloop] at hobj
                cases rl with
                | error e =>
                  dsimp only
                  exact err_claims buf _ (hobj.1 e s2 rfl) s2
                | ok ms =>
                  dsimp only
                  refine ⟨fun e s2 habs => absurd habs (by simp), fun v s' hok => ?_⟩
                  rw [Prod.mk.injEq] at hok
                  obtain ⟨_, hs'⟩ := hok
                  subst hs'
                  have := hobj.2 ms s2 rfl
                  have h1 := @msr_none Flt buf p1
                  refine ⟨this.1, by omega⟩
            | langle =>
              dsimp only
              obtain ⟨p1, c1⟩ := s1
              dsimp only at hs1c
              subst hs1c
              have hfarr : 2 * (buf.length - p1) + 1 ≤ k := by
                have h1 := @msr_none Flt buf p1
                omega
              have harr := (ih k (by omega)).2.2 ValueList.nil p1 hfarr
              cases hloop : readArrayLoop parseNum buf k .nil ⟨p1, none⟩ with
              | mk rl s2 =>
                rw [hloop] at harr
                cases rl with
                | error e =>
                  dsimp only
                  exact err_claims buf _ (harr.1 e s2 rfl) s2
                | ok vs =>
                  dsimp only
                  refine ⟨fun e s2 habs => absurd habs (by simp), fun v s' hok => ?_⟩
                  rw [Prod.mk.injEq] at hok
                  obtain ⟨_, hs'⟩ := hok
                  subst hs'
                  have := harr.2 vs s2 rfl
                  have h1 := @msr_none Flt buf p1
                  refine ⟨this.1, by omega⟩
            | str s0 =>
              dsimp only
              refine ⟨fun e s2 habs => absurd habs (by simp), fun v s' hok => ?_⟩
              rw [Prod.mk.injEq] at hok
              obtain ⟨_, hs'⟩ := hok
              subst hs'
              exact ⟨hs1c, by omega⟩
            | number n =>
              dsimp only
              refine ⟨fun e s2 habs => absurd habs (by simp), fun v s' hok => ?_⟩
              rw [Prod.mk.injEq] at hok
              obtain ⟨_, hs'⟩ := hok
              subst hs'
              exact ⟨hs1c, by omega⟩
            | boolean b =>
              dsimp only
              refine ⟨fun e s2 habs => absurd habs (by simp), fun v s' hok => ?_⟩
              rw [Prod.mk.injEq] at hok
              obtain ⟨_, hs'⟩ := hok
              subst hs'
              exact ⟨hs1c, by omega⟩
            | null =>
              dsimp only
              refine ⟨fun e s2 habs => absurd habs (by simp), fun v s' hok => ?_⟩
              rw [Prod.mk.injEq] at hok
              obtain ⟨_, hs'⟩ := hok
              subst hs'
              exact ⟨hs1c, by omega⟩
            | rbrace =>
              dsimp only
              exact err_claims buf _ ⟨_, rfl⟩ s1
            | rangle =>
              dsimp only
              exact err_claims buf _ ⟨_, rfl⟩ s1
            | comma =>
              dsimp only
              exact err_claims buf _ ⟨_, rfl⟩ s1
            | colon =>
              dsimp only
              exact err_claims buf _ ⟨_, rfl⟩ s1
      · -- read_object loop
        intro acc pos hfuel
        cases hp : peekToken parseNum buf ⟨pos, none⟩ with
        | mk r s1 =>
          have hpinv := peekToken_inv hp
          have hmsr0 := @msr_none Flt buf pos
          simp only [readObjectLoop]
          rw [hp]
          cases r with
          | error e =>
            dsimp only
            exact err_claims buf _ (hpinv.2.2 (cacheOkP_none pos) e rfl) s1
          | ok t =>
            have hs1c : s1.cache = some (.ok t) := hpinv.1
            have hmsr1 : msr buf s1 + 1 ≤ msr buf (⟨pos, none⟩ : PSt Flt) :=
              (hpinv.2.1 t rfl).2 rfl
            -- common facts about popping the cached token
            have hpop := @readToken_of_cache Flt parseNum buf s1 _ hs1c
            have hmsrPop : msr buf (⟨s1.pos, none⟩ : PSt Flt) + 1 = msr buf s1 := by
              rw [msr_none, msr_cache_some hs1c]
            cases t with
            | rbrace =>
              dsimp only
              rw [hpop]
              dsimp only
              refine ⟨fun e s2 habs => absurd habs (by simp), fun ms s' hok => ?_⟩
              rw [Prod.mk.injEq] at hok
              obtain ⟨_, hs'⟩ := hok
              subst hs'
              refine ⟨rfl, by omega⟩
            | str key =>
              dsimp only
              rw [hpop]
              dsimp only
              -- read the colon
              cases hrt3 : readToken parseNum buf ⟨s1.pos, none⟩ with
              | mk r3 s3 =>
                have hinv3 := readToken_inv hrt3
                cases r3 with
                | error e =>
                  dsimp only
                  exact err_claims buf _ (hinv3.2.2 (cacheOkP_none s1.pos) e rfl) s3
                | ok t3 =>
                  have hmsr3 := (hinv3.2.1 t3 rfl).1
                  have hs3c := hinv3.1
                  cases t3 with
                  | colon =>
                    dsimp only
                    -- read the value
                    have hfval : msr buf s3 + 1 ≤ k := by omega
                    have hval := ((ih k (by omega)).1 s3
                      (by intro e he; rw [hs3c] at he; exact absurd he (by simp)) hfval)
                    cases hrv : readValue parseNum buf k s3 with
                    | mk rv s4 =>
                      rw [hrv] at hval
                      cases rv with
                      | error e =>
                        dsimp only
                        exact err_claims buf _ (hval.1 e s4 rfl) s4
                      | ok v =>
                        dsimp only
                        have hv4 := hval.2 v s4 rfl
                        -- read the separator
                        cases hrt5 : readToken parseNum buf s4 with
                        | mk r5 s5 =>
                          have hinv5 := readToken_inv hrt5
                          cases r5 with
                          | error e =>
                            dsimp only
                            refine err_claims buf _ (hinv5.2.2 ?_ e rfl) s5
                            intro e0 he0
                            rw [hv4.1] at he0
                            exact absurd he0 (by simp)
                          | ok t5 =>
                            have hmsr5 := (hinv5.2.1 t5 rfl).1
                            have hs5c := hinv5.1
                            cases t5 with
                            | comma =>
                              dsimp only
                              obtain ⟨p5, c5⟩ := s5
                              dsimp only at hs5c
                              subst hs5c
                              have hmsr5e := @msr_none Flt buf p5
                              have hrec := (ih k (by omega)).2.1
                                (hashInsert acc key v) p5 (by omega)
                              refine ⟨hrec.1, fun ms s' hok => ?_⟩
                              have := hrec.2 ms s' hok
                              exact ⟨this.1, by omega⟩
                            | rbrace =>
                              dsimp only
                              refine ⟨fun e s2 habs => absurd habs (by simp), fun ms s' hok => ?_⟩
                              rw [Prod.mk.injEq] at hok
                              obtain ⟨_, hs'⟩ := hok
                              subst hs'
                              exact ⟨hs5c, by omega⟩
                            | lbrace => exact err_claims buf _ ⟨_, rfl⟩ s5
                            | langle => exact err_claims buf _ ⟨_, rfl⟩ s5
                            | rangle => exact err_claims buf _ ⟨_, rfl⟩ s5
                            | colon => exact err_claims buf _ ⟨_, rfl⟩ s5
                            | str s6 => exact err_claims buf _ ⟨_, rfl⟩ s5
                            | number n => exact err_claims buf _ ⟨_, rfl⟩ s5
                            | boolean b => exact err_claims buf _ ⟨_, rfl⟩ s5
                            | null => exact err_claims buf _ ⟨_, rfl⟩ s5
                  | lbrace => exact err_claims buf _ ⟨_, rfl⟩ s3
                  | rbrace => exact err_claims buf _ ⟨_, rfl⟩ s3
                  | langle => exact err_claims buf _ ⟨_, rfl⟩ s3
                  | rangle => exact err_claims buf _ ⟨_, rfl⟩ s3
                  | comma => exact err_claims buf _ ⟨_, rfl⟩ s3
                  | str s6 => exact err_claims buf _ ⟨_, rfl⟩ s3
                  | number n => exact err_claims buf _ ⟨_, rfl⟩ s3
                  | boolean b => exact err_claims buf _ ⟨_, rfl⟩ s3
                  | null => exact err_claims buf _ ⟨_, rfl⟩ s3
            | lbrace =>
              dsimp only
              rw [hpop]
              dsimp only
              exact err_claims buf _ ⟨_, rfl⟩ _
            | langle =>
              dsimp only
              rw [hpop]
              dsimp only
              exact err_claims buf _ ⟨_, rfl⟩ _
            | rangle =>
              dsimp only
              rw [hpop]
              dsimp only
              exact err_claims buf _ ⟨_, rfl⟩ _
            | comma =>
              dsimp only
              rw [hpop]
              dsimp only
              exact err_claims buf _ ⟨_, rfl⟩ _
            | colon =>
              dsimp only
              rw [hpop]
              dsimp only
              exact err_claims buf _ ⟨_, rfl⟩ _
            | number n =>
              dsimp only
              rw [hpop]
              dsimp only
              exact err_claims buf _ ⟨_, rfl⟩ _
            | boolean b =>
              dsimp only
              rw [hpop]
              dsimp only
              exact err_claims buf _ ⟨_, rfl⟩ _
            | null =>
              dsimp only
              rw [hpop]
              dsimp only
              exact err_claims buf _ ⟨_, rfl⟩ _
      · -- read_array loop
        intro acc pos hfuel
        cases hp : peekToken parseNum buf ⟨pos, none⟩ with
        | mk r s1 =>
          have hpinv := peekToken_inv hp
          have hmsr0 := @msr_none Flt buf pos
          simp only [readArrayLoop]
          rw [hp]
          cases r with
          | error e =>
            dsimp only
            exact err_claims buf _ (hpinv.2.2 (cacheOkP_none pos) e rfl) s1
          | ok t =>
            have hs1c : s1.cache = some (.ok t) := hpinv.1
            have hmsr1 : msr buf s1 + 1 ≤ msr buf (⟨pos, none⟩ : PSt Flt) :=
              (hpinv.2.1 t rfl).2 rfl
            have hsOk1 : cacheOkP s1 := by
              intro e he
              rw [hs1c] at he
              exact absurd he (by simp)
            -- the generic branch reads a value with the cached token in place
            have hbody :
                (∀ (e2 : PErr) (s2 : PSt Flt), (match readValue parseNum buf k s1 with
                  | (.ok v, s2) =>
                    match readToken parseNum buf s2 with
                    | (.ok .comma, s3) => readArrayLoop parseNum buf k (vlSnoc acc v) s3
                    | (.ok .rangle, s3) => (.ok (vlSnoc acc v), s3)
                    | (.ok t, s3) =>
                      (.error (.msg ("expected comma or ], got " ++ tokName t)), s3)
                    | (.error e, s3) => (.error e, s3)
                  | (.error e, s2) => (.error e, s2)) = (.error e2, s2) → ∃ m, e2 = PErr.msg m) ∧
                ∀ vs s', (match readValue parseNum buf k s1 with
                  | (.ok v, s2) =>
                    match readToken parseNum buf s2 with
                    | (.ok .comma, s3) => readArrayLoop parseNum buf k (vlSnoc acc v) s3
                    | (.ok .rangle, s3) => (.ok (vlSnoc acc v), s3)
                    | (.ok t, s3) =>
                      (.error (.msg ("expected comma or ], got " ++ tokName t)), s3)
                    | (.error e, s3) => (.error e, s3)
                  | (.error e, s2) => (.error e, s2)) = (.ok vs, s') →
                    s'.cache = none ∧ msr buf s' + 1 ≤ 2 * (buf.length - pos) := by
              have hfval : msr buf s1 + 1 ≤ k := by omega
              have hval := (ih k (by omega)).1 s1 hsOk1 hfval
              cases hrv : readValue parseNum buf k s1 with
              | mk rv s2 =>
                rw [hrv] at hval
                cases rv with
                | error e =>
                  dsimp only
                  exact err_claims buf _ (hval.1 e s2 rfl) s2
                | ok v =>
                  dsimp only
                  have hv2 := hval.2 v s2 rfl
                  cases hrt3 : readToken parseNum buf s2 with
                  | mk r3 s3 =>
                    have hinv3 := readToken_inv hrt3
                    cases r3 with
                    | error e =>
                      dsimp only
                      refine err_claims buf _ (hinv3.2.2 ?_ e rfl) s3
                      intro e0 he0
                      rw [hv2.1] at he0
                      exact absurd he0 (by simp)
                    | ok t3 =>
                      have hmsr3 := (hinv3.2.1 t3 rfl).1
                      have hs3c := hinv3.1
                      cases t3 with
                      | comma =>
                        dsimp only
                        obtain ⟨p3, c3⟩ := s3
                        dsimp only at hs3c
                        subst hs3c
                        have hmsr3e := @msr_none Flt buf p3
                        have hrec := (ih k (by omega)).2.2 (vlSnoc acc v) p3 (by omega)
                        refine ⟨hrec.1, fun vs s' hok => ?_⟩
                        have := hrec.2 vs s' hok
                        exact ⟨this.1, by omega⟩
                      | rangle =>
                        dsimp only
                        refine ⟨fun e s2 habs => absurd habs (by simp), fun vs s' hok => ?_⟩
                        rw [Prod.mk.injEq] at hok
                        obtain ⟨_, hs'⟩ := hok
                        subst hs'
                        exact ⟨hs3c, by omega⟩
                      | lbrace => exact err_claims buf _ ⟨_, rfl⟩ s3
                      | rbrace => exact err_claims buf _ ⟨_, rfl⟩ s3
                      | langle => exact err_claims buf _ ⟨_, rfl⟩ s3
                      | colon => exact err_claims buf _ ⟨_, rfl⟩ s3
                      | str s6 => exact err_claims buf _ ⟨_, rfl⟩ s3
                      | number n => exact err_claims buf _ ⟨_, rfl⟩ s3
                      | boolean b => exact err_claims buf _ ⟨_, rfl⟩ s3
                      | null => exact err_claims buf _ ⟨_, rfl⟩ s3
            cases t with
            | rangle =>
              dsimp only
              rw [readToken_of_cache hs1c]
              dsimp only
              refine ⟨fun e s2 habs => absurd habs (by simp), fun vs s' hok => ?_⟩
              rw [Prod.mk.injEq] at hok
              obtain ⟨_, hs'⟩ := hok
              subst hs'
              have hmsrPop : msr buf (⟨s1.pos, none⟩ : PSt Flt) + 1 = msr buf s1 := by
                rw [msr_none, msr_cache_some hs1c]
              refine ⟨rfl, by omega⟩
            | lbrace => exact hbody
            | rbrace => exact hbody
            | langle => exact hbody
            | comma => exact hbody
            | colon => exact hbody
            | str s0 => exact hbody
            | number n => exact hbody
            | boolean b => exact hbody
            | null => exact hbody

/-- Parsing with the canonical fuel yields a real parse or a message error:
specialization of the sufficiency theorem to `deserialize`. -/
theorem deserialize_shape {Flt : Type} (parseNum : List Nat → Option Flt)
    (buf : List Nat) :
    (∃ v, deserialize parseNum buf = .ok v) ∨
    (∃ m, deserialize parseNum buf = .error (.msg m)) := by
  have hsuff := (parseFuelSufficient parseNum buf (2 * buf.length + 1)).1
    ⟨0, none⟩ (cacheOkP_none 0) (by rw [msr_none]; omega)
  rw [deserialize]
  cases hr : readValue parseNum buf (2 * buf.length + 1) ⟨0, none⟩ with
  | mk r s2 =>
    cases r with
    | ok v => exact Or.inl ⟨v, rfl⟩
    | error e =>
      obtain ⟨m, hm⟩ := hsuff.1 e s2 hr
      exact Or.inr ⟨m, by rw [hm]⟩

/-! ## Fuel stability: adding fuel does not change a completed run -/

theorem parseFuelStable {Flt : Type} (parseNum : List Nat → Option Flt)
    (buf : List Nat) :
    ∀ f,
    (∀ s : PSt Flt, (readValue parseNum buf f s).1 ≠ .error .fuelOut →
      readValue parseNum buf (f + 1) s = readValue parseNum buf f s) ∧
    (∀ (acc : MemberList Flt) (s : PSt Flt),
      (readObjectLoop parseNum buf f acc s).1 ≠ .error .fuelOut →
      readObjectLoop parseNum buf (f + 1) acc s = readObjectLoop parseNum buf f acc s) ∧
    (∀ (acc : ValueList Flt) (s : PSt Flt),
      (readArrayLoop parseNum buf f acc s).1 ≠ .error .fuelOut →
      readArrayLoop parseNum buf (f + 1) acc s = readArrayLoop parseNum buf f acc s) := by
  intro f
  induction f with
  | zero =>
    refine ⟨fun s h => absurd ?_ h, fun acc s h => absurd ?_ h, fun acc s h => absurd ?_ h⟩
    all_goals rfl
  | succ k ih =>
    refine ⟨?_, ?_, ?_⟩
    · -- read_value
      intro s hne
      rw [readValue] at hne ⊢
      conv_rhs => rw [readValue]
      cases hrt : readToken parseNum buf s with
      | mk r s1 =>
        rw [hrt] at hne
        cases r with
        | error e => rfl
        | ok t =>
          cases t with
          | lbrace =>
            dsimp only at hne ⊢
            have hloopne : (readObjectLoop parseNum buf k .nil s1).1 ≠ .error .fuelOut := by
              intro habs
              cases hl : readObjectLoop parseNum buf k .nil s1 with
              | mk rl s2 =>
                rw [hl] at habs hne
                cases rl with
                | ok ms => exact absurd habs (by simp)
                | error e =>
                  dsimp only at habs hne
                  injection habs with habs2
                  rw [habs2] at hne
                  exact hne rfl
            rw [(ih.2.1) .nil s1 hloopne]
          | langle =>
            dsimp only at hne ⊢
            have hloopne : (readArrayLoop parseNum buf k .nil s1).1 ≠ .error .fuelOut := by
              intro habs
              cases hl : readArrayLoop parseNum buf k .nil s1 with
              | mk rl s2 =>
                rw [hl] at habs hne
                cases rl with
                | ok vs => exact absurd habs (by simp)
                | error e =>
                  dsimp only at habs hne
                  injection habs with habs2
                  rw [habs2] at hne
                  exact hne rfl
            rw [(ih.2.2) .nil s1 hloopne]
          | str s0 => rfl
          | number n => rfl
          | boolean b => rfl
          | null => rfl
          | rbrace => rfl
          | rangle => rfl
          | comma => rfl
          | colon => rfl
    · -- read_object loop
      intro acc s hne
      rw [readObjectLoop] at hne ⊢
      conv_rhs => rw [readObjectLoop]
      cases hp : peekToken parseNum buf s with
      | mk r s1 =>
        rw [hp] at hne
        have hobjBody :
            (match readToken parseNum buf s1 with
              | (.ok (.str key), s2) =>
                match readToken parseNum buf s2 with
                | (.ok .colon, s3) =>
                  match readValue parseNum buf k s3 with
                  | (.ok v, s4) =>
                    match readToken parseNum buf s4 with
                    | (.ok .comma, s5) => readObjectLoop parseNum buf k (hashInsert acc key v) s5
                    | (.ok .rbrace, s5) => (.ok (hashInsert acc key v), s5)
                    | (.ok t, s5) =>
                      (.error (.msg ("expected comma or \x7d, got " ++ tokName t)), s5)
                    | (.error e, s5) => (.error e, s5)
                  | (.error e, s4) => (.error e, s4)
                | (.ok t, s3) => (.error (.msg ("expected colon, got " ++ tokName t)), s3)
                | (.error e, s3) => (.error e, s3)
              | (.ok t, s2) => (.error (.msg ("expected string, got " ++ tokName t)), s2)
              | (.error e, s2) => (.error e, s2)).1 ≠ Except.error PErr.fuelOut →
            (match readToken parseNum buf s1 with
              | (.ok (.str key), s2) =>
                match readToken parseNum buf s2 with
                | (.ok .colon, s3) =>
                  match readValue parseNum buf (k + 1) s3 with
                  | (.ok v, s4) =>
                    match readToken parseNum buf s4 with
                    | (.ok .comma, s5) => readObjectLoop parseNum buf (k + 1) (hashInsert acc key v) s5
                    | (.ok .rbrace, s5) => (.ok (hashInsert acc key v), s5)
                    | (.ok t, s5) =>
                      (.error (.msg ("expected comma or \x7d, got " ++ tokName t)), s5)
                    | (.error e, s5) => (.error e, s5)
                  | (.error e, s4) => (.error e, s4)
                | (.ok t, s3) => (.error (.msg ("expected colon, got " ++ tokName t)), s3)
                | (.error e, s3) => (.error e, s3)
              | (.ok t, s2) => (.error (.msg ("expected string, got " ++ tokName t)), s2)
              | (.error e, s2) => (.error e, s2)) =
            (match readToken parseNum buf s1 with
              | (.ok (.str key), s2) =>
                match readToken parseNum buf s2 with
                | (.ok .colon, s3) =>
                  match readValue parseNum buf k s3 with
                  | (.ok v, s4) =>
                    match readToken parseNum buf s4 with
                    | (.ok .comma, s5) => readObjectLoop parseNum buf k (hashInsert acc key v) s5
                    | (.ok .rbrace, s5) => (.ok (hashInsert acc key v), s5)
                    | (.ok t, s5) =>
                      (.error (.msg ("expected comma or \x7d, got " ++ tokName t)), s5)
                    | (.error e, s5) => (.error e, s5)
                  | (.error e, s4) => (.error e, s4)
                | (.ok t, s3) => (.error (.msg ("expected colon, got " ++ tokName t)), s3)
                | (.error e, s3) => (.error e, s3)
              | (.ok t, s2) => (.error (.msg ("expected string, got " ++ tokName t)), s2)
              | (.error e, s2) => (.error e, s2)) := by
          intro hne2
          cases hrt2 : readToken parseNum buf s1 with
          | mk r2 s2 =>
            rw [hrt2] at hne2
            cases r2 with
            | error e => rfl
            | ok t2 =>
              cases t2 with
              | str key =>
                dsimp only at hne2 ⊢
                cases hrt3 : readToken parseNum buf s2 with
                | mk r3 s3 =>
                  rw [hrt3] at hne2
                  cases r3 with
                  | error e => rfl
                  | ok t3 =>
                    cases t3 with
                    | colon =>
                      dsimp only at hne2 ⊢
                      cases hrv : readValue parseNum buf k s3 with
                      | mk rv s4 =>
                        have hvne : (readValue parseNum buf k s3).1 ≠
                            .error .fuelOut := by
                          intro habs
                          rw [hrv] at habs hne2
                          cases rv with
                          | ok v => exact absurd habs (by simp)
                          | error e =>
                            dsimp only at habs hne2
                            injection habs with habs2
                            rw [habs2] at hne2
                            exact hne2 rfl
                        rw [ih.1 s3 hvne]
                        rw [hrv] at hne2 ⊢
                        cases rv with
                        | error e => rfl
                        | ok v =>
                          dsimp only at hne2 ⊢
                          cases hrt5 : readToken parseNum buf s4 with
                          | mk r5 s5 =>
                            rw [hrt5] at hne2
                            cases r5 with
                            | error e => rfl
                            | ok t5 =>
                              cases t5 with
                              | comma =>
                                dsimp only at hne2 ⊢
                                exact ih.2.1 (hashInsert acc key v) s5 hne2
                              | rbrace => rfl
                              | lbrace => rfl
                              | langle => rfl
                              | rangle => rfl
                              | colon => rfl
                              | str s6 => rfl
                              | number n => rfl
                              | boolean b => rfl
                              | null => rfl
                    | lbrace => rfl
                    | rbrace => rfl
                    | langle => rfl
                    | rangle => rfl
                    | comma => rfl
                    | str s6 => rfl
                    | number n => rfl
                    | boolean b => rfl
                    | null => rfl
              | lbrace => rfl
              | rbrace => rfl
              | langle => rfl
              | rangle => rfl
              | comma => rfl
              | colon => rfl
              | number n => rfl
              | boolean b => rfl
              | null => rfl
        cases r with
        | error e => rfl
        | ok t =>
          cases t with
          | rbrace => rfl
          | lbrace => exact hobjBody hne
          | langle => exact hobjBody hne
          | rangle => exact hobjBody hne
          | comma => exact hobjBody hne
          | colon => exact hobjBody hne
          | str s0 => exact hobjBody hne
          | number n => exact hobjBody hne
          | boolean b => exact hobjBody hne
          | null => exact hobjBody hne
    · -- read_array loop
      intro acc s hne
      rw [readArrayLoop] at hne ⊢
      conv_rhs => rw [readArrayLoop]
      cases hp : peekToken parseNum buf s with
      | mk r s1 =>
        rw [hp] at hne
        have harrBody :
            (match readValue parseNum buf k s1 with
              | (.ok v, s2) =>
                match readToken parseNum buf s2 with
                | (.ok .comma, s3) => readArrayLoop parseNum buf k (vlSnoc acc v) s3
                | (.ok .rangle, s3) => (.ok (vlSnoc acc v), s3)
                | (.ok t, s3) =>
                  (.error (.msg ("expected comma or ], got " ++ tokName t)), s3)
                | (.error e, s3) => (.error e, s3)
              | (.error e, s2) => (.error e, s2)).1 ≠ Except.error PErr.fuelOut →
            (match readValue parseNum buf (k + 1) s1 with
              | (.ok v, s2) =>
                match readToken parseNum buf s2 with
                | (.ok .comma, s3) => readArrayLoop parseNum buf (k + 1) (vlSnoc acc v) s3
                | (.ok .rangle, s3) => (.ok (vlSnoc acc v), s3)
                | (.ok t, s3) =>
                  (.error (.msg ("expected comma or ], got " ++ tokName t)), s3)
                | (.error e, s3) => (.error e, s3)
              | (.error e, s2) => (.error e, s2)) =
            (match readValue parseNum buf k s1 with
              | (.ok v, s2) =>
                match readToken parseNum buf s2 with
                | (.ok .comma, s3) => readArrayLoop parseNum buf k (vlSnoc acc v) s3
                | (.ok .rangle, s3) => (.ok (vlSnoc acc v), s3)
                | (.ok t, s3) =>
                  (.error (.msg ("expected comma or ], got " ++ tokName t)), s3)
                | (.error e, s3) => (.error e, s3)
              | (.error e, s2) => (.error e, s2)) := by
          intro hne2
          cases hrv : readValue parseNum buf k s1 with
          | mk rv s2 =>
            have hvne : (readValue parseNum buf k s1).1 ≠ .error .fuelOut := by
              intro habs
              rw [hrv] at habs hne2
              cases rv with
              | ok v => exact absurd habs (by simp)
              | error e =>
                dsimp only at habs hne2
                injection habs with habs2
                rw [habs2] at hne2
                exact hne2 rfl
            rw [ih.1 s1 hvne]
            rw [hrv] at hne2 ⊢
            cases rv with
            | error e => rfl
            | ok v =>
              dsimp only at hne2 ⊢
              cases hrt3 : readToken parseNum buf s2 with
              | mk r3 s3 =>
                rw [hrt3] at hne2
                cases r3 with
                | error e => rfl
                | ok t3 =>
                  cases t3 with
                  | comma =>
                    dsimp only at hne2 ⊢
                    exact ih.2.2 (vlSnoc acc v) s3 hne2
                  | rangle => rfl
                  | lbrace => rfl
                  | rbrace => rfl
                  | langle => rfl
                  | colon => rfl
                  | str s6 => rfl
                  | number n => rfl
                  | boolean b => rfl
                  | null => rfl
        cases r with
        | error e => rfl
        | ok t =>
          cases t with
          | rangle => rfl
          | lbrace => exact harrBody hne
          | rbrace => exact harrBody hne
          | langle => exact harrBody hne
          | comma => exact harrBody hne
          | colon => exact harrBody hne
          | str s0 => exact harrBody hne
          | number n => exact harrBody hne
          | boolean b => exact harrBody hne
          | null => exact harrBody hne

theorem readValue_stable_ge {Flt : Type} (parseNum : List Nat → Option Flt)
    (buf : List Nat) {f f2 : Nat} (s : PSt Flt) (hle : f ≤ f2)
    (hne : (readValue parseNum buf f s).1 ≠ .error .fuelOut) :
    readValue parseNum buf f2 s = readValue parseNum buf f s := by
  induction f2, hle using Nat.le_induction with
  | base => rfl
  | succ n hn ih =>
    rw [(parseFuelStable parseNum buf n).1 s (by rw [ih]; exact hne), ih]

theorem readObjectLoop_stable_ge {Flt : Type} (parseNum : List Nat → Option Flt)
    (buf : List Nat) {f f2 : Nat} (acc : MemberList Flt) (s : PSt Flt) (hle : f ≤ f2)
    (hne : (readObjectLoop parseNum buf f acc s).1 ≠ .error .fuelOut) :
    readObjectLoop parseNum buf f2 acc s = readObjectLoop parseNum buf f acc s := by
  induction f2, hle using Nat.le_induction with
  | base => rfl
  | succ n hn ih =>
    rw [(parseFuelStable parseNum buf n).2.1 acc s (by rw [ih]; exact hne), ih]

theorem readArrayLoop_stable_ge {Flt : Type} (parseNum : List Nat → Option Flt)
    (buf : List Nat) {f f2 : Nat} (acc : ValueList Flt) (s : PSt Flt) (hle : f ≤ f2)
    (hne : (readArrayLoop parseNum buf f acc s).1 ≠ .error .fuelOut) :
    readArrayLoop parseNum buf f2 acc s = readArrayLoop parseNum buf f acc s := by
  induction f2, hle using Nat.le_induction with
  | base => rfl
  | succ n hn ih =>
    rw [(parseFuelStable parseNum buf n).2.2 acc s (by rw [ih]; exact hne), ih]

/-- A successful `read_value` run from the initial state with any fuel
determines `deserialize`. -/
theorem deserialize_of_run {Flt : Type} (parseNum : List Nat → Option Flt)
    {buf : List Nat} {f : Nat} {v : Value Flt} {s' : PSt Flt}
    (h : readValue parseNum buf f ⟨0, none⟩ = (.ok v, s')) :
    deserialize parseNum buf = .ok v := by
  have hsuff := (parseFuelSufficient parseNum buf (2 * buf.length + 1)).1
    ⟨0, none⟩ (cacheOkP_none 0) (by rw [msr_none]; omega)
  have hcanne : (readValue parseNum buf (2 * buf.length + 1) ⟨0, none⟩).1 ≠
      .error .fuelOut := by
    cases hc : readValue parseNum buf (2 * buf.length + 1) ⟨0, none⟩ with
    | mk rc sc =>
      cases rc with
      | ok v2 => simp
      | error e =>
        obtain ⟨m, hm⟩ := hsuff.1 e sc hc
        simp [hm]
  have h1 : readValue parseNum buf (max f (2 * buf.length + 1)) ⟨0, none⟩ =
      (.ok v, s') := by
    rw [readValue_stable_ge parseNum buf _ (le_max_left f (2 * buf.length + 1))
      (by rw [h]; simp), h]
  have h2 : readValue parseNum buf (max f (2 * buf.length + 1)) ⟨0, none⟩ =
      readValue parseNum buf (2 * buf.length + 1) ⟨0, none⟩ :=
    readValue_stable_ge parseNum buf _ (le_max_right f (2 * buf.length + 1)) hcanne
  rw [deserialize, ← h2, h1]

/-! ## char::from_u32 facts -/

theorem charFromNat_valid {n : Nat} (h : n.isValidChar) :
    charFromNat n = some (Char.ofNat n) := by
  rw [charFromNat, dif_pos h]
  congr 1
  rw [Char.ofNat, dif_pos h]

theorem charFromNat_lt {n : Nat} (h : n < 55296) :
    charFromNat n = some (Char.ofNat n) :=
  charFromNat_valid (Or.inl h)

theorem charFromNat_gt {n : Nat} (h1 : 57343 < n) (h2 : n < 1114112) :
    charFromNat n = some (Char.ofNat n) :=
  charFromNat_valid (Or.inr ⟨h1, h2⟩)

theorem charFromNat_surrogate {n : Nat} (h1 : 55296 ≤ n) (h2 : n ≤ 57343) :
    charFromNat n = none := by
  rw [charFromNat, dif_neg]
  intro hval
  rcases hval with h | ⟨h, _⟩ <;> omega

theorem hexDigitVal_lt {b a : Nat} (h : hexDigitVal b = some a) : a < 16 := by
  rw [hexDigitVal] at h
  by_cases h1 : 48 ≤ b ∧ b ≤ 57
  · rw [if_pos h1] at h
    have : b - 48 = a := by simpa using h
    omega
  · rw [if_neg h1] at h
    by_cases h2 : 65 ≤ b ∧ b ≤ 70
    · rw [if_pos h2] at h
      have : b - 55 = a := by simpa using h
      omega
    · rw [if_neg h2] at h
      by_cases h3 : 97 ≤ b ∧ b ≤ 102
      · rw [if_pos h3] at h
        have : b - 87 = a := by simpa using h
        omega
      · rw [if_neg h3] at h
        exact absurd h (by simp)

theorem hexDigitVal_ne_plus {b a : Nat} (h : hexDigitVal b = some a) : b ≠ 43 := by
  intro hb
  subst hb
  rw [show hexDigitVal 43 = none from rfl] at h
  exact absurd h (by simp)

/-- `from_str_radix` on four genuine hex digit bytes. -/
theorem parseHex4_digits {d1 d2 d3 d4 a1 a2 a3 a4 : Nat}
    (h1 : hexDigitVal d1 = some a1) (h2 : hexDigitVal d2 = some a2)
    (h3 : hexDigitVal d3 = some a3) (h4 : hexDigitVal d4 = some a4) :
    parseHex4 [d1, d2, d3, d4] = some ((((a1 * 16 + a2) * 16 + a3) * 16 + a4)) := by
  simp only [parseHex4, if_neg (hexDigitVal_ne_plus h1), parseHexRun, h1, h2, h3, h4]
  congr 1
  omega

/-! ## Encoder: the panic branch and its complement -/

theorem itemsJson_cons2 {Flt : Type} (fltRepr : Flt → List Char)
    (v v2 : Value Flt) (tl : ValueList Flt) :
    itemsJson fltRepr (.cons v (.cons v2 tl)) = (do
      let a ← to_json fltRepr v
      let b ← itemsJson fltRepr (.cons v2 tl)
      pure (a ++ ',' :: ' ' :: b)) := rfl

theorem membersJson_cons2 {Flt : Type} (fltRepr : Flt → List Char)
    (k : List Char) (v : Value Flt) (k2 : List Char) (v2 : Value Flt)
    (tl : MemberList Flt) :
    membersJson fltRepr (.cons k v (.cons k2 v2 tl)) = (do
      let ks ← stringRepr k
      let vs ← to_json fltRepr v
      let rest ← membersJson fltRepr (.cons k2 v2 tl)
      pure (ks ++ ':' :: ' ' :: (vs ++ ',' :: ' ' :: rest))) := rfl

theorem charRepr_of_good {c : Char} (h : isBadControl c = false) :
    ∃ r, charRepr c = some r := by
  rw [charRepr]
  by_cases e1 : (c = '"' || c = '\\' || c = '/') = true
  · rw [if_pos e1]; exact ⟨_, rfl⟩
  · rw [if_neg e1]
    by_cases e2 : c = '\x08'
    · rw [if_pos e2]; exact ⟨_, rfl⟩
    · rw [if_neg e2]
      by_cases e3 : c = '\x0c'
      · rw [if_pos e3]; exact ⟨_, rfl⟩
      · rw [if_neg e3]
        by_cases e4 : c = '\x0a'
        · rw [if_pos e4]; exact ⟨_, rfl⟩
        · rw [if_neg e4]
          by_cases e5 : c = '\x0d'
          · rw [if_pos e5]; exact ⟨_, rfl⟩
          · rw [if_neg e5]
            by_cases e6 : c = '\x09'
            · rw [if_pos e6]; exact ⟨_, rfl⟩
            · rw [if_neg e6]
              by_cases e7 : (c.toNat ≤ 31 || c.toNat = 127) = true
              · exfalso
                rw [isBadControl] at h
                simp only [e7, Bool.true_and, Bool.not_eq_false'] at h
                simp only [Bool.or_eq_true, decide_eq_true_eq] at h
                rcases h with ((((h | h) | h) | h) | h)
                exacts [e2 h, e3 h, e4 h, e5 h, e6 h]
              · rw [if_neg e7]
                by_cases e8 : c.toNat ≤ 127
                · rw [if_pos e8]; exact ⟨_, rfl⟩
                · rw [if_neg e8]; exact ⟨_, rfl⟩

theorem charRepr_of_bad {c : Char} (h : isBadControl c = true) :
    charRepr c = none := by
  rw [isBadControl, Bool.and_eq_true] at h
  obtain ⟨hcond, hfive⟩ := h
  rw [Bool.not_eq_true'] at hfive
  simp only [Bool.or_eq_false_iff, decide_eq_false_iff_not] at hfive
  obtain ⟨⟨⟨⟨e2, e3⟩, e4⟩, e5⟩, e6⟩ := hfive
  have hn : c.toNat ≤ 31 ∨ c.toNat = 127 := by
    simpa using hcond
  have h34 : ¬(c = '"') := by
    intro hc
    subst hc
    simp at hn
  have h92 : ¬(c = '\\') := by
    intro hc
    subst hc
    simp at hn
  have h47 : ¬(c = '/') := by
    intro hc
    subst hc
    simp at hn
  rw [charRepr]
  rw [if_neg (by simp [h34, h92, h47]), if_neg e2, if_neg e3, if_neg e4, if_neg e5,
    if_neg e6, if_pos hcond]

theorem strBody_of_good :
    ∀ {s : List Char}, s.all (fun c => !isBadControl c) = true →
      ∃ r, strBody s = some r := by
  intro s
  induction s with
  | nil => exact fun _ => ⟨[], rfl⟩
  | cons c cs ih =>
    intro h
    rw [List.all_cons, Bool.and_eq_true] at h
    obtain ⟨r1, hr1⟩ := charRepr_of_good (by simpa using h.1)
    obtain ⟨r2, hr2⟩ := ih h.2
    exact ⟨r1 ++ r2, by rw [strBody, hr1, hr2]; rfl⟩

theorem strBody_of_bad :
    ∀ {s : List Char}, s.all (fun c => !isBadControl c) = false →
      strBody s = none := by
  intro s
  induction s with
  | nil => intro h; exact absurd h (by simp)
  | cons c cs ih =>
    intro h
    rw [List.all_cons] at h
    rw [Bool.and_eq_false_iff] at h
    rw [strBody]
    rcases h with h | h
    · rw [charRepr_of_bad (by simpa using h)]
      rfl
    · by_cases hc : isBadControl c = true
      · rw [charRepr_of_bad hc]; rfl
      · obtain ⟨r1, hr1⟩ := charRepr_of_good (by simpa using hc)
        rw [hr1, ih h]
        rfl

theorem stringRepr_of_good {s : List Char}
    (h : s.all (fun c => !isBadControl c) = true) :
    ∃ r, stringRepr s = some r := by
  obtain ⟨r, hr⟩ := strBody_of_good h
  exact ⟨_, by rw [stringRepr, hr]; rfl⟩

theorem stringRepr_of_bad {s : List Char}
    (h : s.all (fun c => !isBadControl c) = false) :
    stringRepr s = none := by
  rw [stringRepr, strBody_of_bad h]
  rfl

mutual
theorem to_json_of_ctlOk {Flt : Type} (fltRepr : Flt → List Char) :
    ∀ v : Value Flt, valCtlOk v = true → ∃ t, to_json fltRepr v = some t
  | .vstring s, h => stringRepr_of_good (by simpa [valCtlOk] using h)
  | .vnumber n, _ => ⟨_, rfl⟩
  | .vbool b, _ => ⟨_, rfl⟩
  | .vnull, _ => ⟨_, rfl⟩
  | .varray items, h => by
    obtain ⟨t, ht⟩ := itemsJson_of_ctlOk fltRepr items (by simpa [valCtlOk] using h)
    exact ⟨_, by rw [to_json, ht]; rfl⟩
  | .vobject ms, h => by
    obtain ⟨t, ht⟩ := membersJson_of_ctlOk fltRepr ms (by simpa [valCtlOk] using h)
    exact ⟨_, by rw [to_json, ht]; rfl⟩

theorem itemsJson_of_ctlOk {Flt : Type} (fltRepr : Flt → List Char) :
    ∀ items : ValueList Flt, itemsCtlOk items = true →
      ∃ t, itemsJson fltRepr items = some t
  | .nil, _ => ⟨[], rfl⟩
  | .cons v .nil, h => by
    obtain ⟨t, ht⟩ := to_json_of_ctlOk fltRepr v
      (by rw [itemsCtlOk, Bool.and_eq_true] at h; exact h.1)
    exact ⟨t, by rw [itemsJson, ht]⟩
  | .cons v (.cons v2 tl), h => by
    rw [itemsCtlOk, Bool.and_eq_true] at h
    obtain ⟨t, ht⟩ := to_json_of_ctlOk fltRepr v h.1
    obtain ⟨t2, ht2⟩ := itemsJson_of_ctlOk fltRepr (.cons v2 tl) h.2
    exact ⟨_, by rw [itemsJson_cons2, ht, ht2]; rfl⟩

theorem membersJson_of_ctlOk {Flt : Type} (fltRepr : Flt → List Char) :
    ∀ ms : MemberList Flt, membersCtlOk ms = true →
      ∃ t, membersJson fltRepr ms = some t
  | .nil, _ => ⟨[], rfl⟩
  | .cons k v .nil, h => by
    rw [membersCtlOk, Bool.and_eq_true, Bool.and_eq_true] at h
    obtain ⟨tk, htk⟩ := stringRepr_of_good h.1.1
    obtain ⟨tv, htv⟩ := to_json_of_ctlOk fltRepr v h.1.2
    exact ⟨_, by rw [membersJson, htk, htv]; rfl⟩
  | .cons k v (.cons k2 v2 tl), h => by
    rw [membersCtlOk, Bool.and_eq_true, Bool.and_eq_true] at h
    obtain ⟨tk, htk⟩ := stringRepr_of_good h.1.1
    obtain ⟨tv, htv⟩ := to_json_of_ctlOk fltRepr v h.1.2
    obtain ⟨t2, ht2⟩ := membersJson_of_ctlOk fltRepr (.cons k2 v2 tl) h.2
    exact ⟨_, by rw [membersJson_cons2, htk, htv, ht2]; rfl⟩
end

mutual
theorem to_json_of_ctlBad {Flt : Type} (fltRepr : Flt → List Char) :
    ∀ v : Value Flt, valCtlOk v = false → to_json fltRepr v = none
  | .vstring s, h => stringRepr_of_bad (by simpa [valCtlOk] using h)
  | .vnumber n, h => absurd h (by rw [valCtlOk]; simp)
  | .vbool b, h => absurd h (by rw [valCtlOk]; simp)
  | .vnull, h => absurd h (by rw [valCtlOk]; simp)
  | .varray items, h => by
    rw [to_json, itemsJson_of_ctlBad fltRepr items (by simpa [valCtlOk] using h)]
    rfl
  | .vobject ms, h => by
    rw [to_json, membersJson_of_ctlBad fltRepr ms (by simpa [valCtlOk] using h)]
    rfl

theorem itemsJson_of_ctlBad {Flt : Type} (fltRepr : Flt → List Char) :
    ∀ items : ValueList Flt, itemsCtlOk items = false →
      itemsJson fltRepr items = none
  | .nil, h => absurd h (by rw [itemsCtlOk]; simp)
  | .cons v .nil, h => by
    rw [itemsCtlOk, Bool.and_eq_false_iff] at h
    rw [itemsJson]
    rcases h with h | h
    · exact to_json_of_ctlBad fltRepr v h
    · exact absurd h (by rw [itemsCtlOk]; simp)
  | .cons v (.cons v2 tl), h => by
    rw [itemsCtlOk, Bool.and_eq_false_iff] at h
    rw [itemsJson_cons2]
    rcases h with h | h
    · rw [to_json_of_ctlBad fltRepr v h]
      rfl
    · rw [itemsJson_of_ctlBad fltRepr (.cons v2 tl) h]
      cases to_json fltRepr v <;> rfl

theorem membersJson_of_ctlBad {Flt : Type} (fltRepr : Flt → List Char) :
    ∀ ms : MemberList Flt, membersCtlOk ms = false →
      membersJson fltRepr ms = none
  | .nil, h => absurd h (by rw [membersCtlOk]; simp)
  | .cons k v .nil, h => by
    rw [membersCtlOk, Bool.and_eq_false_iff, Bool.and_eq_false_iff] at h
    rw [membersJson]
    rcases h with (h | h) | h
    · rw [stringRepr_of_bad h]
      rfl
    · rw [to_json_of_ctlBad fltRepr v h]
      cases stringRepr k <;> rfl
    · exact absurd h (by rw [membersCtlOk]; simp)
  | .cons k v (.cons k2 v2 tl), h => by
    rw [membersCtlOk, Bool.and_eq_false_iff, Bool.and_eq_false_iff] at h
    rw [membersJson_cons2]
    rcases h with (h | h) | h
    · rw [stringRepr_of_bad h]
      rfl
    · rw [to_json_of_ctlBad fltRepr v h]
      cases stringRepr k <;> rfl
    · rw [membersJson_of_ctlBad fltRepr (.cons k2 v2 tl) h]
      cases stringRepr k <;> cases to_json fltRepr v <;> rfl
end

/-! ## Encoder: hexadecimal escapes -/

theorem hexCharVal_hexDigitChar {m : Nat} (h : m < 16) :
    hexCharVal (hexDigitChar m) = m := by
  interval_cases m <;> decide

theorem isUpperHexDigit_hexDigitChar {m : Nat} (h : m < 16) :
    isUpperHexDigit (hexDigitChar m) = true := by
  interval_cases m <;> decide

theorem hexDigitsAux_acc : ∀ f n acc,
    hexDigitsAux f n acc = hexDigitsAux f n [] ++ acc := by
  intro f
  induction f with
  | zero => intro n acc; rfl
  | succ f ih =>
    intro n acc
    by_cases h0 : n = 0
    · subst h0; rfl
    · show (if n = 0 then acc else hexDigitsAux f (n / 16) (hexDigitChar (n % 16) :: acc)) =
        (if n = 0 then ([] : List Char)
          else hexDigitsAux f (n / 16) (hexDigitChar (n % 16) :: [])) ++ acc
      rw [if_neg h0, if_neg h0,
        ih (n / 16) (hexDigitChar (n % 16) :: acc),
        ih (n / 16) (hexDigitChar (n % 16) :: [])]
      simp

theorem hexDigitsAux_value : ∀ f n, n < 16 ^ f →
    hexValue (hexDigitsAux f n []) = n := by
  intro f
  induction f with
  | zero =>
    intro n h
    rw [pow_zero] at h
    interval_cases n
    rfl
  | succ f ih =>
    intro n h
    by_cases h0 : n = 0
    · subst h0; rfl
    · rw [hexDigitsAux, if_neg h0, hexDigitsAux_acc, hexValue, List.foldl_append,
        List.foldl_cons, List.foldl_nil]
      have hlt : n / 16 < 16 ^ f := by
        rw [Nat.div_lt_iff_lt_mul (by norm_num)]
        calc n < 16 ^ (f + 1) := h
        _ = 16 ^ f * 16 := pow_succ 16 f
      have hpre := ih (n / 16) hlt
      rw [hexValue] at hpre
      rw [hpre, hexCharVal_hexDigitChar (Nat.mod_lt n (by norm_num))]
      omega

theorem hexDigitsAux_digits : ∀ f n acc,
    (∀ d ∈ acc, isUpperHexDigit d = true) →
    ∀ d ∈ hexDigitsAux f n acc, isUpperHexDigit d = true := by
  intro f
  induction f with
  | zero => intro n acc hacc; exact hacc
  | succ f ih =>
    intro n acc hacc
    by_cases h0 : n = 0
    · intro d hd
      rw [hexDigitsAux, if_pos h0] at hd
      exact hacc d hd
    · intro d hd
      rw [hexDigitsAux, if_neg h0] at hd
      refine ih (n / 16) _ ?_ d hd
      intro e he
      rcases List.mem_cons.mp he with h | h
      · subst h
        exact isUpperHexDigit_hexDigitChar (Nat.mod_lt n (by norm_num))
      · exact hacc e h

theorem hexDigitsAux_len_lb : ∀ f k n, 16 ^ k ≤ n → n < 16 ^ f →
    k + 1 ≤ (hexDigitsAux f n []).length := by
  intro f
  induction f with
  | zero =>
    intro k n hk hf
    exfalso
    have h1 : (1:Nat) ≤ 16 ^ k := Nat.one_le_pow _ _ (by norm_num)
    rw [pow_zero] at hf
    omega
  | succ f ih =>
    intro k n hk hf
    have h1 : (1:Nat) ≤ 16 ^ k := Nat.one_le_pow _ _ (by norm_num)
    have h0 : n ≠ 0 := by omega
    rw [hexDigitsAux, if_neg h0, hexDigitsAux_acc, List.length_append]
    simp only [List.length_cons, List.length_nil]
    cases k with
    | zero => omega
    | succ j =>
      have hdiv : 16 ^ j ≤ n / 16 := by
        rw [Nat.le_div_iff_mul_le (by norm_num)]
        calc 16 ^ j * 16 = 16 ^ (j + 1) := (pow_succ 16 j).symm
        _ ≤ n := hk
      have hlt : n / 16 < 16 ^ f := by
        rw [Nat.div_lt_iff_lt_mul (by norm_num)]
        calc n < 16 ^ (f + 1) := hf
        _ = 16 ^ f * 16 := pow_succ 16 f
      have := ih j (n / 16) hdiv hlt
      omega

theorem hexValue_zeros : ∀ k ds,
    hexValue (List.replicate k '0' ++ ds) = hexValue ds := by
  intro k
  induction k with
  | zero => intro ds; rfl
  | succ k ih =>
    intro ds
    rw [List.replicate_succ, List.cons_append, hexValue, List.foldl_cons]
    rw [show (0 : Nat) * 16 + hexCharVal '0' = 0 from by decide]
    exact ih ds

theorem hexMin4_spec {n : Nat} (h0 : n ≠ 0) (h8 : n < 16 ^ 8) :
    (∀ d ∈ hexMin4 n, isUpperHexDigit d = true) ∧
    4 ≤ (hexMin4 n).length ∧
    hexValue (hexMin4 n) = n ∧
    (16 ^ 4 ≤ n → 5 ≤ (hexMin4 n).length) := by
  have hds : hexMin4 n =
      List.replicate (4 - (hexDigitsAux 8 n []).length) '0' ++ hexDigitsAux 8 n [] := by
    rw [hexMin4]
    rw [if_neg h0]
  refine ⟨?_, ?_, ?_, ?_⟩
  · intro d hd
    rw [hds] at hd
    rcases List.mem_append.mp hd with h | h
    · rw [List.eq_of_mem_replicate h]
      decide
    · exact hexDigitsAux_digits 8 n [] (by intro e he; cases he) d h
  · rw [hds, List.length_append, List.length_replicate]
    omega
  · rw [hds, hexValue_zeros]
    exact hexDigitsAux_value 8 n h8
  · intro h4
    have := hexDigitsAux_len_lb 8 4 n h4 h8
    rw [hds, List.length_append, List.length_replicate]
    omega

theorem charRepr_nonAscii {c : Char} (h : 127 < c.toNat) :
    charRepr c = some ('\\' :: 'u' :: hexMin4 c.toNat) := by
  have e1 : ¬((c = '"' || c = '\\' || c = '/') = true) := by
    simp only [Bool.or_eq_true, decide_eq_true_eq]
    rintro ((e | e) | e) <;> subst e <;> exact absurd h (by decide)
  have e2 : ¬(c = '\x08') := fun e => by subst e; exact absurd h (by decide)
  have e3 : ¬(c = '\x0c') := fun e => by subst e; exact absurd h (by decide)
  have e4 : ¬(c = '\x0a') := fun e => by subst e; exact absurd h (by decide)
  have e5 : ¬(c = '\x0d') := fun e => by subst e; exact absurd h (by decide)
  have e6 : ¬(c = '\x09') := fun e => by subst e; exact absurd h (by decide)
  have e7 : ¬((c.toNat ≤ 31 || c.toNat = 127) = true) := by
    simp only [Bool.or_eq_true, decide_eq_true_eq]
    omega
  have e8 : ¬(c.toNat ≤ 127) := by omega
  rw [charRepr, if_neg e1, if_neg e2, if_neg e3, if_neg e4, if_neg e5, if_neg e6,
    if_neg e7, if_neg e8]

theorem strBody_append : ∀ a b : List Char,
    strBody (a ++ b) = (do
      let x ← strBody a
      let y ← strBody b
      pure (x ++ y)) := by
  intro a
  induction a with
  | nil =>
    intro b
    show strBody b = _
    cases strBody b <;> rfl
  | cons c cs ih =>
    intro b
    rw [List.cons_append, strBody, ih, strBody]
    cases charRepr c <;> cases strBody cs <;> cases strBody b <;>
      simp [List.append_assoc]

/-! ## Round trip: strings -/

theorem hexDigitsAux_len_ub : ∀ f n k, n < 16 ^ k →
    (hexDigitsAux f n []).length ≤ k := by
  intro f
  induction f with
  | zero =>
    intro n k _
    exact Nat.zero_le k
  | succ f ih =>
    intro n k h
    by_cases h0 : n = 0
    · subst h0
      show (hexDigitsAux (f + 1) 0 []).length ≤ k
      exact Nat.zero_le k
    · rw [hexDigitsAux, if_neg h0, hexDigitsAux_acc, List.length_append]
      simp only [List.length_cons, List.length_nil]
      cases k with
      | zero =>
        exfalso
        rw [pow_zero] at h
        omega
      | succ j =>
        have hlt : n / 16 < 16 ^ j := by
          rw [Nat.div_lt_iff_lt_mul (by norm_num)]
          calc n < 16 ^ (j + 1) := h
          _ = 16 ^ j * 16 := pow_succ 16 j
        have := ih (n / 16) j hlt
        omega

theorem hexMin4_len4 {n : Nat} (h0 : n ≠ 0) (h : n < 65536) :
    (hexMin4 n).length = 4 := by
  have hub := hexDigitsAux_len_ub 8 n 4 (by norm_num; omega)
  rw [hexMin4]
  rw [if_neg h0, List.length_append, List.length_replicate]
  omega

theorem list_len4 {α : Type} : ∀ {l : List α}, l.length = 4 →
    ∃ a b c d, l = [a, b, c, d] := by
  intro l h
  match l, h with
  | [a, b, c, d], _ => exact ⟨a, b, c, d, rfl⟩

theorem upperHex_toNat {d : Char} (h : isUpperHexDigit d = true) :
    (48 ≤ d.toNat ∧ d.toNat ≤ 57) ∨ (65 ≤ d.toNat ∧ d.toNat ≤ 70) := by
  rw [isUpperHexDigit] at h
  simp only [Bool.or_eq_true, Bool.and_eq_true, decide_eq_true_eq] at h
  exact h

theorem hexDigitVal_of_upper {d : Char} (h : isUpperHexDigit d = true) :
    hexDigitVal d.toNat = some (hexCharVal d) := by
  rcases upperHex_toNat h with h | h
  · rw [hexDigitVal, if_pos (by omega), hexCharVal, if_pos (by omega)]
  · rw [hexDigitVal, if_neg (by omega), if_pos (by omega), hexCharVal,
      if_neg (by omega)]

theorem parseHexRun_upper : ∀ (ds : List Char) (a : Nat),
    (∀ d ∈ ds, isUpperHexDigit d = true) →
    parseHexRun (ds.map Char.toNat) a =
      some (ds.foldl (fun x c => x * 16 + hexCharVal c) a) := by
  intro ds
  induction ds with
  | nil => intro a _; rfl
  | cons d tl ih =>
    intro a h
    rw [List.map_cons, parseHexRun, hexDigitVal_of_upper (h d (by simp)),
      List.foldl_cons]
    exact ih _ (fun x hx => h x (by simp [hx]))

theorem parseHex4_upper {d1 d2 d3 d4 : Char}
    (h : ∀ d ∈ [d1, d2, d3, d4], isUpperHexDigit d = true) :
    parseHex4 [d1.toNat, d2.toNat, d3.toNat, d4.toNat] =
      some (hexValue [d1, d2, d3, d4]) := by
  have h43 : d1.toNat ≠ 43 := by
    rcases upperHex_toNat (h d1 (by simp)) with h1 | h1 <;> omega
  rw [parseHex4, if_neg h43]
  exact parseHexRun_upper [d1, d2, d3, d4] 0 h

theorem charFromNat_toNat (c : Char) : charFromNat c.toNat = some c := by
  have h : c.toNat.isValidChar := c.valid
  have e : Char.ofNatAux c.toNat h = Char.ofNat c.toNat := by
    rw [Char.ofNat, dif_pos h]
  rw [charFromNat, dif_pos h, e, Char.ofNat_toNat]

theorem utf8EncodeChar_ascii {c : Char} (h : c.toNat < 128) :
    utf8EncodeChar c = [c.toNat] := by
  rw [utf8EncodeChar]
  simp only [if_pos h]

theorem utf8Encode_ascii : ∀ {t : List Char}, (∀ c ∈ t, c.toNat < 128) →
    utf8Encode t = t.map Char.toNat := by
  intro t
  induction t with
  | nil => intro _; rfl
  | cons c cs ih =>
    intro h
    rw [utf8Encode, List.map_cons, List.flatten_cons,
      utf8EncodeChar_ascii (h c (by simp)), ← utf8Encode, ih (fun x hx => h x (by simp [hx]))]
    rfl

theorem charRepr_ascii {c : Char} {r : List Char} (h : charRepr c = some r) :
    ∀ x ∈ r, x.toNat < 128 := by
  rw [charRepr] at h
  by_cases e1 : (c = '"' || c = '\\' || c = '/') = true
  · rw [if_pos e1] at h
    have hr : r = ['\\', c] := by simpa using h.symm
    subst hr
    intro x hx
    simp only [List.mem_cons, List.not_mem_nil, or_false] at hx
    rcases hx with hx | hx
    · subst hx; decide
    · subst hx
      simp only [Bool.or_eq_true, decide_eq_true_eq] at e1
      rcases e1 with (e | e) | e <;> subst e <;> decide
  · rw [if_neg e1] at h
    by_cases e2 : c = '\x08'
    · rw [if_pos e2] at h
      have hr : r = ['\\', 'b'] := by simpa using h.symm
      subst hr; decide
    · rw [if_neg e2] at h
      by_cases e3 : c = '\x0c'
      · rw [if_pos e3] at h
        have hr : r = ['\\', 'f'] := by simpa using h.symm
        subst hr; decide
      · rw [if_neg e3] at h
        by_cases e4 : c = '\x0a'
        · rw [if_pos e4] at h
          have hr : r = ['\\', 'n'] := by simpa using h.symm
          subst hr; decide
        · rw [if_neg e4] at h
          by_cases e5 : c = '\x0d'
          · rw [if_pos e5] at h
            have hr : r = ['\\', 'r'] := by simpa using h.symm
            subst hr; decide
          · rw [if_neg e5] at h
            by_cases e6 : c = '\x09'
            · rw [if_pos e6] at h
              have hr : r = ['\\', 't'] := by simpa using h.symm
              subst hr; decide
            · rw [if_neg e6] at h
              by_cases e7 : (c.toNat ≤ 31 || c.toNat = 127) = true
              · rw [if_pos e7] at h
                exact absurd h (by simp)
              · rw [if_neg e7] at h
                by_cases e8 : c.toNat ≤ 127
                · rw [if_pos e8] at h
                  have hr : r = [c] := by simpa using h.symm
                  subst hr
                  intro x hx
                  simp only [List.mem_cons, List.not_mem_nil, or_false] at hx
                  subst hx
                  omega
                · rw [if_neg e8] at h
                  have hr : r = '\\' :: 'u' :: hexMin4 c.toNat := by
                    simpa using h.symm
                  subst hr
                  intro x hx
                  simp only [List.mem_cons] at hx
                  rcases hx with hx | hx | hx
                  · subst hx; decide
                  · subst hx; decide
                  · have hn0 : c.toNat ≠ 0 := by omega
                    have hn8 : c.toNat < 16 ^ 8 := by
                      have hv : c.toNat < 1114112 := by
                        rcases c.valid with h | h <;> simp only [Char.toNat] <;> omega
                      norm_num
                      omega
                    have := (hexMin4_spec hn0 hn8).1 x hx
                    rcases upperHex_toNat this with h9 | h9 <;> omega

theorem strBody_ascii : ∀ {s body : List Char}, strBody s = some body →
    ∀ x ∈ body, x.toNat < 128 := by
  intro s
  induction s with
  | nil =>
    intro body h
    have : body = [] := by simpa [strBody] using h.symm
    subst this
    intro x hx
    cases hx
  | cons c cs ih =>
    intro body h
    rw [strBody] at h
    cases hc : charRepr c with
    | none => rw [hc] at h; exact absurd h (by simp)
    | some r =>
      rw [hc] at h
      cases hb : strBody cs with
      | none => rw [hb] at h; exact absurd h (by simp)
      | some rest =>
        rw [hb] at h
        have hbody : body = r ++ rest := by simpa using h.symm
        subst hbody
        intro x hx
        rcases List.mem_append.mp hx with hx | hx
        · exact charRepr_ascii hc x hx
        · exact ih hb x hx

/-! ## Round trip: decoding an encoded string literal -/

theorem readString_enc {buf : List Nat} :
    ∀ (s : List Char), goodStr s = true →
    ∀ {body : List Char}, strBody s = some body →
    ∀ {pos : Nat} {rest : List Nat},
      buf.drop pos = body.map Char.toNat ++ 34 :: rest →
      readString buf pos = (.ok s, pos + (body.length + 1)) := by
  intro s
  induction s with
  | nil =>
    intro _ body hbody pos rest hdrop
    have hb : body = [] := by simpa [strBody] using hbody.symm
    subst hb
    simpa using readString_quote (by simpa using hdrop)
  | cons c cs ih =>
    intro hgood body hbody pos rest hdrop
    rw [goodStr, List.all_cons, Bool.and_eq_true] at hgood
    obtain ⟨hgc, hgcs⟩ := hgood
    rw [goodChar, Bool.and_eq_true, Bool.not_eq_true'] at hgc
    obtain ⟨hnotbad, hbmp⟩ := hgc
    rw [decide_eq_true_eq] at hbmp
    rw [strBody] at hbody
    cases hc : charRepr c with
    | none => rw [hc] at hbody; exact absurd hbody (by simp)
    | some rc =>
      rw [hc] at hbody
      cases hbcs : strBody cs with
      | none => rw [hbcs] at hbody; exact absurd hbody (by simp)
      | some bodyCs =>
        rw [hbcs] at hbody
        have hbeq : body = rc ++ bodyCs := by simpa using hbody.symm
        subst hbeq
        have hdrop2 : buf.drop pos =
            rc.map Char.toNat ++ (bodyCs.map Char.toNat ++ 34 :: rest) := by
          simpa [List.map_append, List.append_assoc] using hdrop
        rw [charRepr] at hc
        by_cases e1 : (c = '"' || c = '\\' || c = '/') = true
        · rw [if_pos e1] at hc
          have hrc : rc = ['\\', c] := by simpa using hc.symm
          subst hrc
          have hct : c.toNat = 34 ∨ c.toNat = 92 ∨ c.toNat = 47 := by
            simp only [Bool.or_eq_true, decide_eq_true_eq] at e1
            rcases e1 with (e | e) | e <;> subst e <;> simp
          have hesc : escMap c.toNat = some c := by
            rw [escMap, if_pos (by rcases hct with h | h | h <;> simp [h])]
            rw [byteChar, Char.ofNat_toNat]
          have hdrop3 : buf.drop pos =
              92 :: c.toNat :: (bodyCs.map Char.toNat ++ 34 :: rest) := by
            simpa using hdrop2
          rw [readString_escSimple hdrop3 hesc,
            ih hgcs hbcs (by
              have := drop_succ_of_drop_cons (drop_succ_of_drop_cons hdrop3)
              simpa [Nat.add_assoc] using this)]
          rw [pushCont]
          simp only [List.length_append, List.length_cons, List.length_nil,
            Prod.mk.injEq]
          exact ⟨trivial, by omega⟩
        · rw [if_neg e1] at hc
          by_cases e2 : c = '\x08'
          · rw [if_pos e2] at hc
            have hrc : rc = ['\\', 'b'] := by simpa using hc.symm
            subst hrc
            have hdrop3 : buf.drop pos =
                92 :: 98 :: (bodyCs.map Char.toNat ++ 34 :: rest) := by
              simpa using hdrop2
            rw [readString_escSimple hdrop3 (show escMap 98 = some (Char.ofNat 8) from rfl),
              ih hgcs hbcs (by
                have := drop_succ_of_drop_cons (drop_succ_of_drop_cons hdrop3)
                simpa [Nat.add_assoc] using this)]
            have hche2 : Char.ofNat 8 = c := by rw [e2]
            rw [pushCont, hche2]
            simp only [List.length_append, List.length_cons, List.length_nil,
              Prod.mk.injEq]
            exact ⟨trivial, by omega⟩
          · rw [if_neg e2] at hc
            by_cases e3 : c = '\x0c'
            · rw [if_pos e3] at hc
              have hrc : rc = ['\\', 'f'] := by simpa using hc.symm
              subst hrc
              have hdrop3 : buf.drop pos =
                  92 :: 102 :: (bodyCs.map Char.toNat ++ 34 :: rest) := by
                simpa using hdrop2
              rw [readString_escSimple hdrop3 (show escMap 102 = some (Char.ofNat 12) from rfl),
                ih hgcs hbcs (by
                  have := drop_succ_of_drop_cons (drop_succ_of_drop_cons hdrop3)
                  simpa [Nat.add_assoc] using this)]
              have hche3 : Char.ofNat 12 = c := by rw [e3]
              rw [pushCont, hche3]
              simp only [List.length_append, List.length_cons, List.length_nil,
                Prod.mk.injEq]
              exact ⟨trivial, by omega⟩
            · rw [if_neg e3] at hc
              by_cases e4 : c = '\x0a'
              · rw [if_pos e4] at hc
                have hrc : rc = ['\\', 'n'] := by simpa using hc.symm
                subst hrc
                have hdrop3 : buf.drop pos =
                    92 :: 110 :: (bodyCs.map Char.toNat ++ 34 :: rest) := by
                  simpa using hdrop2
                rw [readString_escSimple hdrop3 (show escMap 110 = some (Char.ofNat 10) from rfl),
                  ih hgcs hbcs (by
                    have := drop_succ_of_drop_cons (drop_succ_of_drop_cons hdrop3)
                    simpa [Nat.add_assoc] using this)]
                have hche4 : Char.ofNat 10 = c := by rw [e4]
                rw [pushCont, hche4]
                simp only [List.length_append, List.length_cons, List.length_nil,
                  Prod.mk.injEq]
                exact ⟨trivial, by omega⟩
              · rw [if_neg e4] at hc
                by_cases e5 : c = '\x0d'
                · rw [if_pos e5] at hc
                  have hrc : rc = ['\\', 'r'] := by simpa using hc.symm
                  subst hrc
                  have hdrop3 : buf.drop pos =
                      92 :: 114 :: (bodyCs.map Char.toNat ++ 34 :: rest) := by
                    simpa using hdrop2
                  rw [readString_escSimple hdrop3 (show escMap 114 = some (Char.ofNat 13) from rfl),
                    ih hgcs hbcs (by
                      have := drop_succ_of_drop_cons (drop_succ_of_drop_cons hdrop3)
                      simpa [Nat.add_assoc] using this)]
                  have hche5 : Char.ofNat 13 = c := by rw [e5]
                  rw [pushCont, hche5]
                  simp only [List.length_append, List.length_cons, List.length_nil,
                    Prod.mk.injEq]
                  exact ⟨trivial, by omega⟩
                · rw [if_neg e5] at hc
                  by_cases e6 : c = '\x09'
                  · rw [if_pos e6] at hc
                    have hrc : rc = ['\\', 't'] := by simpa using hc.symm
                    subst hrc
                    have hdrop3 : buf.drop pos =
                        92 :: 116 :: (bodyCs.map Char.toNat ++ 34 :: rest) := by
                      simpa using hdrop2
                    rw [readString_escSimple hdrop3 (show escMap 116 = some (Char.ofNat 9) from rfl),
                      ih hgcs hbcs (by
                        have := drop_succ_of_drop_cons (drop_succ_of_drop_cons hdrop3)
                        simpa [Nat.add_assoc] using this)]
                    have hche6 : Char.ofNat 9 = c := by rw [e6]
                    rw [pushCont, hche6]
                    simp only [List.length_append, List.length_cons, List.length_nil,
                      Prod.mk.injEq]
                    exact ⟨trivial, by omega⟩
                  · rw [if_neg e6] at hc
                    by_cases e7 : (c.toNat ≤ 31 || c.toNat = 127) = true
                    · exfalso
                      rw [isBadControl] at hnotbad
                      simp only [e7, Bool.true_and, Bool.not_eq_false'] at hnotbad
                      simp only [Bool.or_eq_true, decide_eq_true_eq] at hnotbad
                      rcases hnotbad with ((((h | h) | h) | h) | h)
                      exacts [e2 h, e3 h, e4 h, e5 h, e6 h]
                    · rw [if_neg e7] at hc
                      by_cases e8 : c.toNat ≤ 127
                      · rw [if_pos e8] at hc
                        have hrc : rc = [c] := by simpa using hc.symm
                        subst hrc
                        have hdrop3 : buf.drop pos =
                            c.toNat :: (bodyCs.map Char.toNat ++ 34 :: rest) := by
                          simpa using hdrop2
                        have h34 : c.toNat ≠ 34 := by
                          intro he
                          have : c = '"' := by
                            rw [← Char.ofNat_toNat c, he]
                          simp [this] at e1
                        have h92 : c.toNat ≠ 92 := by
                          intro he
                          have : c = '\\' := by
                            rw [← Char.ofNat_toNat c, he]
                          simp [this] at e1
                        rw [readString_plain hdrop3 h34 h92,
                          ih hgcs hbcs (by
                            have := drop_succ_of_drop_cons hdrop3
                            simpa [Nat.add_assoc] using this)]
                        rw [byteChar, Char.ofNat_toNat, pushCont]
                        simp only [List.length_append, List.length_cons,
                          List.length_nil, Prod.mk.injEq]
                        exact ⟨trivial, by omega⟩
                      · rw [if_neg e8] at hc
                        have hrc : rc = '\\' :: 'u' :: hexMin4 c.toNat := by
                          simpa using hc.symm
                        subst hrc
                        have hn0 : c.toNat ≠ 0 := by omega
                        have hn8 : c.toNat < 16 ^ 8 := by norm_num; omega
                        obtain ⟨hdig, _, hval, _⟩ := hexMin4_spec hn0 hn8
                        obtain ⟨d1, d2, d3, d4, hds⟩ :=
                          list_len4 (hexMin4_len4 hn0 hbmp)
                        rw [hds] at hdig hval hdrop2
                        have hdrop3 : buf.drop pos =
                            92 :: 117 :: d1.toNat :: d2.toNat :: d3.toNat ::
                              d4.toNat :: (bodyCs.map Char.toNat ++ 34 :: rest) := by
                          simpa using hdrop2
                        rw [readString_escU hdrop3, parseHex4_upper hdig, hval]
                        dsimp only
                        rw [charFromNat_toNat]
                        dsimp only
                        rw [ih hgcs hbcs (by
                          have h6 : buf.drop (pos + 6) =
                              bodyCs.map Char.toNat ++ 34 :: rest := by
                            have s1 := drop_succ_of_drop_cons hdrop3
                            have s2 := drop_succ_of_drop_cons s1
                            have s3 := drop_succ_of_drop_cons s2
                            have s4 := drop_succ_of_drop_cons s3
                            have s5 := drop_succ_of_drop_cons s4
                            have s6 := drop_succ_of_drop_cons s5
                            simpa [Nat.add_assoc] using s6
                          exact h6)]
                        rw [pushCont]
                        simp only [hds, List.length_append, List.length_cons,
                          List.length_nil, Prod.mk.injEq]
                        exact ⟨trivial, by omega⟩

/-! ## Round trip: tokens, the cache, and loop steps -/

theorem drop_add_of_drop {buf : List Nat} :
    ∀ (xs : List Nat) {pos : Nat} {rest : List Nat},
      buf.drop pos = xs ++ rest → buf.drop (pos + xs.length) = rest := by
  intro xs
  induction xs with
  | nil => intro pos rest h; simpa using h
  | cons x tl ih =>
    intro pos rest h
    have h1 : buf.drop pos = x :: (tl ++ rest) := by simpa using h
    have h2 := drop_succ_of_drop_cons h1
    have h3 : pos + (x :: tl).length = pos + 1 + tl.length := by
      simp only [List.length_cons]
      omega
    rw [h3]
    exact ih h2

theorem readTokenRaw_delim0 {Flt : Type} (parseNum : List Nat → Option Flt)
    {buf : List Nat} {pos b : Nat} {rest : List Nat}
    (hdrop : buf.drop pos = b :: rest) (hb : isDelimB b = true) :
    readTokenRaw parseNum buf pos = (.ok (tokOfDelim b), pos + 1) := by
  have hd2 : buf.drop pos = ([] : List Nat) ++ b :: rest := by simpa using hdrop
  have h := readTokenRaw_delim parseNum hd2 (fun x hx => absurd hx (by simp)) hb
  simpa using h

theorem readTokenRaw_strTok {Flt : Type} (parseNum : List Nat → Option Flt)
    {buf : List Nat} {s : List Char} (hg : goodStr s = true)
    {body : List Char} (hb : strBody s = some body)
    {pos : Nat} {ws rest : List Nat} (hws : ∀ x ∈ ws, isWsB x = true)
    (hdrop : buf.drop pos = ws ++ 34 :: (body.map Char.toNat ++ 34 :: rest)) :
    readTokenRaw parseNum buf pos =
      (.ok (.str s), pos + ws.length + (body.length + 2)) := by
  rw [readTokenRaw_string parseNum hdrop hws]
  have hd2 : buf.drop (pos + ws.length + 1) = body.map Char.toNat ++ 34 :: rest := by
    have h1 := drop_add_of_drop ws hdrop
    have h2 := drop_succ_of_drop_cons h1
    exact h2
  rw [readString_enc s hg hb hd2]
  simp only [Prod.mk.injEq]
  exact ⟨trivial, by omega⟩

theorem peekToken_none {Flt : Type} (parseNum : List Nat → Option Flt)
    {buf : List Nat} {pos : Nat} {r : Except PErr (Tok Flt)} {p : Nat}
    (h : readTokenRaw parseNum buf pos = (r, p)) :
    peekToken parseNum buf ⟨pos, none⟩ = (r, ⟨p, some r⟩) := by
  rw [peekToken_eq, readToken_cacheNone, h]

theorem readValue_cache_eq {Flt : Type} (parseNum : List Nat → Option Flt)
    {buf : List Nat} {pos : Nat} {r : Except PErr (Tok Flt)} {p : Nat}
    (h : readTokenRaw parseNum buf pos = (r, p)) (k : Nat) :
    readValue parseNum buf (k + 1) ⟨p, some r⟩ =
      readValue parseNum buf (k + 1) ⟨pos, none⟩ := by
  have h1 : readToken parseNum buf (⟨p, some r⟩ : PSt Flt) = (r, ⟨p, none⟩) := rfl
  have h2 : readToken parseNum buf (⟨pos, none⟩ : PSt Flt) = (r, ⟨p, none⟩) := by
    rw [readToken_cacheNone, h]
  simp only [readValue, h1, h2]

theorem objLoop_close {Flt : Type} (parseNum : List Nat → Option Flt)
    {buf : List Nat} {pos p : Nat} (k : Nat) (acc : MemberList Flt)
    (hraw : readTokenRaw parseNum buf pos = (.ok .rbrace, p)) :
    readObjectLoop parseNum buf (k + 1) acc ⟨pos, none⟩ = (.ok acc, ⟨p, none⟩) := by
  have hp := peekToken_none parseNum hraw
  simp only [readObjectLoop, hp, readToken_cacheSome]

theorem arrLoop_close {Flt : Type} (parseNum : List Nat → Option Flt)
    {buf : List Nat} {pos p : Nat} (k : Nat) (acc : ValueList Flt)
    (hraw : readTokenRaw parseNum buf pos = (.ok .rangle, p)) :
    readArrayLoop parseNum buf (k + 1) acc ⟨pos, none⟩ = (.ok acc, ⟨p, none⟩) := by
  have hp := peekToken_none parseNum hraw
  simp only [readArrayLoop, hp, readToken_cacheSome]

theorem objLoop_step {Flt : Type} (parseNum : List Nat → Option Flt)
    {buf : List Nat} {pos p : Nat} {t0 : Tok Flt} (k : Nat) (acc : MemberList Flt)
    (hraw : readTokenRaw parseNum buf pos = (.ok t0, p)) (hne : t0 ≠ .rbrace) :
    readObjectLoop parseNum buf (k + 1) acc ⟨pos, none⟩ =
      (match readToken parseNum buf ⟨p, some (.ok t0)⟩ with
       | (.ok (.str key), s2) =>
         (match readToken parseNum buf s2 with
          | (.ok .colon, s3) =>
            (match readValue parseNum buf k s3 with
             | (.ok v, s4) =>
               (match readToken parseNum buf s4 with
                | (.ok .comma, s5) => readObjectLoop parseNum buf k (hashInsert acc key v) s5
                | (.ok .rbrace, s5) => (.ok (hashInsert acc key v), s5)
                | (.ok t, s5) =>
                  (.error (.msg ("expected comma or \x7d, got " ++ tokName t)), s5)
                | (.error e, s5) => (.error e, s5))
             | (.error e, s4) => (.error e, s4))
          | (.ok t, s3) => (.error (.msg ("expected colon, got " ++ tokName t)), s3)
          | (.error e, s3) => (.error e, s3))
       | (.ok t, s2) => (.error (.msg ("expected string, got " ++ tokName t)), s2)
       | (.error e, s2) => (.error e, s2)) := by
  have hp := peekToken_none parseNum hraw
  cases t0 with
  | rbrace => exact absurd rfl hne
  | lbrace => simp only [readObjectLoop, hp]
  | langle => simp only [readObjectLoop, hp]
  | rangle => simp only [readObjectLoop, hp]
  | comma => simp only [readObjectLoop, hp]
  | colon => simp only [readObjectLoop, hp]
  | str s0 => simp only [readObjectLoop, hp]
  | number n0 => simp only [readObjectLoop, hp]
  | boolean b0 => simp only [readObjectLoop, hp]
  | null => simp only [readObjectLoop, hp]

theorem arrLoop_step {Flt : Type} (parseNum : List Nat → Option Flt)
    {buf : List Nat} {pos p : Nat} {t0 : Tok Flt} (k : Nat) (acc : ValueList Flt)
    (hraw : readTokenRaw parseNum buf pos = (.ok t0, p)) (hne : t0 ≠ .rangle) :
    readArrayLoop parseNum buf (k + 1) acc ⟨pos, none⟩ =
      (match readValue parseNum buf k ⟨p, some (.ok t0)⟩ with
       | (.ok v, s2) =>
         (match readToken parseNum buf s2 with
          | (.ok .comma, s3) => readArrayLoop parseNum buf k (vlSnoc acc v) s3
          | (.ok .rangle, s3) => (.ok (vlSnoc acc v), s3)
          | (.ok t, s3) => (.error (.msg ("expected comma or ], got " ++ tokName t)), s3)
          | (.error e, s3) => (.error e, s3))
       | (.error e, s2) => (.error e, s2)) := by
  have hp := peekToken_none parseNum hraw
  cases t0 with
  | rangle => exact absurd rfl hne
  | lbrace => simp only [readArrayLoop, hp]
  | langle => simp only [readArrayLoop, hp]
  | rbrace => simp only [readArrayLoop, hp]
  | comma => simp only [readArrayLoop, hp]
  | colon => simp only [readArrayLoop, hp]
  | str s0 => simp only [readArrayLoop, hp]
  | number n0 => simp only [readArrayLoop, hp]
  | boolean b0 => simp only [readArrayLoop, hp]
  | null => simp only [readArrayLoop, hp]

theorem readValue_ok_ge {Flt : Type} (parseNum : List Nat → Option Flt)
    {buf : List Nat} {f f2 : Nat} {s s' : PSt Flt} {v : Value Flt} (hle : f ≤ f2)
    (h : readValue parseNum buf f s = (.ok v, s')) :
    readValue parseNum buf f2 s = (.ok v, s') := by
  rw [readValue_stable_ge parseNum buf s hle (by rw [h]; simp)]
  exact h

theorem readObjectLoop_ok_ge {Flt : Type} (parseNum : List Nat → Option Flt)
    {buf : List Nat} {f f2 : Nat} {acc : MemberList Flt} {s s' : PSt Flt}
    {ms : MemberList Flt} (hle : f ≤ f2)
    (h : readObjectLoop parseNum buf f acc s = (.ok ms, s')) :
    readObjectLoop parseNum buf f2 acc s = (.ok ms, s') := by
  rw [readObjectLoop_stable_ge parseNum buf acc s hle (by rw [h]; simp)]
  exact h

theorem readArrayLoop_ok_ge {Flt : Type} (parseNum : List Nat → Option Flt)
    {buf : List Nat} {f f2 : Nat} {acc : ValueList Flt} {s s' : PSt Flt}
    {vs : ValueList Flt} (hle : f ≤ f2)
    (h : readArrayLoop parseNum buf f acc s = (.ok vs, s')) :
    readArrayLoop parseNum buf f2 acc s = (.ok vs, s') := by
  rw [readArrayLoop_stable_ge parseNum buf acc s hle (by rw [h]; simp)]
  exact h

theorem vlCat_snoc {Flt : Type} :
    ∀ (acc : ValueList Flt) (v : Value Flt) (tl : ValueList Flt),
      vlCat (vlSnoc acc v) tl = vlCat acc (.cons v tl)
  | .nil, v, tl => rfl
  | .cons x xs, v, tl => by
    show ValueList.cons x (vlCat (vlSnoc xs v) tl) = .cons x (vlCat xs (.cons v tl))
    rw [vlCat_snoc xs v tl]

theorem vlCat_nil {Flt : Type} : ∀ (acc : ValueList Flt), vlCat acc .nil = acc
  | .nil => rfl
  | .cons x xs => by
    show ValueList.cons x (vlCat xs .nil) = _
    rw [vlCat_nil xs]

theorem vlAppend_eq_cat {Flt : Type} :
    ∀ (xs acc : ValueList Flt), vlAppend acc xs = vlCat acc xs
  | .nil, acc => by
    show acc = vlCat acc .nil
    rw [vlCat_nil acc]
  | .cons v tl, acc => by
    show vlAppend (vlSnoc acc v) tl = _
    rw [vlAppend_eq_cat tl (vlSnoc acc v), vlCat_snoc]

theorem vlAppend_nil {Flt : Type} (xs : ValueList Flt) :
    vlAppend .nil xs = xs := by
  rw [vlAppend_eq_cat]
  rfl

theorem stringRepr_ascii {s t : List Char} (h : stringRepr s = some t) :
    ∀ x ∈ t, x.toNat < 128 := by
  rw [stringRepr] at h
  cases hb : strBody s with
  | none => rw [hb] at h; exact absurd h (by simp)
  | some body =>
    rw [hb] at h
    have ht : t = '"' :: (body ++ ['"']) := by simpa using h.symm
    subst ht
    intro x hx
    simp only [List.mem_cons, List.mem_append, List.not_mem_nil] at hx
    rcases hx with hx | hx | hx | hx
    · subst hx; decide
    · exact strBody_ascii hb x hx
    · subst hx; decide
    · cases hx

mutual
theorem to_json_ascii {Flt : Type} (parseNum : List Nat → Option Flt)
    (fltRepr : Flt → List Char) :
    ∀ (v : Value Flt), goodV parseNum fltRepr v →
      ∀ {t : List Char}, to_json fltRepr v = some t → ∀ c ∈ t, c.toNat < 128
  | .vstring s, hg, t, hj => stringRepr_ascii hj
  | .vnumber n, hg, t, hj => by
    have ht : t = fltRepr n := by simpa [to_json] using hj.symm
    subst ht
    intro c hc
    exact (hg.2.1 c hc).1
  | .vbool b, hg, t, hj => by
    cases b with
    | true =>
      have ht : t = "true".data := by simpa [to_json] using hj.symm
      subst ht
      decide
    | false =>
      have ht : t = "false".data := by simpa [to_json] using hj.symm
      subst ht
      decide
  | .vnull, hg, t, hj => by
    have ht : t = "null".data := by simpa [to_json] using hj.symm
    subst ht
    decide
  | .varray items, hg, t, hj => by
    rw [to_json] at hj
    cases hb : itemsJson fltRepr items with
    | none => rw [hb] at hj; exact absurd hj (by simp)
    | some body =>
      rw [hb] at hj
      have ht : t = '[' :: (body ++ [']']) := by simpa using hj.symm
      subst ht
      intro c hc
      simp only [List.mem_cons, List.mem_append, List.not_mem_nil] at hc
      rcases hc with hc | hc | hc | hc
      · subst hc; decide
      · exact itemsJson_ascii parseNum fltRepr items hg hb c hc
      · subst hc; decide
      · cases hc
  | .vobject ms, hg, t, hj => by
    rw [to_json] at hj
    cases hb : membersJson fltRepr ms with
    | none => rw [hb] at hj; exact absurd hj (by simp)
    | some body =>
      rw [hb] at hj
      have ht : t = '\x7b' :: (body ++ ['\x7d']) := by simpa using hj.symm
      subst ht
      intro c hc
      simp only [List.mem_cons, List.mem_append, List.not_mem_nil] at hc
      rcases hc with hc | hc | hc | hc
      · subst hc; decide
      · exact membersJson_ascii parseNum fltRepr ms hg hb c hc
      · subst hc; decide
      · cases hc

theorem itemsJson_ascii {Flt : Type} (parseNum : List Nat → Option Flt)
    (fltRepr : Flt → List Char) :
    ∀ (items : ValueList Flt), goodItems parseNum fltRepr items →
      ∀ {t : List Char}, itemsJson fltRepr items = some t → ∀ c ∈ t, c.toNat < 128
  | .nil, _, t, hj => by
    have ht : t = [] := by simpa [itemsJson] using hj.symm
    subst ht
    intro c hc
    cases hc
  | .cons v .nil, hg, t, hj =>
    to_json_ascii parseNum fltRepr v hg.1 hj
  | .cons v (.cons v2 tl), hg, t, hj => by
    rw [itemsJson_cons2] at hj
    cases ha : to_json fltRepr v with
    | none => rw [ha] at hj; exact absurd hj (by simp)
    | some a =>
      rw [ha] at hj
      cases hb : itemsJson fltRepr (.cons v2 tl) with
      | none => rw [hb] at hj; exact absurd hj (by simp)
      | some b =>
        rw [hb] at hj
        have ht : t = a ++ ',' :: ' ' :: b := by simpa using hj.symm
        subst ht
        intro c hc
        simp only [List.mem_append, List.mem_cons] at hc
        rcases hc with hc | hc | hc | hc
        · exact to_json_ascii parseNum fltRepr v hg.1 ha c hc
        · subst hc; decide
        · subst hc; decide
        · exact itemsJson_ascii parseNum fltRepr (.cons v2 tl) hg.2 hb c hc

theorem membersJson_ascii {Flt : Type} (parseNum : List Nat → Option Flt)
    (fltRepr : Flt → List Char) :
    ∀ (ms : MemberList Flt), goodMembers parseNum fltRepr ms →
      ∀ {t : List Char}, membersJson fltRepr ms = some t → ∀ c ∈ t, c.toNat < 128
  | .nil, _, t, hj => by
    have ht : t = [] := by simpa [membersJson] using hj.symm
    subst ht
    intro c hc
    cases hc
  | .cons k v .nil, hg, t, hj => by
    rw [membersJson] at hj
    cases hk : stringRepr k with
    | none => rw [hk] at hj; exact absurd hj (by simp)
    | some ks =>
      rw [hk] at hj
      cases hv : to_json fltRepr v with
      | none => rw [hv] at hj; exact absurd hj (by simp)
      | some vs =>
        rw [hv] at hj
        have ht : t = ks ++ ':' :: ' ' :: vs := by simpa using hj.symm
        subst ht
        intro c hc
        simp only [List.mem_append, List.mem_cons] at hc
        rcases hc with hc | hc | hc | hc
        · exact stringRepr_ascii hk c hc
        · subst hc; decide
        · subst hc; decide
        · exact to_json_ascii parseNum fltRepr v hg.2.1 hv c hc
  | .cons k v (.cons k2 v2 tl), hg, t, hj => by
    rw [membersJson_cons2] at hj
    cases hk : stringRepr k with
    | none => rw [hk] at hj; exact absurd hj (by simp)
    | some ks =>
      rw [hk] at hj
      cases hv : to_json fltRepr v with
      | none => rw [hv] at hj; exact absurd hj (by simp)
      | some vs =>
        rw [hv] at hj
        cases hb : membersJson fltRepr (.cons k2 v2 tl) with
        | none => rw [hb] at hj; exact absurd hj (by simp)
        | some b =>
          rw [hb] at hj
          have ht : t = ks ++ ':' :: ' ' :: (vs ++ ',' :: ' ' :: b) := by
            simpa using hj.symm
          subst ht
          intro c hc
          simp only [List.mem_append, List.mem_cons] at hc
          rcases hc with hc | hc | hc | hc | hc | hc | hc
          · exact stringRepr_ascii hk c hc
          · subst hc; decide
          · subst hc; decide
          · exact to_json_ascii parseNum fltRepr v hg.2.1 hv c hc
          · subst hc; decide
          · subst hc; decide
          · exact membersJson_ascii parseNum fltRepr (.cons k2 v2 tl) hg.2.2 hb c hc
end

/-! ## Round trip: parsing a rendered value -/

mutual
theorem encParseV {Flt : Type} (parseNum : List Nat → Option Flt)
    (fltRepr : Flt → List Char) :
    ∀ (v : Value Flt), goodV parseNum fltRepr v →
    ∀ (t : List Char), to_json fltRepr v = some t →
    ∀ (buf : List Nat) (pos : Nat) (ws rest : List Nat),
      (∀ x ∈ ws, isWsB x = true) →
      buf.drop pos = ws ++ t.map Char.toNat ++ rest →
      stopOk rest →
      (∃ t0 p0, readTokenRaw parseNum buf pos = (.ok t0, p0) ∧
        t0 ≠ .rbrace ∧ t0 ≠ .rangle ∧ t0 ≠ .comma ∧ t0 ≠ .colon) ∧
      ∃ F0, ∀ F, F0 ≤ F →
        readValue parseNum buf F ⟨pos, none⟩ =
          (.ok (canonV v), ⟨pos + ws.length + t.length, none⟩)
  | .vstring s, hg, t, hjson, buf, pos, ws, rest, hws, hdrop, hstop => by
    rw [to_json, stringRepr] at hjson
    cases hb : strBody s with
    | none => rw [hb] at hjson; exact absurd hjson (by simp)
    | some body =>
      rw [hb] at hjson
      have ht : t = '"' :: (body ++ ['"']) := by simpa using hjson.symm
      subst ht
      have hdrop2 : buf.drop pos = ws ++ 34 :: (body.map Char.toNat ++ 34 :: rest) := by
        simpa [List.map_append, List.append_assoc] using hdrop
      have hraw := readTokenRaw_strTok parseNum hg hb hws hdrop2
      refine ⟨⟨.str s, _, hraw, by simp, by simp, by simp, by simp⟩, 1, ?_⟩
      intro F hF
      obtain ⟨k, hFeq⟩ : ∃ k, F = k + 1 := ⟨F - 1, by omega⟩
      subst hFeq
      rw [readValue_str parseNum k hraw]
      simp only [canonV, Prod.mk.injEq, PSt.mk.injEq, List.length_cons, List.length_append, List.length_nil, and_true, true_and, List.length_map]
      try omega
  | .vnumber n, hg, t, hjson, buf, pos, ws, rest, hws, hdrop, hstop => by
    have ht : t = fltRepr n := by simpa [to_json] using hjson.symm
    subst ht
    obtain ⟨hne, hbytes, htok⟩ := hg
    cases hfr : fltRepr n with
    | nil => exact absurd hfr hne
    | cons c cs =>
      have hdrop2 : buf.drop pos = ws ++ (c.toNat :: cs.map Char.toNat) ++ rest := by
        rw [hfr] at hdrop
        simpa using hdrop
      have hbs : ∀ x ∈ c.toNat :: cs.map Char.toNat, (isWsB x || isDelimB x) = false := by
        intro x hx
        have hex : ∃ c2 ∈ fltRepr n, c2.toNat = x := by
          rw [hfr]
          rcases List.mem_cons.mp hx with h | h
          · exact ⟨c, by simp, h.symm⟩
          · obtain ⟨c2, hc2, he⟩ := List.mem_map.mp h
            exact ⟨c2, by simp [hc2], he⟩
        obtain ⟨c2, hc2, he⟩ := hex
        have hb := hbytes c2 hc2
        rw [← he, hb.2.1, hb.2.2.1]
        decide
      have h34 : c.toNat ≠ 34 := by
        have := hbytes c (by rw [hfr]; simp)
        exact this.2.2.2
      have hraw := readTokenRaw_term parseNum hdrop2 hws hbs h34 hstop
      have htok2 : termTok parseNum (c.toNat :: cs.map Char.toNat) = .ok (.number n) := by
        rw [hfr] at htok
        simpa using htok
      rw [htok2] at hraw
      refine ⟨⟨.number n, _, hraw, by simp, by simp, by simp, by simp⟩, 1, ?_⟩
      intro F hF
      obtain ⟨k, hFeq⟩ : ∃ k, F = k + 1 := ⟨F - 1, by omega⟩
      subst hFeq
      rw [readValue_number parseNum k hraw]
      simp only [canonV, Prod.mk.injEq, PSt.mk.injEq, hfr, List.length_map, List.length_cons, and_true, true_and, List.length_append, List.length_nil]
      try omega
  | .vbool b, hg, t, hjson, buf, pos, ws, rest, hws, hdrop, hstop => by
    cases b with
    | true =>
      have ht : t = "true".data := by simpa [to_json] using hjson.symm
      subst ht
      have hmap : ("true".data).map Char.toNat = 116 :: [114, 117, 101] := rfl
      have hdrop2 : buf.drop pos = ws ++ (116 :: [114, 117, 101]) ++ rest := by
        rw [hmap] at hdrop
        exact hdrop
      have hraw := readTokenRaw_term parseNum hdrop2 hws (by decide) (by decide) hstop
      have htok2 : termTok parseNum (116 :: [114, 117, 101]) = .ok (.boolean true) := rfl
      rw [htok2] at hraw
      refine ⟨⟨.boolean true, _, hraw, by simp, by simp, by simp, by simp⟩, 1, ?_⟩
      intro F hF
      obtain ⟨k, hFeq⟩ : ∃ k, F = k + 1 := ⟨F - 1, by omega⟩
      subst hFeq
      rw [readValue_boolean parseNum k hraw]
      simp only [canonV, Prod.mk.injEq, PSt.mk.injEq, and_true, true_and, List.length_cons, List.length_append, List.length_nil, List.length_map]
      try omega
    | false =>
      have ht : t = "false".data := by simpa [to_json] using hjson.symm
      subst ht
      have hmap : ("false".data).map Char.toNat = 102 :: [97, 108, 115, 101] := rfl
      have hdrop2 : buf.drop pos = ws ++ (102 :: [97, 108, 115, 101]) ++ rest := by
        rw [hmap] at hdrop
        exact hdrop
      have hraw := readTokenRaw_term parseNum hdrop2 hws (by decide) (by decide) hstop
      have htok2 : termTok parseNum (102 :: [97, 108, 115, 101]) =
        .ok (.boolean false) := rfl
      rw [htok2] at hraw
      refine ⟨⟨.boolean false, _, hraw, by simp, by simp, by simp, by simp⟩, 1, ?_⟩
      intro F hF
      obtain ⟨k, hFeq⟩ : ∃ k, F = k + 1 := ⟨F - 1, by omega⟩
      subst hFeq
      rw [readValue_boolean parseNum k hraw]
      simp only [canonV, Prod.mk.injEq, PSt.mk.injEq, and_true, true_and, List.length_cons, List.length_append, List.length_nil, List.length_map]
      try omega
  | .vnull, hg, t, hjson, buf, pos, ws, rest, hws, hdrop, hstop => by
    have ht : t = "null".data := by simpa [to_json] using hjson.symm
    subst ht
    have hmap : ("null".data).map Char.toNat = 110 :: [117, 108, 108] := rfl
    have hdrop2 : buf.drop pos = ws ++ (110 :: [117, 108, 108]) ++ rest := by
      rw [hmap] at hdrop
      exact hdrop
    have hraw := readTokenRaw_term parseNum hdrop2 hws (by decide) (by decide) hstop
    have htok2 : termTok parseNum (110 :: [117, 108, 108]) = .ok .null := rfl
    rw [htok2] at hraw
    refine ⟨⟨.null, _, hraw, by simp, by simp, by simp, by simp⟩, 1, ?_⟩
    intro F hF
    obtain ⟨k, hFeq⟩ : ∃ k, F = k + 1 := ⟨F - 1, by omega⟩
    subst hFeq
    rw [readValue_null parseNum k hraw]
    simp only [canonV, Prod.mk.injEq, PSt.mk.injEq, and_true, true_and, List.length_cons, List.length_append, List.length_nil, List.length_map]
    try omega
  | .varray items, hg, t, hjson, buf, pos, ws, rest, hws, hdrop, hstop => by
    rw [to_json] at hjson
    cases hb : itemsJson fltRepr items with
    | none => rw [hb] at hjson; exact absurd hjson (by simp)
    | some body =>
      rw [hb] at hjson
      have ht : t = '[' :: (body ++ [']']) := by simpa using hjson.symm
      subst ht
      have hdrop2 : buf.drop pos = ws ++ 91 :: (body.map Char.toNat ++ 93 :: rest) := by
        simpa [List.map_append, List.append_assoc] using hdrop
      have hraw0 := readTokenRaw_delim parseNum hdrop2 hws (by decide)
      have ht91 : (tokOfDelim 91 : Tok Flt) = .langle := rfl
      rw [ht91] at hraw0
      have hdropA : buf.drop (pos + ws.length + 1) =
          ([] : List Nat) ++ body.map Char.toNat ++ 93 :: rest := by
        have h1 := drop_add_of_drop ws hdrop2
        have h2 := drop_succ_of_drop_cons h1
        simpa [Nat.add_assoc] using h2
      obtain ⟨F1, hF1⟩ := encParseArr parseNum fltRepr items hg body hb buf
        (pos + ws.length + 1) [] rest .nil (by intro x hx; cases hx) hdropA
      refine ⟨⟨.langle, _, hraw0, by simp, by simp, by simp, by simp⟩, F1 + 1, ?_⟩
      intro F hF
      obtain ⟨k, hFeq, hk⟩ : ∃ k, F = k + 1 ∧ F1 ≤ k := ⟨F - 1, by omega, by omega⟩
      subst hFeq
      rw [readValue_langle parseNum k hraw0, hF1 k hk]
      dsimp only
      rw [vlAppend_nil]
      simp only [canonV, Prod.mk.injEq, PSt.mk.injEq, List.length_cons, List.length_append, List.length_nil, and_true, true_and, List.length_map]
      try omega
  | .vobject ms, hg, t, hjson, buf, pos, ws, rest, hws, hdrop, hstop => by
    rw [to_json] at hjson
    cases hb : membersJson fltRepr ms with
    | none => rw [hb] at hjson; exact absurd hjson (by simp)
    | some body =>
      rw [hb] at hjson
      have ht : t = '\x7b' :: (body ++ ['\x7d']) := by simpa using hjson.symm
      subst ht
      have hdrop2 : buf.drop pos = ws ++ 123 :: (body.map Char.toNat ++ 125 :: rest) := by
        simpa [List.map_append, List.append_assoc] using hdrop
      have hraw0 := readTokenRaw_delim parseNum hdrop2 hws (by decide)
      have ht123 : (tokOfDelim 123 : Tok Flt) = .lbrace := rfl
      rw [ht123] at hraw0
      have hdropO : buf.drop (pos + ws.length + 1) =
          ([] : List Nat) ++ body.map Char.toNat ++ 125 :: rest := by
        have h1 := drop_add_of_drop ws hdrop2
        have h2 := drop_succ_of_drop_cons h1
        simpa [Nat.add_assoc] using h2
      obtain ⟨F1, hF1⟩ := encParseObj parseNum fltRepr ms hg body hb buf
        (pos + ws.length + 1) [] rest .nil (by intro x hx; cases hx) hdropO
      refine ⟨⟨.lbrace, _, hraw0, by simp, by simp, by simp, by simp⟩, F1 + 1, ?_⟩
      intro F hF
      obtain ⟨k, hFeq, hk⟩ : ∃ k, F = k + 1 ∧ F1 ≤ k := ⟨F - 1, by omega, by omega⟩
      subst hFeq
      rw [readValue_lbrace parseNum k hraw0, hF1 k hk]
      dsimp only
      simp only [canonV, Prod.mk.injEq, PSt.mk.injEq, List.length_cons, List.length_append, List.length_nil, and_true, true_and, List.length_map]
      try omega

theorem encParseArr {Flt : Type} (parseNum : List Nat → Option Flt)
    (fltRepr : Flt → List Char) :
    ∀ (items : ValueList Flt), goodItems parseNum fltRepr items →
    ∀ (body : List Char), itemsJson fltRepr items = some body →
    ∀ (buf : List Nat) (pos : Nat) (ws rest : List Nat) (acc : ValueList Flt),
      (∀ x ∈ ws, isWsB x = true) →
      buf.drop pos = ws ++ body.map Char.toNat ++ 93 :: rest →
      ∃ F0, ∀ F, F0 ≤ F →
        readArrayLoop parseNum buf F acc ⟨pos, none⟩ =
          (.ok (vlAppend acc (canonItems items)),
            ⟨pos + ws.length + body.length + 1, none⟩)
  | .nil, hg, body, hjson, buf, pos, ws, rest, acc, hws, hdrop => by
    have hbody : body = [] := by simpa [itemsJson] using hjson.symm
    subst hbody
    have hdrop2 : buf.drop pos = ws ++ 93 :: rest := by simpa using hdrop
    have hraw := readTokenRaw_delim parseNum hdrop2 hws (by decide)
    have ht93 : (tokOfDelim 93 : Tok Flt) = .rangle := rfl
    rw [ht93] at hraw
    refine ⟨1, ?_⟩
    intro F hF
    obtain ⟨k, hFeq⟩ : ∃ k, F = k + 1 := ⟨F - 1, by omega⟩
    subst hFeq
    rw [arrLoop_close parseNum k acc hraw]
    simp only [canonItems, vlAppend, Prod.mk.injEq, PSt.mk.injEq, List.length_nil, and_true, true_and, List.length_cons, List.length_append, List.length_map]
    try omega
  | .cons v .nil, hg, body, hjson, buf, pos, ws, rest, acc, hws, hdrop => by
    obtain ⟨hgv, -⟩ := hg
    rw [itemsJson] at hjson
    obtain ⟨⟨t0, p0, hraw0, hne1, hne2, hne3, hne4⟩, Fv, hFv⟩ :=
      encParseV parseNum fltRepr v hgv body hjson buf pos ws (93 :: rest) hws
        hdrop (by intro b hb; simp at hb; subst hb; decide)
    refine ⟨max Fv 1 + 1, ?_⟩
    intro F hF
    obtain ⟨k2, hFeq, hk⟩ : ∃ k2, F = k2 + 1 + 1 ∧ Fv ≤ k2 + 1 :=
      ⟨F - 2, by omega, by omega⟩
    subst hFeq
    rw [arrLoop_step parseNum (k2 + 1) acc hraw0 hne2,
      readValue_cache_eq parseNum hraw0 k2, hFv (k2 + 1) hk]
    dsimp only
    have hd93 : buf.drop (pos + ws.length + body.length) = 93 :: rest := by
      have h0 : buf.drop pos = ws ++ (body.map Char.toNat ++ 93 :: rest) := by
        simpa [List.append_assoc] using hdrop
      have h1 := drop_add_of_drop ws h0
      have h2 := drop_add_of_drop (body.map Char.toNat) h1
      have h3 : pos + ws.length + (body.map Char.toNat).length =
          pos + ws.length + body.length := by
        simp [List.length_map]
      rw [h3] at h2
      exact h2
    have hrawA : readTokenRaw parseNum buf (pos + ws.length + body.length) =
        (.ok .rangle, pos + ws.length + body.length + 1) := by
      have h := readTokenRaw_delim0 parseNum hd93 (by decide)
      have ht93 : (tokOfDelim 93 : Tok Flt) = .rangle := rfl
      rw [ht93] at h
      simpa using h
    rw [readToken_cacheNone, hrawA]
    dsimp only
    simp only [canonItems, vlAppend, Prod.mk.injEq, PSt.mk.injEq, and_true, true_and, List.length_cons, List.length_append, List.length_nil, List.length_map]
    try omega
  | .cons v (.cons v2 tl2), hg, body, hjson, buf, pos, ws, rest, acc, hws, hdrop => by
    obtain ⟨hgv, hgtl⟩ := hg
    rw [itemsJson_cons2] at hjson
    cases ha : to_json fltRepr v with
    | none => rw [ha] at hjson; exact absurd hjson (by simp)
    | some a =>
      rw [ha] at hjson
      cases hb2 : itemsJson fltRepr (.cons v2 tl2) with
      | none => rw [hb2] at hjson; exact absurd hjson (by simp)
      | some b2 =>
        rw [hb2] at hjson
        have hbody : body = a ++ ',' :: ' ' :: b2 := by simpa using hjson.symm
        subst hbody
        have hdropV : buf.drop pos =
            ws ++ a.map Char.toNat ++ (44 :: 32 :: (b2.map Char.toNat ++ 93 :: rest)) := by
          simpa [List.map_append, List.append_assoc] using hdrop
        obtain ⟨⟨t0, p0, hraw0, hne1, hne2, hne3, hne4⟩, Fv, hFv⟩ :=
          encParseV parseNum fltRepr v hgv a ha buf pos ws
            (44 :: 32 :: (b2.map Char.toNat ++ 93 :: rest)) hws hdropV
            (by intro b hb; simp at hb; subst hb; decide)
        have h0V : buf.drop pos =
            ws ++ (a.map Char.toNat ++ 44 :: 32 :: (b2.map Char.toNat ++ 93 :: rest)) := by
          simpa [List.append_assoc] using hdropV
        have hdropT : buf.drop (pos + ws.length + a.length + 1) =
            [32] ++ b2.map Char.toNat ++ 93 :: rest := by
          have h1 := drop_add_of_drop ws h0V
          have h2 := drop_add_of_drop (a.map Char.toNat) h1
          have h3 := drop_succ_of_drop_cons h2
          have h4 : pos + ws.length + (a.map Char.toNat).length + 1 =
              pos + ws.length + a.length + 1 := by
            simp [List.length_map]
          rw [h4] at h3
          simpa using h3
        obtain ⟨F2, hF2⟩ := encParseArr parseNum fltRepr (.cons v2 tl2) hgtl b2 hb2
          buf (pos + ws.length + a.length + 1) [32] rest
          (vlSnoc acc (canonV v)) (by intro x hx; simp at hx; subst hx; decide) hdropT
        refine ⟨max (max Fv F2) 1 + 1, ?_⟩
        intro F hF
        obtain ⟨k2, hFeq, hkv, hk2⟩ :
            ∃ k2, F = k2 + 1 + 1 ∧ Fv ≤ k2 + 1 ∧ F2 ≤ k2 + 1 :=
          ⟨F - 2, by omega, by omega, by omega⟩
        subst hFeq
        rw [arrLoop_step parseNum (k2 + 1) acc hraw0 hne2,
          readValue_cache_eq parseNum hraw0 k2, hFv (k2 + 1) hkv]
        dsimp only
        have hd44 : buf.drop (pos + ws.length + a.length) =
            44 :: (32 :: (b2.map Char.toNat ++ 93 :: rest)) := by
          have h1 := drop_add_of_drop ws h0V
          have h2 := drop_add_of_drop (a.map Char.toNat) h1
          have h3 : pos + ws.length + (a.map Char.toNat).length =
              pos + ws.length + a.length := by
            simp [List.length_map]
          rw [h3] at h2
          exact h2
        have hrawC : readTokenRaw parseNum buf (pos + ws.length + a.length) =
            (.ok .comma, pos + ws.length + a.length + 1) := by
          have h := readTokenRaw_delim0 parseNum hd44 (by decide)
          have ht44 : (tokOfDelim 44 : Tok Flt) = .comma := rfl
          rw [ht44] at h
          simpa using h
        rw [readToken_cacheNone, hrawC]
        dsimp only
        rw [hF2 (k2 + 1) hk2]
        simp only [canonItems, vlAppend, Prod.mk.injEq, PSt.mk.injEq, List.length_append, List.length_cons, and_true, true_and, List.length_nil, List.length_map]
        try omega

theorem encParseObj {Flt : Type} (parseNum : List Nat → Option Flt)
    (fltRepr : Flt → List Char) :
    ∀ (ms : MemberList Flt), goodMembers parseNum fltRepr ms →
    ∀ (body : List Char), membersJson fltRepr ms = some body →
    ∀ (buf : List Nat) (pos : Nat) (ws rest : List Nat) (acc : MemberList Flt),
      (∀ x ∈ ws, isWsB x = true) →
      buf.drop pos = ws ++ body.map Char.toNat ++ 125 :: rest →
      ∃ F0, ∀ F, F0 ≤ F →
        readObjectLoop parseNum buf F acc ⟨pos, none⟩ =
          (.ok (foldIns acc (canonMembers ms)),
            ⟨pos + ws.length + body.length + 1, none⟩)
  | .nil, hg, body, hjson, buf, pos, ws, rest, acc, hws, hdrop => by
    have hbody : body = [] := by simpa [membersJson] using hjson.symm
    subst hbody
    have hdrop2 : buf.drop pos = ws ++ 125 :: rest := by simpa using hdrop
    have hraw := readTokenRaw_delim parseNum hdrop2 hws (by decide)
    have ht125 : (tokOfDelim 125 : Tok Flt) = .rbrace := rfl
    rw [ht125] at hraw
    refine ⟨1, ?_⟩
    intro F hF
    obtain ⟨k, hFeq⟩ : ∃ k, F = k + 1 := ⟨F - 1, by omega⟩
    subst hFeq
    rw [objLoop_close parseNum k acc hraw]
    simp only [canonMembers, foldIns, Prod.mk.injEq, PSt.mk.injEq, List.length_nil, and_true, true_and, List.length_cons, List.length_append, List.length_map]
    try omega
  | .cons kk v .nil, hg, body, hjson, buf, pos, ws, rest, acc, hws, hdrop => by
    obtain ⟨hgk, hgv, -⟩ := hg
    rw [membersJson] at hjson
    cases hks : stringRepr kk with
    | none => rw [hks] at hjson; exact absurd hjson (by simp)
    | some ks =>
      rw [hks] at hjson
      cases htv : to_json fltRepr v with
      | none => rw [htv] at hjson; exact absurd hjson (by simp)
      | some tv =>
        rw [htv] at hjson
        have hbody : body = ks ++ ':' :: ' ' :: tv := by simpa using hjson.symm
        subst hbody
        rw [stringRepr] at hks
        cases hbk : strBody kk with
        | none => rw [hbk] at hks; exact absurd hks (by simp)
        | some bk =>
          rw [hbk] at hks
          have hksv : ks = '"' :: (bk ++ ['"']) := by simpa using hks.symm
          subst hksv
          have hdropK : buf.drop pos = ws ++ 34 ::
              (bk.map Char.toNat ++ 34 ::
                (58 :: 32 :: (tv.map Char.toNat ++ 125 :: rest))) := by
            simpa [List.map_append, List.append_assoc] using hdrop
          have hraw0 := readTokenRaw_strTok parseNum hgk hbk hws hdropK
          have hdColon : buf.drop (pos + ws.length + (bk.length + 2)) =
              58 :: (32 :: (tv.map Char.toNat ++ 125 :: rest)) := by
            have h1 := drop_add_of_drop ws hdropK
            have h2 := drop_succ_of_drop_cons h1
            have h3 := drop_add_of_drop (bk.map Char.toNat) h2
            have h4 := drop_succ_of_drop_cons h3
            have h5 : pos + ws.length + 1 + (bk.map Char.toNat).length + 1 =
                pos + ws.length + (bk.length + 2) := by
              simp [List.length_map]
              omega
            rw [h5] at h4
            exact h4
          have hrawColon : readTokenRaw parseNum buf
              (pos + ws.length + (bk.length + 2)) =
              (.ok .colon, pos + ws.length + (bk.length + 2) + 1) := by
            have h := readTokenRaw_delim0 parseNum hdColon (by decide)
            have ht58 : (tokOfDelim 58 : Tok Flt) = .colon := rfl
            rw [ht58] at h
            simpa using h
          have hdropV : buf.drop (pos + ws.length + (bk.length + 2) + 1) =
              [32] ++ tv.map Char.toNat ++ 125 :: rest := by
            have h1 := drop_succ_of_drop_cons hdColon
            simpa using h1
          obtain ⟨⟨_, _, _, _⟩, Fv, hFv⟩ :=
            encParseV parseNum fltRepr v hgv tv htv buf
              (pos + ws.length + (bk.length + 2) + 1) [32] (125 :: rest)
              (by intro x hx; simp at hx; subst hx; decide) hdropV
              (by intro b hb; simp at hb; subst hb; decide)
          have hdRBrace : buf.drop
              (pos + ws.length + (bk.length + 2) + 1 + 1 + tv.length) =
              125 :: rest := by
            have h1 := drop_succ_of_drop_cons hdColon
            have h2 := drop_succ_of_drop_cons h1
            have h3 := drop_add_of_drop (tv.map Char.toNat) h2
            have h4 : pos + ws.length + (bk.length + 2) + 1 + 1 +
                (tv.map Char.toNat).length =
                pos + ws.length + (bk.length + 2) + 1 + 1 + tv.length := by
              simp [List.length_map]
            rw [h4] at h3
            exact h3
          have hrawB : readTokenRaw parseNum buf
              (pos + ws.length + (bk.length + 2) + 1 + 1 + tv.length) =
              (.ok .rbrace,
                pos + ws.length + (bk.length + 2) + 1 + 1 + tv.length + 1) := by
            have h := readTokenRaw_delim0 parseNum hdRBrace (by decide)
            have ht125 : (tokOfDelim 125 : Tok Flt) = .rbrace := rfl
            rw [ht125] at h
            simpa using h
          refine ⟨max Fv 1 + 1, ?_⟩
          intro F hF
          obtain ⟨k, hFeq, hkv⟩ : ∃ k, F = k + 1 ∧ Fv ≤ k ∧ 1 ≤ k :=
            ⟨F - 1, by omega, by omega, by omega⟩
          subst hFeq
          rw [objLoop_step parseNum k acc hraw0 (by simp),
            readToken_cacheSome]
          dsimp only
          rw [readToken_cacheNone, hrawColon]
          dsimp only
          rw [hFv k hkv.1]
          dsimp only
          have hps : pos + ws.length + (bk.length + 2) + 1 +
              List.length [32] + tv.length =
              pos + ws.length + (bk.length + 2) + 1 + 1 + tv.length := by
            simp
          rw [hps, readToken_cacheNone, hrawB]
          dsimp only
          simp only [canonMembers, foldIns, Prod.mk.injEq, PSt.mk.injEq, List.length_append, List.length_cons, and_true, true_and, List.length_nil, List.length_map]
          try omega
  | .cons kk v (.cons k2 v2 tl2), hg, body, hjson, buf, pos, ws, rest, acc,
      hws, hdrop => by
    obtain ⟨hgk, hgv, hgtl⟩ := hg
    rw [membersJson_cons2] at hjson
    cases hks : stringRepr kk with
    | none => rw [hks] at hjson; exact absurd hjson (by simp)
    | some ks =>
      rw [hks] at hjson
      cases htv : to_json fltRepr v with
      | none => rw [htv] at hjson; exact absurd hjson (by simp)
      | some tv =>
        rw [htv] at hjson
        cases hb2 : membersJson fltRepr (.cons k2 v2 tl2) with
        | none => rw [hb2] at hjson; exact absurd hjson (by simp)
        | some b2 =>
          rw [hb2] at hjson
          have hbody : body = ks ++ ':' :: ' ' :: (tv ++ ',' :: ' ' :: b2) := by
            simpa using hjson.symm
          subst hbody
          rw [stringRepr] at hks
          cases hbk : strBody kk with
          | none => rw [hbk] at hks; exact absurd hks (by simp)
          | some bk =>
            rw [hbk] at hks
            have hksv : ks = '"' :: (bk ++ ['"']) := by simpa using hks.symm
            subst hksv
            have hdropK : buf.drop pos = ws ++ 34 ::
                (bk.map Char.toNat ++ 34 ::
                  (58 :: 32 :: (tv.map Char.toNat ++ 44 :: 32 ::
                    (b2.map Char.toNat ++ 125 :: rest)))) := by
              simpa [List.map_append, List.append_assoc] using hdrop
            have hraw0 := readTokenRaw_strTok parseNum hgk hbk hws hdropK
            have hdColon : buf.drop (pos + ws.length + (bk.length + 2)) =
                58 :: (32 :: (tv.map Char.toNat ++ 44 :: 32 ::
                  (b2.map Char.toNat ++ 125 :: rest))) := by
              have h1 := drop_add_of_drop ws hdropK
              have h2 := drop_succ_of_drop_cons h1
              have h3 := drop_add_of_drop (bk.map Char.toNat) h2
              have h4 := drop_succ_of_drop_cons h3
              have h5 : pos + ws.length + 1 + (bk.map Char.toNat).length + 1 =
                  pos + ws.length + (bk.length + 2) := by
                simp [List.length_map]
                omega
              rw [h5] at h4
              exact h4
            have hrawColon : readTokenRaw parseNum buf
                (pos + ws.length + (bk.length + 2)) =
                (.ok .colon, pos + ws.length + (bk.length + 2) + 1) := by
              have h := readTokenRaw_delim0 parseNum hdColon (by decide)
              have ht58 : (tokOfDelim 58 : Tok Flt) = .colon := rfl
              rw [ht58] at h
              simpa using h
            have hdropV : buf.drop (pos + ws.length + (bk.length + 2) + 1) =
                [32] ++ tv.map Char.toNat ++ 44 :: 32 ::
                  (b2.map Char.toNat ++ 125 :: rest) := by
              have h1 := drop_succ_of_drop_cons hdColon
              simpa using h1
            obtain ⟨⟨_, _, _, _⟩, Fv, hFv⟩ :=
              encParseV parseNum fltRepr v hgv tv htv buf
                (pos + ws.length + (bk.length + 2) + 1) [32]
                (44 :: 32 :: (b2.map Char.toNat ++ 125 :: rest))
                (by intro x hx; simp at hx; subst hx; decide) hdropV
                (by intro b hb; simp at hb; subst hb; decide)
            have hdComma : buf.drop
                (pos + ws.length + (bk.length + 2) + 1 + 1 + tv.length) =
                44 :: (32 :: (b2.map Char.toNat ++ 125 :: rest)) := by
              have h1 := drop_succ_of_drop_cons hdColon
              have h2 := drop_succ_of_drop_cons h1
              have h3 := drop_add_of_drop (tv.map Char.toNat) h2
              have h4 : pos + ws.length + (bk.length + 2) + 1 + 1 +
                  (tv.map Char.toNat).length =
                  pos + ws.length + (bk.length + 2) + 1 + 1 + tv.length := by
                simp [List.length_map]
              rw [h4] at h3
              exact h3
            have hrawC : readTokenRaw parseNum buf
                (pos + ws.length + (bk.length + 2) + 1 + 1 + tv.length) =
                (.ok .comma,
                  pos + ws.length + (bk.length + 2) + 1 + 1 + tv.length + 1) := by
              have h := readTokenRaw_delim0 parseNum hdComma (by decide)
              have ht44 : (tokOfDelim 44 : Tok Flt) = .comma := rfl
              rw [ht44] at h
              simpa using h
            have hdropT : buf.drop
                (pos + ws.length + (bk.length + 2) + 1 + 1 + tv.length + 1) =
                [32] ++ b2.map Char.toNat ++ 125 :: rest := by
              have h1 := drop_succ_of_drop_cons hdComma
              simpa using h1
            obtain ⟨F2, hF2⟩ := encParseObj parseNum fltRepr (.cons k2 v2 tl2)
              hgtl b2 hb2 buf
              (pos + ws.length + (bk.length + 2) + 1 + 1 + tv.length + 1) [32]
              rest (hashInsert acc kk (canonV v))
              (by intro x hx; simp at hx; subst hx; decide) hdropT
            refine ⟨max (max Fv F2) 1 + 1, ?_⟩
            intro F hF
            obtain ⟨k, hFeq, hkv, hk2⟩ : ∃ k, F = k + 1 ∧ Fv ≤ k ∧ F2 ≤ k :=
              ⟨F - 1, by omega, by omega, by omega⟩
            subst hFeq
            rw [objLoop_step parseNum k acc hraw0 (by simp),
              readToken_cacheSome]
            dsimp only
            rw [readToken_cacheNone, hrawColon]
            dsimp only
            rw [hFv k hkv]
            dsimp only
            have hps : pos + ws.length + (bk.length + 2) + 1 +
                List.length [32] + tv.length =
                pos + ws.length + (bk.length + 2) + 1 + 1 + tv.length := by
              simp
            rw [hps, readToken_cacheNone, hrawC]
            dsimp only
            rw [hF2 k hk2]
            simp only [canonMembers, foldIns, Prod.mk.injEq, PSt.mk.injEq, List.length_append, List.length_cons, and_true, true_and, List.length_nil, List.length_map]
            try omega
end

/-! ## hashInsert folding: key order and the last occurrence -/

theorem mlCat_nil {Flt : Type} : ∀ (a : MemberList Flt), mlCat a .nil = a
  | .nil => rfl
  | .cons k v tl => by
    show MemberList.cons k v (mlCat tl .nil) = _
    rw [mlCat_nil tl]

theorem memKeys_mlCat {Flt : Type} :
    ∀ (a b : MemberList Flt), memKeys (mlCat a b) = memKeys a ++ memKeys b
  | .nil, b => rfl
  | .cons k v tl, b => by
    show (memKeys (.cons k v (mlCat tl b)) : List (List Char)) = _
    rw [memKeys, memKeys_mlCat tl b]
    rfl

theorem hashInsert_fresh {Flt : Type} :
    ∀ (acc : MemberList Flt) (k : List Char) (v : Value Flt),
      k ∉ memKeys acc → hashInsert acc k v = mlCat acc (.cons k v .nil)
  | .nil, k, v, _ => rfl
  | .cons k0 v0 tl, k, v, h => by
    have hk0 : k0 ≠ k := by
      intro he
      exact h (by rw [memKeys, he]; simp)
    rw [hashInsert, if_neg hk0,
      hashInsert_fresh tl k v (by intro he; exact h (by rw [memKeys]; simp [he]))]
    rfl

theorem mlCat_snocAssoc {Flt : Type} :
    ∀ (a : MemberList Flt) (k : List Char) (v : Value Flt) (b : MemberList Flt),
      mlCat (mlCat a (.cons k v .nil)) b = mlCat a (.cons k v b)
  | .nil, k, v, b => rfl
  | .cons k0 v0 tl0, k, v, b => by
    show MemberList.cons k0 v0 (mlCat (mlCat tl0 (.cons k v .nil)) b) =
      .cons k0 v0 (mlCat tl0 (.cons k v b))
    rw [mlCat_snocAssoc tl0 k v b]

theorem foldIns_fresh {Flt : Type} :
    ∀ (tl acc : MemberList Flt),
      (∀ k ∈ memKeys tl, k ∉ memKeys acc) → (memKeys tl).Nodup →
      foldIns acc tl = mlCat acc tl
  | .nil, acc, _, _ => by
    show acc = mlCat acc .nil
    rw [mlCat_nil acc]
  | .cons k v tl, acc, hdisj, hnd => by
    rw [memKeys, List.nodup_cons] at hnd
    have hk : k ∉ memKeys acc := hdisj k (by rw [memKeys]; simp)
    rw [foldIns, hashInsert_fresh acc k v hk,
      foldIns_fresh tl (mlCat acc (.cons k v .nil)) (by
        intro k2 hk2
        rw [memKeys_mlCat]
        intro hmem
        rcases List.mem_append.mp hmem with h | h
        · exact hdisj k2 (by rw [memKeys]; simp [hk2]) h
        · have : k2 = k := by simpa [memKeys] using h
          subst this
          exact hnd.1 hk2) hnd.2]
    rw [mlCat_snocAssoc]

theorem foldIns_nil_nodup {Flt : Type} (tl : MemberList Flt)
    (hnd : (memKeys tl).Nodup) : foldIns .nil tl = tl := by
  rw [foldIns_fresh tl .nil (by intro k _ h; simp [memKeys] at h) hnd]
  rfl

theorem memKeys_canon {Flt : Type} :
    ∀ (ms : MemberList Flt), memKeys (canonMembers ms) = memKeys ms
  | .nil => rfl
  | .cons k v tl => by
    show (memKeys (.cons k (canonV v) (canonMembers tl)) : List (List Char)) = _
    rw [memKeys, memKeys_canon tl]
    rfl

mutual
theorem canonV_id {Flt : Type} :
    ∀ (v : Value Flt), keysNodupV v → canonV v = v
  | .vstring s, _ => rfl
  | .vnumber n, _ => rfl
  | .vbool b, _ => rfl
  | .vnull, _ => rfl
  | .varray items, h => by
    rw [canonV, canonItems_id items h]
  | .vobject ms, h => by
    rw [canonV, canonMembers_id ms h.2, foldIns_nil_nodup ms h.1]

theorem canonItems_id {Flt : Type} :
    ∀ (items : ValueList Flt), keysNodupItems items → canonItems items = items
  | .nil, _ => rfl
  | .cons v tl, h => by
    rw [canonItems, canonV_id v h.1, canonItems_id tl h.2]

theorem canonMembers_id {Flt : Type} :
    ∀ (ms : MemberList Flt), keysNodupMembers ms → canonMembers ms = ms
  | .nil, _ => rfl
  | .cons k v tl, h => by
    rw [canonMembers, canonV_id v h.1, canonMembers_id tl h.2]
end

theorem memLookup_hashInsert {Flt : Type} :
    ∀ (acc : MemberList Flt) (k0 : List Char) (v0 : Value Flt) (k : List Char),
      memLookup (hashInsert acc k0 v0) k =
        if k0 = k then some v0 else memLookup acc k
  | .nil, k0, v0, k => rfl
  | .cons k1 v1 tl, k0, v0, k => by
    by_cases h1 : k1 = k0
    · rw [hashInsert, if_pos h1]
      by_cases h2 : k0 = k
      · rw [memLookup, if_pos (h1.trans h2), if_pos h2]
      · rw [memLookup, if_neg (fun he => h2 (h1 ▸ he)), if_neg h2, memLookup,
          if_neg (fun he => h2 (h1 ▸ he))]
    · rw [hashInsert, if_neg h1]
      by_cases h2 : k1 = k
      · rw [memLookup, if_pos h2, memLookup, if_pos h2]
        by_cases h3 : k0 = k
        · exact absurd (h3.trans h2.symm) (fun he => h1 he.symm)
        · rw [if_neg h3]
      · rw [memLookup, if_neg h2, memLookup_hashInsert tl k0 v0 k, memLookup,
          if_neg h2]

theorem foldIns_lookup {Flt : Type} :
    ∀ (tl acc : MemberList Flt) (k : List Char),
      memLookup (foldIns acc tl) k =
        match lastVal tl k with
        | some w => some w
        | none => memLookup acc k
  | .nil, acc, k => rfl
  | .cons k0 v0 tl, acc, k => by
    rw [foldIns, foldIns_lookup tl (hashInsert acc k0 v0) k, lastVal]
    cases hl : lastVal tl k with
    | some w => rfl
    | none =>
      dsimp only
      rw [memLookup_hashInsert]
      by_cases h : k0 = k
      · rw [if_pos h, if_pos h]
      · rw [if_neg h, if_neg h]

theorem memLookup_foldIns_last {Flt : Type} (ms : MemberList Flt) (k : List Char) :
    memLookup (foldIns .nil ms) k = lastVal ms k := by
  rw [foldIns_lookup ms .nil k]
  cases hl : lastVal ms k with
  | some w => rfl
  | none => rfl

/-! ## Round trip at the level of deserialize -/

theorem deserialize_enc {Flt : Type} (parseNum : List Nat → Option Flt)
    (fltRepr : Flt → List Char) (v : Value Flt)
    (hg : goodV parseNum fltRepr v) {t : List Char}
    (ht : serialize fltRepr v = some t) (extra : List Nat) (hstop : stopOk extra) :
    deserialize parseNum (utf8Encode t ++ extra) = .ok (canonV v) := by
  have hascii := to_json_ascii parseNum fltRepr v hg ht
  have hbytes : utf8Encode t = t.map Char.toNat := utf8Encode_ascii hascii
  have hdrop : (utf8Encode t ++ extra).drop 0 =
      ([] : List Nat) ++ t.map Char.toNat ++ extra := by
    rw [hbytes]
    simp
  obtain ⟨-, F0, hF0⟩ := encParseV parseNum fltRepr v hg t ht
    (utf8Encode t ++ extra) 0 [] extra (by intro x hx; cases hx) hdrop hstop
  exact deserialize_of_run parseNum (hF0 F0 le_rfl)

/-- The run of `encParseV` without any stop condition on the following bytes,
for a value whose rendering ends in a closing quote, bracket or brace
(`selfDelim`): the string token and the two loop runs place no constraint on
the bytes after the closing byte, so the result is independent of `rest`. -/
theorem encParseV_sd {Flt : Type} (parseNum : List Nat → Option Flt)
    (fltRepr : Flt → List Char)
    (v : Value Flt) (hg : goodV parseNum fltRepr v) (hsd : selfDelim v = true)
    (t : List Char) (hjson : to_json fltRepr v = some t)
    (buf : List Nat) (pos : Nat) (ws rest : List Nat)
    (hws : ∀ x ∈ ws, isWsB x = true)
    (hdrop : buf.drop pos = ws ++ t.map Char.toNat ++ rest) :
    ∃ F0, ∀ F, F0 ≤ F →
      readValue parseNum buf F ⟨pos, none⟩ =
        (.ok (canonV v), ⟨pos + ws.length + t.length, none⟩) := by
  cases v with
  | vnumber n => exact absurd hsd (by simp [selfDelim])
  | vbool b => exact absurd hsd (by simp [selfDelim])
  | vnull => exact absurd hsd (by simp [selfDelim])
  | vstring s =>
    rw [to_json, stringRepr] at hjson
    cases hb : strBody s with
    | none => rw [hb] at hjson; exact absurd hjson (by simp)
    | some body =>
      rw [hb] at hjson
      have ht : t = '"' :: (body ++ ['"']) := by simpa using hjson.symm
      subst ht
      have hdrop2 : buf.drop pos = ws ++ 34 :: (body.map Char.toNat ++ 34 :: rest) := by
        simpa [List.map_append, List.append_assoc] using hdrop
      have hraw := readTokenRaw_strTok parseNum hg hb hws hdrop2
      refine ⟨1, ?_⟩
      intro F hF
      obtain ⟨k, hFeq⟩ : ∃ k, F = k + 1 := ⟨F - 1, by omega⟩
      subst hFeq
      rw [readValue_str parseNum k hraw]
      simp only [canonV, Prod.mk.injEq, PSt.mk.injEq, List.length_cons, List.length_append, List.length_nil, and_true, true_and, List.length_map]
      try omega
  | varray items =>
    rw [to_json] at hjson
    cases hb : itemsJson fltRepr items with
    | none => rw [hb] at hjson; exact absurd hjson (by simp)
    | some body =>
      rw [hb] at hjson
      have ht : t = '[' :: (body ++ [']']) := by simpa using hjson.symm
      subst ht
      have hdrop2 : buf.drop pos = ws ++ 91 :: (body.map Char.toNat ++ 93 :: rest) := by
        simpa [List.map_append, List.append_assoc] using hdrop
      have hraw0 := readTokenRaw_delim parseNum hdrop2 hws (by decide)
      have ht91 : (tokOfDelim 91 : Tok Flt) = .langle := rfl
      rw [ht91] at hraw0
      have hdropA : buf.drop (pos + ws.length + 1) =
          ([] : List Nat) ++ body.map Char.toNat ++ 93 :: rest := by
        have h1 := drop_add_of_drop ws hdrop2
        have h2 := drop_succ_of_drop_cons h1
        simpa [Nat.add_assoc] using h2
      obtain ⟨F1, hF1⟩ := encParseArr parseNum fltRepr items hg body hb buf
        (pos + ws.length + 1) [] rest .nil (by intro x hx; cases hx) hdropA
      refine ⟨F1 + 1, ?_⟩
      intro F hF
      obtain ⟨k, hFeq, hk⟩ : ∃ k, F = k + 1 ∧ F1 ≤ k := ⟨F - 1, by omega, by omega⟩
      subst hFeq
      rw [readValue_langle parseNum k hraw0, hF1 k hk]
      dsimp only
      rw [vlAppend_nil]
      simp only [canonV, Prod.mk.injEq, PSt.mk.injEq, List.length_cons, List.length_append, List.length_nil, and_true, true_and, List.length_map]
      try omega
  | vobject ms =>
    rw [to_json] at hjson
    cases hb : membersJson fltRepr ms with
    | none => rw [hb] at hjson; exact absurd hjson (by simp)
    | some body =>
      rw [hb] at hjson
      have ht : t = '\x7b' :: (body ++ ['\x7d']) := by simpa using hjson.symm
      subst ht
      have hdrop2 : buf.drop pos = ws ++ 123 :: (body.map Char.toNat ++ 125 :: rest) := by
        simpa [List.map_append, List.append_assoc] using hdrop
      have hraw0 := readTokenRaw_delim parseNum hdrop2 hws (by decide)
      have ht123 : (tokOfDelim 123 : Tok Flt) = .lbrace := rfl
      rw [ht123] at hraw0
      have hdropO : buf.drop (pos + ws.length + 1) =
          ([] : List Nat) ++ body.map Char.toNat ++ 125 :: rest := by
        have h1 := drop_add_of_drop ws hdrop2
        have h2 := drop_succ_of_drop_cons h1
        simpa [Nat.add_assoc] using h2
      obtain ⟨F1, hF1⟩ := encParseObj parseNum fltRepr ms hg body hb buf
        (pos + ws.length + 1) [] rest .nil (by intro x hx; cases hx) hdropO
      refine ⟨F1 + 1, ?_⟩
      intro F hF
      obtain ⟨k, hFeq, hk⟩ : ∃ k, F = k + 1 ∧ F1 ≤ k := ⟨F - 1, by omega, by omega⟩
      subst hFeq
      rw [readValue_lbrace parseNum k hraw0, hF1 k hk]
      dsimp only
      simp only [canonV, Prod.mk.injEq, PSt.mk.injEq, List.length_cons, List.length_append, List.length_nil, and_true, true_and, List.length_map]
      try omega

/-- Encoding then decoding with arbitrary trailing bytes, for a value whose
rendering ends in a quote, bracket or brace: the trailing bytes are ignored
unconditionally, with no side condition on their first byte. -/
theorem deserialize_enc_sd {Flt : Type} (parseNum : List Nat → Option Flt)
    (fltRepr : Flt → List Char) (v : Value Flt)
    (hg : goodV parseNum fltRepr v) (hsd : selfDelim v = true) {t : List Char}
    (ht : serialize fltRepr v = some t) (extra : List Nat) :
    deserialize parseNum (utf8Encode t ++ extra) = .ok (canonV v) := by
  have hascii := to_json_ascii parseNum fltRepr v hg ht
  have hbytes : utf8Encode t = t.map Char.toNat := utf8Encode_ascii hascii
  have hdrop : (utf8Encode t ++ extra).drop 0 =
      ([] : List Nat) ++ t.map Char.toNat ++ extra := by
    rw [hbytes]
    simp
  obtain ⟨F0, hF0⟩ := encParseV_sd parseNum fltRepr v hg hsd t ht
    (utf8Encode t ++ extra) 0 [] extra (by intro x hx; cases hx) hdrop
  exact deserialize_of_run parseNum (hF0 F0 le_rfl)

/-! ## Whitespace insensitivity: lexeme assemblies -/

theorem readString_items {buf : List Nat} :
    ∀ (items : List StrItem) {pos : Nat} {rest : List Nat},
      (∀ i ∈ items, itemOk i) →
      buf.drop pos = itemsBytes items ++ 34 :: rest →
      ∃ p', readString buf pos = (scanItems items, p') ∧
        (∀ s, scanItems items = .ok s → buf.drop p' = rest) := by
  intro items
  induction items with
  | nil =>
    intro pos rest _ hdrop
    have hd : buf.drop pos = 34 :: rest := by simpa [itemsBytes] using hdrop
    refine ⟨pos + 1, ?_, ?_⟩
    · rw [readString_quote hd]; rfl
    · intro s _
      exact drop_succ_of_drop_cons hd
  | cons i tl ih =>
    intro pos rest hok hdrop
    have hoki := hok i (by simp)
    have hoktl : ∀ j ∈ tl, itemOk j := fun j hj => hok j (by simp [hj])
    cases i with
    | plain b =>
      obtain ⟨h34, h92⟩ := hoki
      have hd : buf.drop pos = b :: (itemsBytes tl ++ 34 :: rest) := by
        simpa [itemsBytes, List.append_assoc] using hdrop
      have hd1 : buf.drop (pos + 1) = itemsBytes tl ++ 34 :: rest :=
        drop_succ_of_drop_cons hd
      obtain ⟨p', hrs, hokp⟩ := ih hoktl hd1
      rw [readString_plain hd h34 h92, hrs]
      cases hsc : scanItems tl with
      | ok s =>
        refine ⟨p', ?_, ?_⟩
        · simp only [scanItems, hsc, Except.map]
          rfl
        · intro s2 _
          exact hokp s hsc
      | error e =>
        refine ⟨p', ?_, ?_⟩
        · simp only [scanItems, hsc, Except.map]
          rfl
        · intro s2 h2
          simp only [scanItems, hsc, Except.map] at h2
          exact absurd h2 (by simp)
    | esc2 c =>
      have hc117 : c ≠ 117 := hoki
      have hd : buf.drop pos = 92 :: c :: (itemsBytes tl ++ 34 :: rest) := by
        simpa [itemsBytes, List.append_assoc] using hdrop
      cases hesc : escMap c with
      | some ch =>
        have hd2 : buf.drop (pos + 2) = itemsBytes tl ++ 34 :: rest := by
          have h1 := drop_succ_of_drop_cons hd
          have h2 := drop_succ_of_drop_cons h1
          simpa [Nat.add_assoc] using h2
        obtain ⟨p', hrs, hokp⟩ := ih hoktl hd2
        rw [readString_escSimple hd hesc, hrs]
        cases hsc : scanItems tl with
        | ok s =>
          refine ⟨p', ?_, ?_⟩
          · simp only [scanItems, hesc, hsc, Except.map]
            rfl
          · intro s2 _
            exact hokp s hsc
        | error e =>
          refine ⟨p', ?_, ?_⟩
          · simp only [scanItems, hesc, hsc, Except.map]
            rfl
          · intro s2 h2
            simp only [scanItems, hesc, hsc, Except.map] at h2
            exact absurd h2 (by simp)
      | none =>
        refine ⟨pos + 2, ?_, ?_⟩
        · rw [readString_escBad hd hesc hc117]
          simp only [scanItems, hesc]
        · intro s2 h2
          simp only [scanItems, hesc] at h2
          exact absurd h2 (by simp)
    | escU h1 h2 h3 h4 =>
      have hd : buf.drop pos =
          92 :: 117 :: h1 :: h2 :: h3 :: h4 :: (itemsBytes tl ++ 34 :: rest) := by
        simpa [itemsBytes, List.append_assoc] using hdrop
      rw [readString_escU hd]
      cases hph : parseHex4 [h1, h2, h3, h4] with
      | none =>
        refine ⟨pos + 6, ?_, ?_⟩
        · simp only [scanItems, hph]
        · intro s2 hs2
          simp only [scanItems, hph] at hs2
          exact absurd hs2 (by simp)
      | some code =>
        cases hcf : charFromNat code with
        | none =>
          refine ⟨pos + 6, ?_, ?_⟩
          · simp only [scanItems, hph, hcf]
          · intro s2 hs2
            simp only [scanItems, hph, hcf] at hs2
            exact absurd hs2 (by simp)
        | some ch =>
          have hd6 : buf.drop (pos + 6) = itemsBytes tl ++ 34 :: rest := by
            have s1 := drop_succ_of_drop_cons hd
            have s2 := drop_succ_of_drop_cons s1
            have s3 := drop_succ_of_drop_cons s2
            have s4 := drop_succ_of_drop_cons s3
            have s5 := drop_succ_of_drop_cons s4
            have s6 := drop_succ_of_drop_cons s5
            simpa [Nat.add_assoc] using s6
          obtain ⟨p', hrs, hokp⟩ := ih hoktl hd6
          rw [hrs]
          cases hsc : scanItems tl with
          | ok s =>
            refine ⟨p', ?_, ?_⟩
            · simp only [scanItems, hph, hcf, hsc, Except.map]
              rfl
            · intro s2 _
              exact hokp s hsc
          | error e =>
            refine ⟨p', ?_, ?_⟩
            · simp only [scanItems, hph, hcf, hsc, Except.map]
              rfl
            · intro s2 hs2
              simp only [scanItems, hph, hcf, hsc, Except.map] at hs2
              exact absurd hs2 (by simp)

theorem asm_head_stop {ps : List (List Nat × Lex)} {tail : List Nat} {bs0 : List Nat}
    (hps : psOk ps tail) (hsep : sepHead (.term bs0) ps) :
    ∀ b, (asm ps tail).head? = some b → (isWsB b || isDelimB b) = true := by
  cases ps with
  | nil =>
    intro b hb
    cases tail with
    | nil => exact absurd hb (by simp [asm])
    | cons x xs =>
      have hbx : b = x := by
        have : (asm ([] : List (List Nat × Lex)) (x :: xs)).head? = some x := rfl
        rw [this] at hb
        exact (Option.some.inj hb).symm
      subst hbx
      have hws : isWsB b = true := hps b (by simp)
      rw [hws]
      rfl
  | cons hd rest =>
    obtain ⟨w2, l2⟩ := hd
    obtain ⟨hw2, hl2, hsep2, hps2⟩ := hps
    intro b hb
    rcases hsep with hne | ⟨b2, hdelim⟩
    · cases w2 with
      | nil => exact absurd rfl hne
      | cons x xs =>
        have hbx : b = x := by
          have : (asm ((x :: xs, l2) :: rest) tail).head? = some x := rfl
          rw [this] at hb
          exact (Option.some.inj hb).symm
        subst hbx
        rw [hw2 b (by simp)]
        rfl
    · subst hdelim
      cases w2 with
      | nil =>
        have hbx : b = b2 := by
          have : (asm (([], Lex.delim b2) :: rest) tail).head? = some b2 := rfl
          rw [this] at hb
          exact (Option.some.inj hb).symm
        subst hbx
        have hdel : isDelimB b = true := hl2
        rw [hdel]
        simp
      | cons x xs =>
        have hbx : b = x := by
          have : (asm ((x :: xs, Lex.delim b2) :: rest) tail).head? = some x := rfl
          rw [this] at hb
          exact (Option.some.inj hb).symm
        subst hbx
        rw [hw2 b (by simp)]
        rfl

theorem asm_token {Flt : Type} (parseNum : List Nat → Option Flt)
    {buf : List Nat} {pos : Nat} {w : List Nat} {l : Lex}
    {ps : List (List Nat × Lex)} {tail : List Nat}
    (hw : ∀ b ∈ w, isWsB b = true) (hl : lexOk l) (hsep : sepHead l ps)
    (hps : psOk ps tail)
    (hdrop : buf.drop pos = w ++ (lexBytes l ++ asm ps tail)) :
    ∃ p', readTokenRaw parseNum buf pos = (lexTok parseNum l, p') ∧
      (∀ t : Tok Flt, lexTok parseNum l = .ok t → buf.drop p' = asm ps tail) := by
  cases l with
  | delim b =>
    have hd : buf.drop pos = w ++ b :: asm ps tail := by
      simpa [lexBytes] using hdrop
    have hdel : isDelimB b = true := hl
    have hraw := readTokenRaw_delim parseNum hd hw hdel
    refine ⟨pos + w.length + 1, ?_, ?_⟩
    · rw [hraw]
      rfl
    · intro t _
      have h1 := drop_add_of_drop w hd
      have h2 := drop_succ_of_drop_cons h1
      simpa [Nat.add_assoc] using h2
  | str items =>
    have hd : buf.drop pos = w ++ 34 :: (itemsBytes items ++ 34 :: asm ps tail) := by
      simpa [lexBytes, List.append_assoc] using hdrop
    rw [readTokenRaw_string parseNum hd hw]
    have hd2 : buf.drop (pos + w.length + 1) =
        itemsBytes items ++ 34 :: asm ps tail := by
      have h1 := drop_add_of_drop w hd
      exact drop_succ_of_drop_cons h1
    obtain ⟨p', hrs, hokp⟩ := readString_items items hl hd2
    rw [hrs]
    cases hsc : scanItems items with
    | ok s =>
      refine ⟨p', ?_, ?_⟩
      · simp only [lexTok, hsc]
      · intro t _
        exact hokp s hsc
    | error e =>
      refine ⟨p', ?_, ?_⟩
      · simp only [lexTok, hsc]
      · intro t ht
        simp only [lexTok, hsc] at ht
        exact absurd ht (by simp)
  | term bs =>
    obtain ⟨hne, hgood, h34h⟩ := hl
    cases bs with
    | nil => exact absurd rfl hne
    | cons b0 bs2 =>
      have hd : buf.drop pos = w ++ (b0 :: bs2) ++ asm ps tail := by
        simpa [lexBytes, List.append_assoc] using hdrop
      have hstop := asm_head_stop hps hsep
      have hraw := readTokenRaw_term parseNum hd hw
        (by
          intro x hx
          have hg := hgood x hx
          rw [hg.1, hg.2]
          rfl)
        (h34h b0 rfl) hstop
      refine ⟨pos + w.length + (bs2.length + 1), ?_, ?_⟩
      · rw [hraw]
        rfl
      · intro t _
        have hd2 : buf.drop pos = w ++ ((b0 :: bs2) ++ asm ps tail) := by
          simpa [List.append_assoc] using hd
        have h1 := drop_add_of_drop w hd2
        have h2 := drop_add_of_drop (b0 :: bs2) h1
        simpa [Nat.add_assoc, List.length_cons] using h2

theorem objLoop_err {Flt : Type} (parseNum : List Nat → Option Flt)
    {buf : List Nat} {pos p : Nat} {e : PErr} (k : Nat) (acc : MemberList Flt)
    (hraw : readTokenRaw parseNum buf pos = (.error e, p)) :
    readObjectLoop parseNum buf (k + 1) acc ⟨pos, none⟩ =
      (.error e, ⟨p, some (.error e)⟩) := by
  have hp := peekToken_none parseNum hraw
  simp only [readObjectLoop, hp]

theorem arrLoop_err {Flt : Type} (parseNum : List Nat → Option Flt)
    {buf : List Nat} {pos p : Nat} {e : PErr} (k : Nat) (acc : ValueList Flt)
    (hraw : readTokenRaw parseNum buf pos = (.error e, p)) :
    readArrayLoop parseNum buf (k + 1) acc ⟨pos, none⟩ =
      (.error e, ⟨p, some (.error e)⟩) := by
  have hp := peekToken_none parseNum hraw
  simp only [readArrayLoop, hp]

theorem readValue_unexp {Flt : Type} (parseNum : List Nat → Option Flt)
    (k : Nat) {buf : List Nat} {pos p : Nat} {t0 : Tok Flt}
    (hraw : readTokenRaw parseNum buf pos = (.ok t0, p))
    (hbad : t0 = .rbrace ∨ t0 = .rangle ∨ t0 = .comma ∨ t0 = .colon) :
    readValue parseNum buf (k + 1) ⟨pos, none⟩ =
      (.error (.msg ("unexpected token " ++ tokName t0)), ⟨p, none⟩) := by
  rcases hbad with h | h | h | h <;> subst h <;>
    simp only [readValue, readToken_cacheNone, hraw]

theorem aligned_token {Flt : Type} (parseNum : List Nat → Option Flt)
    {buf1 buf2 tail1 tail2 : List Nat} {p1 p2 : Nat}
    (hal : aligned buf1 buf2 tail1 tail2 p1 p2) :
    (∃ e pe1 pe2, readTokenRaw parseNum buf1 p1 = (.error e, pe1) ∧
       readTokenRaw parseNum buf2 p2 = (.error e, pe2)) ∨
    (∃ (t : Tok Flt) (pt1 pt2 : Nat),
       readTokenRaw parseNum buf1 p1 = (.ok t, pt1) ∧
       readTokenRaw parseNum buf2 p2 = (.ok t, pt2) ∧
       aligned buf1 buf2 tail1 tail2 pt1 pt2) := by
  obtain ⟨q1, q2, hmap, hps1, hps2, hd1, hd2⟩ := hal
  cases q1 with
  | nil =>
    cases q2 with
    | cons a b => exact absurd hmap (by simp)
    | nil =>
      rw [asm] at hd1 hd2
      left
      exact ⟨.msg "EOF", _, _, readTokenRaw_eof parseNum hd1 hps1,
        readTokenRaw_eof parseNum hd2 hps2⟩
  | cons hd1q t1 =>
    obtain ⟨w1, l⟩ := hd1q
    cases q2 with
    | nil => exact absurd hmap (by simp)
    | cons hd2q t2 =>
      obtain ⟨w2, l2⟩ := hd2q
      simp only [List.map_cons, List.cons.injEq] at hmap
      obtain ⟨hll, hmapt⟩ := hmap
      subst hll
      obtain ⟨hw1, hlx, hsep1, hps1t⟩ := hps1
      obtain ⟨hw2, hlx2, hsep2, hps2t⟩ := hps2
      rw [asm] at hd1 hd2
      obtain ⟨pt1, hraw1, hbnd1⟩ := asm_token parseNum hw1 hlx hsep1 hps1t hd1
      obtain ⟨pt2, hraw2, hbnd2⟩ := asm_token parseNum hw2 hlx hsep2 hps2t hd2
      cases hr : lexTok parseNum l with
      | error e =>
        rw [hr] at hraw1 hraw2
        exact Or.inl ⟨e, pt1, pt2, hraw1, hraw2⟩
      | ok tok =>
        rw [hr] at hraw1 hraw2
        exact Or.inr ⟨tok, pt1, pt2, hraw1, hraw2,
          t1, t2, hmapt, hps1t, hps2t, hbnd1 tok hr, hbnd2 tok hr⟩

theorem objLoop_step_str {Flt : Type} (parseNum : List Nat → Option Flt)
    {buf : List Nat} (k : Nat) (acc : MemberList Flt) {pos p : Nat}
    {key : List Char}
    (hraw : readTokenRaw parseNum buf pos = (.ok (.str key), p)) :
    readObjectLoop parseNum buf (k + 1) acc ⟨pos, none⟩ =
      (match readToken parseNum buf ⟨p, none⟩ with
       | (.ok .colon, s3) =>
         (match readValue parseNum buf k s3 with
          | (.ok v, s4) =>
            (match readToken parseNum buf s4 with
             | (.ok .comma, s5) => readObjectLoop parseNum buf k (hashInsert acc key v) s5
             | (.ok .rbrace, s5) => (.ok (hashInsert acc key v), s5)
             | (.ok t, s5) =>
               (.error (.msg ("expected comma or \x7d, got " ++ tokName t)), s5)
             | (.error e, s5) => (.error e, s5))
          | (.error e, s4) => (.error e, s4))
       | (.ok t, s3) => (.error (.msg ("expected colon, got " ++ tokName t)), s3)
       | (.error e, s3) => (.error e, s3)) := by
  rw [objLoop_step parseNum k acc hraw (by simp), readToken_cacheSome]

theorem objLoop_expColon {Flt : Type} (parseNum : List Nat → Option Flt)
    {buf : List Nat} (k : Nat) (acc : MemberList Flt) {pos p p2 : Nat}
    {key : List Char} {t2 : Tok Flt}
    (hraw : readTokenRaw parseNum buf pos = (.ok (.str key), p))
    (hraw2 : readTokenRaw parseNum buf p = (.ok t2, p2)) (hne : t2 ≠ .colon) :
    readObjectLoop parseNum buf (k + 1) acc ⟨pos, none⟩ =
      (.error (.msg ("expected colon, got " ++ tokName t2)), ⟨p2, none⟩) := by
  rw [objLoop_step_str parseNum k acc hraw, readToken_cacheNone, hraw2]
  cases t2 <;> first | exact absurd rfl hne | rfl

theorem objLoop_expStr {Flt : Type} (parseNum : List Nat → Option Flt)
    {buf : List Nat} (k : Nat) (acc : MemberList Flt) {pos p : Nat} {t0 : Tok Flt}
    (hraw : readTokenRaw parseNum buf pos = (.ok t0, p)) (hne : t0 ≠ .rbrace)
    (hnstr : ∀ s0, t0 ≠ .str s0) :
    readObjectLoop parseNum buf (k + 1) acc ⟨pos, none⟩ =
      (.error (.msg ("expected string, got " ++ tokName t0)), ⟨p, none⟩) := by
  rw [objLoop_step parseNum k acc hraw hne, readToken_cacheSome]
  cases t0 <;> first | exact absurd rfl hne | exact absurd rfl (hnstr _) | rfl

theorem wsBisim {Flt : Type} (parseNum : List Nat → Option Flt)
    (buf1 buf2 tail1 tail2 : List Nat) :
    ∀ f,
    (∀ p1 p2 : Nat, aligned buf1 buf2 tail1 tail2 p1 p2 →
      (readValue parseNum buf1 f ⟨p1, none⟩).1 =
        (readValue parseNum buf2 f ⟨p2, none⟩).1 ∧
      ∀ v s1', readValue parseNum buf1 f ⟨p1, none⟩ = (.ok v, s1') →
        ∃ p2', readValue parseNum buf2 f ⟨p2, none⟩ = (.ok v, ⟨p2', none⟩) ∧
          s1'.cache = none ∧ aligned buf1 buf2 tail1 tail2 s1'.pos p2') ∧
    (∀ (p1 p2 : Nat) (acc : MemberList Flt),
      aligned buf1 buf2 tail1 tail2 p1 p2 →
      (readObjectLoop parseNum buf1 f acc ⟨p1, none⟩).1 =
        (readObjectLoop parseNum buf2 f acc ⟨p2, none⟩).1 ∧
      ∀ ms s1', readObjectLoop parseNum buf1 f acc ⟨p1, none⟩ = (.ok ms, s1') →
        ∃ p2', readObjectLoop parseNum buf2 f acc ⟨p2, none⟩ =
            (.ok ms, ⟨p2', none⟩) ∧
          s1'.cache = none ∧ aligned buf1 buf2 tail1 tail2 s1'.pos p2') ∧
    (∀ (p1 p2 : Nat) (acc : ValueList Flt),
      aligned buf1 buf2 tail1 tail2 p1 p2 →
      (readArrayLoop parseNum buf1 f acc ⟨p1, none⟩).1 =
        (readArrayLoop parseNum buf2 f acc ⟨p2, none⟩).1 ∧
      ∀ vs s1', readArrayLoop parseNum buf1 f acc ⟨p1, none⟩ = (.ok vs, s1') →
        ∃ p2', readArrayLoop parseNum buf2 f acc ⟨p2, none⟩ =
            (.ok vs, ⟨p2', none⟩) ∧
          s1'.cache = none ∧ aligned buf1 buf2 tail1 tail2 s1'.pos p2') := by
  intro f
  induction f with
  | zero =>
    refine ⟨?_, ?_, ?_⟩
    · intro p1 p2 _
      refine ⟨rfl, ?_⟩
      intro v s1' h
      rw [show readValue parseNum buf1 0 (⟨p1, none⟩ : PSt Flt) =
        (.error .fuelOut, ⟨p1, none⟩) from rfl] at h
      exact absurd h (by simp)
    · intro p1 p2 acc _
      refine ⟨rfl, ?_⟩
      intro ms s1' h
      rw [show readObjectLoop parseNum buf1 0 acc (⟨p1, none⟩ : PSt Flt) =
        (.error .fuelOut, ⟨p1, none⟩) from rfl] at h
      exact absurd h (by simp)
    · intro p1 p2 acc _
      refine ⟨rfl, ?_⟩
      intro vs s1' h
      rw [show readArrayLoop parseNum buf1 0 acc (⟨p1, none⟩ : PSt Flt) =
        (.error .fuelOut, ⟨p1, none⟩) from rfl] at h
      exact absurd h (by simp)
  | succ k ih =>
    obtain ⟨ihV, ihO, ihA⟩ := ih
    refine ⟨?_, ?_, ?_⟩
    · -- read_value
      intro p1 p2 hal
      rcases aligned_token parseNum hal with ⟨e, pe1, pe2, hr1, hr2⟩ |
        ⟨t, pt1, pt2, hr1, hr2, halN⟩
      · rw [readValue_err parseNum k hr1, readValue_err parseNum k hr2]
        exact ⟨rfl, fun v s1' h => absurd h (by simp)⟩
      · cases t with
        | str s0 =>
          rw [readValue_str parseNum k hr1, readValue_str parseNum k hr2]
          refine ⟨rfl, ?_⟩
          intro v s1' h
          rw [Prod.mk.injEq, Except.ok.injEq] at h
          obtain ⟨hv, hs⟩ := h
          subst hv
          subst hs
          exact ⟨pt2, rfl, rfl, halN⟩
        | number n0 =>
          rw [readValue_number parseNum k hr1, readValue_number parseNum k hr2]
          refine ⟨rfl, ?_⟩
          intro v s1' h
          rw [Prod.mk.injEq, Except.ok.injEq] at h
          obtain ⟨hv, hs⟩ := h
          subst hv
          subst hs
          exact ⟨pt2, rfl, rfl, halN⟩
        | boolean b0 =>
          rw [readValue_boolean parseNum k hr1, readValue_boolean parseNum k hr2]
          refine ⟨rfl, ?_⟩
          intro v s1' h
          rw [Prod.mk.injEq, Except.ok.injEq] at h
          obtain ⟨hv, hs⟩ := h
          subst hv
          subst hs
          exact ⟨pt2, rfl, rfl, halN⟩
        | null =>
          rw [readValue_null parseNum k hr1, readValue_null parseNum k hr2]
          refine ⟨rfl, ?_⟩
          intro v s1' h
          rw [Prod.mk.injEq, Except.ok.injEq] at h
          obtain ⟨hv, hs⟩ := h
          subst hv
          subst hs
          exact ⟨pt2, rfl, rfl, halN⟩
        | lbrace =>
          rw [readValue_lbrace parseNum k hr1, readValue_lbrace parseNum k hr2]
          obtain ⟨hOL, hOK⟩ := ihO pt1 pt2 .nil halN
          cases hL1 : readObjectLoop parseNum buf1 k .nil ⟨pt1, none⟩ with
          | mk r1 sL1 =>
            cases r1 with
            | ok ms =>
              obtain ⟨pL2, hL2, hcache, halL⟩ := hOK ms sL1 hL1
              rw [hL2]
              dsimp only
              refine ⟨rfl, ?_⟩
              intro v s1' h
              rw [Prod.mk.injEq, Except.ok.injEq] at h
              obtain ⟨hv, hs⟩ := h
              subst hv
              subst hs
              exact ⟨pL2, rfl, hcache, halL⟩
            | error e =>
              have h2 := hOL
              rw [hL1] at h2
              cases hL2 : readObjectLoop parseNum buf2 k .nil ⟨pt2, none⟩ with
              | mk r2 sL2 =>
                rw [hL2] at h2
                dsimp only at h2
                subst h2
                dsimp only
                exact ⟨rfl, fun v s1' h => absurd h (by simp)⟩
        | langle =>
          rw [readValue_langle parseNum k hr1, readValue_langle parseNum k hr2]
          obtain ⟨hAL, hAK⟩ := ihA pt1 pt2 .nil halN
          cases hL1 : readArrayLoop parseNum buf1 k .nil ⟨pt1, none⟩ with
          | mk r1 sL1 =>
            cases r1 with
            | ok vs =>
              obtain ⟨pL2, hL2, hcache, halL⟩ := hAK vs sL1 hL1
              rw [hL2]
              dsimp only
              refine ⟨rfl, ?_⟩
              intro v s1' h
              rw [Prod.mk.injEq, Except.ok.injEq] at h
              obtain ⟨hv, hs⟩ := h
              subst hv
              subst hs
              exact ⟨pL2, rfl, hcache, halL⟩
            | error e =>
              have h2 := hAL
              rw [hL1] at h2
              cases hL2 : readArrayLoop parseNum buf2 k .nil ⟨pt2, none⟩ with
              | mk r2 sL2 =>
                rw [hL2] at h2
                dsimp only at h2
                subst h2
                dsimp only
                exact ⟨rfl, fun v s1' h => absurd h (by simp)⟩
        | rbrace =>
          rw [readValue_unexp parseNum k hr1 (by simp),
            readValue_unexp parseNum k hr2 (by simp)]
          exact ⟨rfl, fun v s1' h => absurd h (by simp)⟩
        | rangle =>
          rw [readValue_unexp parseNum k hr1 (by simp),
            readValue_unexp parseNum k hr2 (by simp)]
          exact ⟨rfl, fun v s1' h => absurd h (by simp)⟩
        | comma =>
          rw [readValue_unexp parseNum k hr1 (by simp),
            readValue_unexp parseNum k hr2 (by simp)]
          exact ⟨rfl, fun v s1' h => absurd h (by simp)⟩
        | colon =>
          rw [readValue_unexp parseNum k hr1 (by simp),
            readValue_unexp parseNum k hr2 (by simp)]
          exact ⟨rfl, fun v s1' h => absurd h (by simp)⟩
    · -- read_object loop
      intro p1 p2 acc hal
      rcases aligned_token parseNum hal with ⟨e, pe1, pe2, hr1, hr2⟩ |
        ⟨t, pt1, pt2, hr1, hr2, halN⟩
      · rw [objLoop_err parseNum k acc hr1, objLoop_err parseNum k acc hr2]
        exact ⟨rfl, fun ms s1' h => absurd h (by simp)⟩
      · by_cases hrb : t = .rbrace
        · subst hrb
          rw [objLoop_close parseNum k acc hr1, objLoop_close parseNum k acc hr2]
          refine ⟨rfl, ?_⟩
          intro ms s1' h
          rw [Prod.mk.injEq, Except.ok.injEq] at h
          obtain ⟨hv, hs⟩ := h
          subst hv
          subst hs
          exact ⟨pt2, rfl, rfl, halN⟩
        · cases t with
          | rbrace => exact absurd rfl hrb
          | str key =>
            rcases aligned_token parseNum halN with ⟨e2, pe1b, pe2b, hs1, hs2⟩ |
              ⟨t2, pu1, pu2, hs1, hs2, halN2⟩
            · rw [objLoop_step_str parseNum k acc hr1, readToken_cacheNone, hs1,
                objLoop_step_str parseNum k acc hr2, readToken_cacheNone, hs2]
              dsimp only
              exact ⟨rfl, fun ms s1' h => absurd h (by simp)⟩
            · by_cases hcol : t2 = .colon
              · subst hcol
                rw [objLoop_step_str parseNum k acc hr1, readToken_cacheNone, hs1,
                  objLoop_step_str parseNum k acc hr2, readToken_cacheNone, hs2]
                dsimp only
                obtain ⟨hV1eq, hVok⟩ := ihV pu1 pu2 halN2
                cases hV1 : readValue parseNum buf1 k ⟨pu1, none⟩ with
                | mk rv sV1 =>
                  cases rv with
                  | error e =>
                    have h2 := hV1eq
                    rw [hV1] at h2
                    cases hV2 : readValue parseNum buf2 k ⟨pu2, none⟩ with
                    | mk rv2 sV2 =>
                      rw [hV2] at h2
                      dsimp only at h2
                      subst h2
                      dsimp only
                      exact ⟨rfl, fun ms s1' h => absurd h (by simp)⟩
                  | ok v =>
                    obtain ⟨pV2, hV2, hcV, halV⟩ := hVok v sV1 hV1
                    obtain ⟨pV1, cV1⟩ := sV1
                    dsimp only at hcV
                    subst hcV
                    dsimp only at halV
                    rw [hV2]
                    dsimp only
                    rcases aligned_token parseNum halV with
                      ⟨e3, pe1c, pe2c, hc1, hc2⟩ |
                      ⟨t3, pw1, pw2, hc1, hc2, halN3⟩
                    · rw [readToken_cacheNone, hc1, readToken_cacheNone, hc2]
                      dsimp only
                      exact ⟨rfl, fun ms s1' h => absurd h (by simp)⟩
                    · rw [readToken_cacheNone, hc1, readToken_cacheNone, hc2]
                      cases t3 with
                      | comma =>
                        dsimp only
                        exact ihO pw1 pw2 (hashInsert acc key v) halN3
                      | rbrace =>
                        dsimp only
                        refine ⟨rfl, ?_⟩
                        intro ms s1' h
                        rw [Prod.mk.injEq, Except.ok.injEq] at h
                        obtain ⟨hv2, hs2x⟩ := h
                        subst hv2
                        subst hs2x
                        exact ⟨pw2, rfl, rfl, halN3⟩
                      | lbrace =>
                        dsimp only
                        exact ⟨rfl, fun ms s1' h => absurd h (by simp)⟩
                      | langle =>
                        dsimp only
                        exact ⟨rfl, fun ms s1' h => absurd h (by simp)⟩
                      | rangle =>
                        dsimp only
                        exact ⟨rfl, fun ms s1' h => absurd h (by simp)⟩
                      | colon =>
                        dsimp only
                        exact ⟨rfl, fun ms s1' h => absurd h (by simp)⟩
                      | str s2 =>
                        dsimp only
                        exact ⟨rfl, fun ms s1' h => absurd h (by simp)⟩
                      | number n2 =>
                        dsimp only
                        exact ⟨rfl, fun ms s1' h => absurd h (by simp)⟩
                      | boolean b2 =>
                        dsimp only
                        exact ⟨rfl, fun ms s1' h => absurd h (by simp)⟩
                      | null =>
                        dsimp only
                        exact ⟨rfl, fun ms s1' h => absurd h (by simp)⟩
              · rw [objLoop_expColon parseNum k acc hr1 hs1 hcol,
                  objLoop_expColon parseNum k acc hr2 hs2 hcol]
                exact ⟨rfl, fun ms s1' h => absurd h (by simp)⟩
          | lbrace =>
            rw [objLoop_expStr parseNum k acc hr1 hrb (by simp),
              objLoop_expStr parseNum k acc hr2 hrb (by simp)]
            exact ⟨rfl, fun ms s1' h => absurd h (by simp)⟩
          | langle =>
            rw [objLoop_expStr parseNum k acc hr1 hrb (by simp),
              objLoop_expStr parseNum k acc hr2 hrb (by simp)]
            exact ⟨rfl, fun ms s1' h => absurd h (by simp)⟩
          | rangle =>
            rw [objLoop_expStr parseNum k acc hr1 hrb (by simp),
              objLoop_expStr parseNum k acc hr2 hrb (by simp)]
            exact ⟨rfl, fun ms s1' h => absurd h (by simp)⟩
          | comma =>
            rw [objLoop_expStr parseNum k acc hr1 hrb (by simp),
              objLoop_expStr parseNum k acc hr2 hrb (by simp)]
            exact ⟨rfl, fun ms s1' h => absurd h (by simp)⟩
          | colon =>
            rw [objLoop_expStr parseNum k acc hr1 hrb (by simp),
              objLoop_expStr parseNum k acc hr2 hrb (by simp)]
            exact ⟨rfl, fun ms s1' h => absurd h (by simp)⟩
          | number n0 =>
            rw [objLoop_expStr parseNum k acc hr1 hrb (by simp),
              objLoop_expStr parseNum k acc hr2 hrb (by simp)]
            exact ⟨rfl, fun ms s1' h => absurd h (by simp)⟩
          | boolean b0 =>
            rw [objLoop_expStr parseNum k acc hr1 hrb (by simp),
              objLoop_expStr parseNum k acc hr2 hrb (by simp)]
            exact ⟨rfl, fun ms s1' h => absurd h (by simp)⟩
          | null =>
            rw [objLoop_expStr parseNum k acc hr1 hrb (by simp),
              objLoop_expStr parseNum k acc hr2 hrb (by simp)]
            exact ⟨rfl, fun ms s1' h => absurd h (by simp)⟩
    · -- read_array loop
      intro p1 p2 acc hal
      rcases aligned_token parseNum hal with ⟨e, pe1, pe2, hr1, hr2⟩ |
        ⟨t, pt1, pt2, hr1, hr2, halN⟩
      · rw [arrLoop_err parseNum k acc hr1, arrLoop_err parseNum k acc hr2]
        exact ⟨rfl, fun vs s1' h => absurd h (by simp)⟩
      · by_cases hra : t = .rangle
        · subst hra
          rw [arrLoop_close parseNum k acc hr1, arrLoop_close parseNum k acc hr2]
          refine ⟨rfl, ?_⟩
          intro vs s1' h
          rw [Prod.mk.injEq, Except.ok.injEq] at h
          obtain ⟨hv, hs⟩ := h
          subst hv
          subst hs
          exact ⟨pt2, rfl, rfl, halN⟩
        · rw [arrLoop_step parseNum k acc hr1 hra, arrLoop_step parseNum k acc hr2 hra]
          cases k with
          | zero =>
            rw [show readValue parseNum buf1 0 (⟨pt1, some (.ok t)⟩ : PSt Flt) =
              (.error .fuelOut, ⟨pt1, some (.ok t)⟩) from rfl,
              show readValue parseNum buf2 0 (⟨pt2, some (.ok t)⟩ : PSt Flt) =
              (.error .fuelOut, ⟨pt2, some (.ok t)⟩) from rfl]
            dsimp only
            exact ⟨rfl, fun vs s1' h => absurd h (by simp)⟩
          | succ k2 =>
            rw [readValue_cache_eq parseNum hr1 k2, readValue_cache_eq parseNum hr2 k2]
            obtain ⟨hV1eq, hVok⟩ := ihV p1 p2 hal
            cases hV1 : readValue parseNum buf1 (k2 + 1) ⟨p1, none⟩ with
            | mk rv sV1 =>
              cases rv with
              | error e =>
                have h2 := hV1eq
                rw [hV1] at h2
                cases hV2 : readValue parseNum buf2 (k2 + 1) ⟨p2, none⟩ with
                | mk rv2 sV2 =>
                  rw [hV2] at h2
                  dsimp only at h2
                  subst h2
                  dsimp only
                  exact ⟨rfl, fun vs s1' h => absurd h (by simp)⟩
              | ok v =>
                obtain ⟨pV2, hV2, hcV, halV⟩ := hVok v sV1 hV1
                obtain ⟨pV1, cV1⟩ := sV1
                dsimp only at hcV
                subst hcV
                dsimp only at halV
                rw [hV2]
                dsimp only
                rcases aligned_token parseNum halV with
                  ⟨e3, pe1c, pe2c, hc1, hc2⟩ |
                  ⟨t3, pw1, pw2, hc1, hc2, halN3⟩
                · rw [readToken_cacheNone, hc1, readToken_cacheNone, hc2]
                  dsimp only
                  exact ⟨rfl, fun vs s1' h => absurd h (by simp)⟩
                · rw [readToken_cacheNone, hc1, readToken_cacheNone, hc2]
                  cases t3 with
                  | comma =>
                    dsimp only
                    exact ihA pw1 pw2 (vlSnoc acc v) halN3
                  | rangle =>
                    dsimp only
                    refine ⟨rfl, ?_⟩
                    intro vs s1' h
                    rw [Prod.mk.injEq, Except.ok.injEq] at h
                    obtain ⟨hv2, hs2x⟩ := h
                    subst hv2
                    subst hs2x
                    exact ⟨pw2, rfl, rfl, halN3⟩
                  | lbrace =>
                    dsimp only
                    exact ⟨rfl, fun vs s1' h => absurd h (by simp)⟩
                  | langle =>
                    dsimp only
                    exact ⟨rfl, fun vs s1' h => absurd h (by simp)⟩
                  | rbrace =>
                    dsimp only
                    exact ⟨rfl, fun vs s1' h => absurd h (by simp)⟩
                  | colon =>
                    dsimp only
                    exact ⟨rfl, fun vs s1' h => absurd h (by simp)⟩
                  | str s2 =>
                    dsimp only
                    exact ⟨rfl, fun vs s1' h => absurd h (by simp)⟩
                  | number n2 =>
                    dsimp only
                    exact ⟨rfl, fun vs s1' h => absurd h (by simp)⟩
                  | boolean b2 =>
                    dsimp only
                    exact ⟨rfl, fun vs s1' h => absurd h (by simp)⟩
                  | null =>
                    dsimp only
                    exact ⟨rfl, fun vs s1' h => absurd h (by simp)⟩

/-! ## Claim theorems -/

/-- C2 (counterexample): the input `"ö"` whose UTF-8 bytes are
`[34, 195, 182, 34]` is a double quote, a backslash-free quote-free run, and a
closing quote; its UTF-8 text between the quotes is the one-character string
`['ö']`, but `deserialize` instead pushes each raw byte as a character and
yields `['Ã', '¶']` (the characters with code points 195 and 182).  So the
claim that the decoded string is the character sequence of the UTF-8 text is
false on this input. -/
theorem claim_C2_counterexample :
    deserialize parseIntLit [34, 195, 182, 34] =
      .ok (.vstring [Char.ofNat 195, Char.ofNat 182]) ∧
    deserialize parseIntLit [34, 195, 182, 34] ≠ .ok (.vstring ['ö']) := by
  refine ⟨rfl, fun h => ?_⟩
  rw [show deserialize parseIntLit [34, 195, 182, 34] =
    .ok (.vstring [Char.ofNat 195, Char.ofNat 182]) from rfl] at h
  injection h with h
  injection h with h
  exact absurd h (by decide)

/-- C2 (amended): for every input consisting of a double quote, a run of
bytes containing no backslash and no double quote, and a closing double
quote, `deserialize` returns `String(s)` where `s` has one character per raw
byte, each being the Unicode scalar value equal to that byte (the Latin-1
reading); this coincides with the UTF-8 text between the quotes exactly when
the run is pure ASCII. -/
theorem claim_C2 {Flt : Type} (parseNum : List Nat → Option Flt) (bs : List Nat)
    (hb : ∀ b ∈ bs, b ≠ 34 ∧ b ≠ 92) :
    deserialize parseNum (34 :: (bs ++ [34])) = .ok (.vstring (bs.map byteChar)) := by
  have hd1 : (34 :: (bs ++ [34])).drop 1 = bs ++ 34 :: ([] : List Nat) := by simp
  have hrs := readString_verbatim bs hd1 hb
  have hd0 : (34 :: (bs ++ [34])).drop 0 = ([] : List Nat) ++ 34 :: (bs ++ [34]) := by
    simp
  have htok := readTokenRaw_string parseNum hd0 (by simp)
  simp only [List.length_nil, Nat.add_zero, Nat.zero_add] at htok
  rw [hrs] at htok
  dsimp only at htok
  rw [deserialize, readValue_str parseNum _ htok]

/-- C2 (witness): the amended theorem applied to the ASCII run `abc`. -/
theorem claim_C2_witness :
    deserialize parseIntLit (34 :: ([97, 98, 99] ++ [34])) =
      .ok (.vstring (([97, 98, 99] : List Nat).map byteChar)) :=
  claim_C2 parseIntLit [97, 98, 99] (by decide)

/-- C4 (counterexample): `u32::from_str_radix` accepts an optional leading
plus sign, so the escape `\u+041` — whose four bytes `+041` are not
hexadecimal digits — is accepted and decodes to `A` instead of failing. -/
theorem claim_C4_counterexample :
    deserialize parseIntLit [34, 92, 117, 43, 48, 52, 49, 34] =
      .ok (.vstring ['A']) ∧
    ∀ e, deserialize parseIntLit [34, 92, 117, 43, 48, 52, 49, 34] ≠ .error e := by
  refine ⟨rfl, fun e h => ?_⟩
  rw [show deserialize parseIntLit [34, 92, 117, 43, 48, 52, 49, 34] =
    .ok (.vstring ['A']) from rfl] at h
  exact absurd h (by simp)

/-- C4 (amended): inside a string, `\u` consumes exactly four bytes and
interprets them with `u32::from_str_radix`, which reads an optional leading
plus sign followed by hexadecimal digits; on four genuine hex digits the
resulting code point is pushed as a character when it is a Unicode scalar
value, an unpaired surrogate is a decode error, and four bytes that
`from_str_radix` rejects are a decode error. -/
theorem claim_C4 {Flt : Type} (parseNum : List Nat → Option Flt)
    (d1 d2 d3 d4 : Nat) :
    (∀ a1 a2 a3 a4, hexDigitVal d1 = some a1 → hexDigitVal d2 = some a2 →
      hexDigitVal d3 = some a3 → hexDigitVal d4 = some a4 →
      (((a1 * 16 + a2) * 16 + a3) * 16 + a4 < 55296 ∨
        57343 < ((a1 * 16 + a2) * 16 + a3) * 16 + a4) →
      deserialize parseNum [34, 92, 117, d1, d2, d3, d4, 34] =
        .ok (.vstring [Char.ofNat ((((a1 * 16 + a2) * 16 + a3) * 16 + a4))])) ∧
    (∀ a1 a2 a3 a4, hexDigitVal d1 = some a1 → hexDigitVal d2 = some a2 →
      hexDigitVal d3 = some a3 → hexDigitVal d4 = some a4 →
      55296 ≤ ((a1 * 16 + a2) * 16 + a3) * 16 + a4 →
      ((a1 * 16 + a2) * 16 + a3) * 16 + a4 ≤ 57343 →
      deserialize parseNum [34, 92, 117, d1, d2, d3, d4, 34] =
        .error (.msg "invalid unicode code point")) ∧
    (parseHex4 [d1, d2, d3, d4] = none →
      deserialize parseNum [34, 92, 117, d1, d2, d3, d4, 34] =
        .error (.msg "invalid hex in unicode escape")) := by
  refine ⟨fun a1 a2 a3 a4 h1 h2 h3 h4 hv => ?_,
    fun a1 a2 a3 a4 h1 h2 h3 h4 hs1 hs2 => ?_, fun hN => ?_⟩
  · rw [deserialize_uescape parseNum d1 d2 d3 d4, parseHex4_digits h1 h2 h3 h4]
    dsimp only
    rcases hv with hv | hv
    · rw [charFromNat_lt hv]
    · have b1 := hexDigitVal_lt h1
      have b2 := hexDigitVal_lt h2
      have b3 := hexDigitVal_lt h3
      have b4 := hexDigitVal_lt h4
      rw [charFromNat_gt hv (by omega)]
  · rw [deserialize_uescape parseNum d1 d2 d3 d4, parseHex4_digits h1 h2 h3 h4]
    dsimp only
    rw [charFromNat_surrogate hs1 hs2]
  · rw [deserialize_uescape parseNum d1 d2 d3 d4, hN]

/-- C4 (witness): the amended theorem at the examples of the claim:
`"A"` (bytes `48 48 52 49`) decodes to `"A"`, `"ö"` (bytes
`48 48 70 54`) decodes to `"ö"`, and the unpaired surrogate `"\uD800"`
(bytes `68 56 48 48`) is a decode error. -/
theorem claim_C4_witness :
    deserialize parseIntLit [34, 92, 117, 48, 48, 52, 49, 34] =
      .ok (.vstring ['A']) ∧
    deserialize parseIntLit [34, 92, 117, 48, 48, 70, 54, 34] =
      .ok (.vstring ['ö']) ∧
    deserialize parseIntLit [34, 92, 117, 68, 56, 48, 48, 34] =
      .error (.msg "invalid unicode code point") :=
  ⟨(claim_C4 parseIntLit 48 48 52 49).1 0 0 4 1 (by decide) (by decide) (by decide)
      (by decide) (by decide),
    (claim_C4 parseIntLit 48 48 70 54).1 0 0 15 6 (by decide) (by decide) (by decide)
      (by decide) (by decide),
    (claim_C4 parseIntLit 68 56 48 48).2.1 13 8 0 0 (by decide) (by decide) (by decide)
      (by decide) (by decide) (by decide)⟩

/-- C8: the three structural-error examples.  `{"a":}` fails (the value
position holds the token `}`, an unexpected token); `{"a" 1}` fails with the
error message naming the expected colon; the unterminated string `"abc`
fails with the end-of-input error `EOF`. -/
theorem claim_C8 :
    deserialize parseIntLit (strBytes "\x7b\"a\":\x7d") =
      .error (.msg "unexpected token RBrace") ∧
    deserialize parseIntLit (strBytes "\x7b\"a\" 1\x7d") =
      .error (.msg "expected colon, got Number") ∧
    deserialize parseIntLit (strBytes "\"abc") = .error (.msg "EOF") :=
  ⟨rfl, rfl, rfl⟩

/-- C10: decoding is total and safe: for every input byte sequence,
`deserialize` returns `Ok` or a message `Err`.  In the embedding every
buffer access is the `Option`-valued `currentAt`/`readByteAt`, the
position decrement before term scanning is the checked `decPos` whose
failure (`underflow`) is proved unreachable, and the recursion fuel
`2 * length + 1` is proved sufficient (`fuelOut` unreachable), which is the
termination argument. -/
theorem claim_C10 {Flt : Type} (parseNum : List Nat → Option Flt)
    (buf : List Nat) :
    (∃ v, deserialize parseNum buf = .ok v) ∨
    (∃ m, deserialize parseNum buf = .error (.msg m)) :=
  deserialize_shape parseNum buf

/-- C7: whitespace insensitivity: two inputs assembled from the same lexeme
sequence (delimiters, string literals, bare terms) with arbitrary well-formed
whitespace runs between the lexemes and after the last one decode to the same
result, errors included.  Well-formedness asks only that the inserted runs
consist of space, tab, CR and LF, and that a bare term stays separated from a
following non-delimiter lexeme, which is exactly the sense in which the
whitespace sits between tokens. -/
theorem claim_C7 {Flt : Type} (parseNum : List Nat → Option Flt)
    (ps1 ps2 : List (List Nat × Lex)) (tail1 tail2 : List Nat)
    (hmap : ps1.map Prod.snd = ps2.map Prod.snd)
    (h1 : psOk ps1 tail1) (h2 : psOk ps2 tail2) :
    deserialize parseNum (asm ps1 tail1) = deserialize parseNum (asm ps2 tail2) := by
  have hal : aligned (asm ps1 tail1) (asm ps2 tail2) tail1 tail2 0 0 :=
    ⟨ps1, ps2, hmap, h1, h2, by simp, by simp⟩
  have hne1 : (readValue parseNum (asm ps1 tail1)
      (2 * (asm ps1 tail1).length + 1) ⟨0, none⟩).1 ≠ .error .fuelOut := by
    have hsuff := (parseFuelSufficient parseNum (asm ps1 tail1)
      (2 * (asm ps1 tail1).length + 1)).1 ⟨0, none⟩ (cacheOkP_none 0)
      (by rw [msr_none]; omega)
    cases hc : readValue parseNum (asm ps1 tail1)
        (2 * (asm ps1 tail1).length + 1) ⟨0, none⟩ with
    | mk rc sc =>
      cases rc with
      | ok v2 => simp
      | error e =>
        obtain ⟨m, hm⟩ := hsuff.1 e sc hc
        simp [hm]
  have hne2 : (readValue parseNum (asm ps2 tail2)
      (2 * (asm ps2 tail2).length + 1) ⟨0, none⟩).1 ≠ .error .fuelOut := by
    have hsuff := (parseFuelSufficient parseNum (asm ps2 tail2)
      (2 * (asm ps2 tail2).length + 1)).1 ⟨0, none⟩ (cacheOkP_none 0)
      (by rw [msr_none]; omega)
    cases hc : readValue parseNum (asm ps2 tail2)
        (2 * (asm ps2 tail2).length + 1) ⟨0, none⟩ with
    | mk rc sc =>
      cases rc with
      | ok v2 => simp
      | error e =>
        obtain ⟨m, hm⟩ := hsuff.1 e sc hc
        simp [hm]
  have hst1 := readValue_stable_ge parseNum (asm ps1 tail1)
    (⟨0, none⟩ : PSt Flt)
    (Nat.le_max_left (2 * (asm ps1 tail1).length + 1)
      (2 * (asm ps2 tail2).length + 1)) hne1
  have hst2 := readValue_stable_ge parseNum (asm ps2 tail2)
    (⟨0, none⟩ : PSt Flt)
    (Nat.le_max_right (2 * (asm ps1 tail1).length + 1)
      (2 * (asm ps2 tail2).length + 1)) hne2
  have hbis := ((wsBisim parseNum (asm ps1 tail1) (asm ps2 tail2) tail1 tail2
    (max (2 * (asm ps1 tail1).length + 1)
      (2 * (asm ps2 tail2).length + 1))).1 0 0 hal).1
  rw [show deserialize parseNum (asm ps1 tail1) =
    (readValue parseNum (asm ps1 tail1)
      (2 * (asm ps1 tail1).length + 1) ⟨0, none⟩).1 from rfl]
  rw [show deserialize parseNum (asm ps2 tail2) =
    (readValue parseNum (asm ps2 tail2)
      (2 * (asm ps2 tail2).length + 1) ⟨0, none⟩).1 from rfl]
  rw [← hst1, ← hst2]
  exact hbis

/-- C7 witness: the input of a bracket pair decodes the same with and without
a space inserted between the brackets. -/
theorem claim_C7_witness :
    deserialize parseIntLit
      (asm ([([], Lex.delim 91), ([], Lex.delim 93)] : List (List Nat × Lex)) []) =
    deserialize parseIntLit
      (asm ([([], Lex.delim 91), ([32], Lex.delim 93)] : List (List Nat × Lex)) []) :=
  claim_C7 parseIntLit
    [([], Lex.delim 91), ([], Lex.delim 93)]
    [([], Lex.delim 91), ([32], Lex.delim 93)] [] [] rfl
    ⟨fun b hb => absurd hb (by simp), show isDelimB 91 = true from by decide,
     trivial, fun b hb => absurd hb (by simp),
     show isDelimB 93 = true from by decide, trivial,
     fun b hb => absurd hb (by simp)⟩
    ⟨fun b hb => absurd hb (by simp), show isDelimB 91 = true from by decide,
     trivial, by decide,
     show isDelimB 93 = true from by decide, trivial,
     fun b hb => absurd hb (by simp)⟩

/-- C1 counterexample: the round trip breaks on a string holding a code point
above U+FFFF.  The encoder renders U+1F600 as the five-digit escape
`\u1F600`, the decoder reads exactly 4 hex digits, and the result is the
two-character string U+1F60 `0`, not the original value. -/
theorem claim_C1_counterexample :
    serialize intRepr (Value.vstring ['😀']) = some "\"\\u1F600\"".data ∧
    deserialize parseIntLit (utf8Encode "\"\\u1F600\"".data) =
      .ok (.vstring [Char.ofNat 8032, '0']) ∧
    (Value.vstring [Char.ofNat 8032, '0'] : Value Int) ≠ Value.vstring ['😀'] :=
  ⟨rfl, rfl, by intro h; injection h with h2; simp at h2⟩

/-- C1 (amended): the round trip holds on the BMP-restricted domain: for every
value whose strings and keys contain no unescapable control characters and no
code points above U+FFFF, whose numbers reparse to themselves, and whose
objects bind each key once, decoding the serialized text yields exactly the
original value (key order is preserved by the association-list model, and
numbers are compared by the reparsed value). -/
theorem claim_C1 {Flt : Type} (parseNum : List Nat → Option Flt)
    (fltRepr : Flt → List Char) (v : Value Flt)
    (hg : goodV parseNum fltRepr v) (hnd : keysNodupV v)
    {t : List Char} (ht : serialize fltRepr v = some t) :
    deserialize parseNum (utf8Encode t) = .ok v := by
  have h := deserialize_enc parseNum fltRepr v hg ht []
    (by intro b hb; simp at hb)
  rw [List.append_nil] at h
  rw [h, canonV_id v hnd]

/-- C1 witness: the round trip at the object value with one entry binding key
a to the number 1. -/
theorem claim_C1_witness :
    deserialize parseIntLit (utf8Encode "\x7b\"a\": 1\x7d".data) =
      .ok (.vobject (.cons ['a'] (.vnumber (1 : Int)) .nil)) :=
  claim_C1 parseIntLit intRepr
    (.vobject (.cons ['a'] (.vnumber (1 : Int)) .nil))
    ⟨by decide, ⟨by decide, by decide, rfl⟩, trivial⟩
    ⟨by decide, trivial, trivial⟩ rfl

/-- C5: duplicate keys: decoding a rendered object entry sequence (with any
number of repeated keys) succeeds and yields the `hashInsert`-fold of the
entries; looking up a key in that fold gives the value of its last
occurrence; and concretely `\x7b"a":1,"a":2\x7d` decodes to the object binding
a to 2. -/
theorem claim_C5 {Flt : Type} (parseNum : List Nat → Option Flt)
    (fltRepr : Flt → List Char) :
    (∀ ms : MemberList Flt, goodMembers parseNum fltRepr ms →
      ∀ t : List Char, serialize fltRepr (.vobject ms) = some t →
        deserialize parseNum (utf8Encode t) =
          .ok (.vobject (foldIns .nil (canonMembers ms)))) ∧
    (∀ (ms : MemberList Flt) (k : List Char),
      memLookup (foldIns .nil ms) k = lastVal ms k) ∧
    deserialize parseIntLit (strBytes "\x7b\"a\":1,\"a\":2\x7d") =
      .ok (.vobject (.cons ['a'] (.vnumber (2 : Int)) .nil)) := by
  refine ⟨?_, fun ms k => memLookup_foldIns_last ms k, rfl⟩
  intro ms hg t ht
  have h := deserialize_enc parseNum fltRepr (.vobject ms) hg ht []
    (by intro b hb; simp at hb)
  rw [List.append_nil] at h
  rw [canonV] at h
  exact h

/-- C5 witness: the rendered two-entry sequence with the duplicated key a
decodes to its `hashInsert`-fold, and lookup in the fold gives the last
occurrence. -/
theorem claim_C5_witness :
    deserialize parseIntLit (utf8Encode "\x7b\"a\": 1, \"a\": 2\x7d".data) =
      .ok (.vobject (foldIns .nil (canonMembers
        (.cons ['a'] (.vnumber (1 : Int)) (.cons ['a'] (.vnumber 2) .nil))))) ∧
    memLookup (foldIns (MemberList.nil : MemberList Int)
      (.cons ['a'] (.vnumber 1) (.cons ['a'] (.vnumber 2) .nil))) ['a'] =
      lastVal (.cons ['a'] (.vnumber 1) (.cons ['a'] (.vnumber 2) .nil)) ['a'] :=
  ⟨(claim_C5 parseIntLit intRepr).1
    (.cons ['a'] (.vnumber (1 : Int)) (.cons ['a'] (.vnumber 2) .nil))
    ⟨by decide, ⟨by decide, by decide, rfl⟩,
     by decide, ⟨by decide, by decide, rfl⟩, trivial⟩ _ rfl,
   (claim_C5 parseIntLit intRepr).2.1 _ _⟩

/-- C6 counterexample: trailing bytes are not always ignored.  The input 42
decodes to the number 42, but appending the byte x yields 42x, which the term
scanner absorbs into the lexeme, so deserialize errors instead of returning
the value decoded from the prefix. -/
theorem claim_C6_counterexample :
    deserialize parseIntLit (strBytes "42") = .ok (.vnumber (42 : Int)) ∧
    deserialize parseIntLit (strBytes "42x") =
      .error (.msg "invalid number literal") :=
  ⟨rfl, rfl⟩

/-- C6 (amended): trailing bytes after a complete rendered value are ignored
whenever the first trailing byte cannot extend the final lexeme of the value:
unconditionally when the value ends in its own closing quote, bracket or brace
(strings, arrays, objects, `selfDelim`), and for a value rendered as a bare
term lexeme (number, boolean, null) when the first trailing byte is whitespace
or a delimiter (`stopOk`); under that proviso the result equals the result for
the input without the trailing bytes, and no error arises from them. -/
theorem claim_C6 {Flt : Type} (parseNum : List Nat → Option Flt)
    (fltRepr : Flt → List Char) (v : Value Flt)
    (hg : goodV parseNum fltRepr v) {t : List Char}
    (ht : serialize fltRepr v = some t) (extra : List Nat)
    (hsep : selfDelim v = true ∨ stopOk extra) :
    deserialize parseNum (utf8Encode t ++ extra) =
      deserialize parseNum (utf8Encode t) ∧
    deserialize parseNum (utf8Encode t ++ extra) = .ok (canonV v) := by
  have h2 := deserialize_enc parseNum fltRepr v hg ht []
    (by intro b hb; simp at hb)
  rw [List.append_nil] at h2
  rcases hsep with hsd | hstop
  · have h1 := deserialize_enc_sd parseNum fltRepr v hg hsd ht extra
    exact ⟨h1.trans h2.symm, h1⟩
  · have h1 := deserialize_enc parseNum fltRepr v hg ht extra hstop
    exact ⟨h1.trans h2.symm, h1⟩

/-- C6 witness: the array [1] followed by the junk bytes xyz, whose first byte
is neither whitespace nor a delimiter, decodes the same as [1] alone; and the
number 42 followed by a space and junk decodes the same as 42 alone. -/
theorem claim_C6_witness :
    (deserialize parseIntLit (utf8Encode "[1]".data ++ strBytes "xyz") =
       deserialize parseIntLit (utf8Encode "[1]".data) ∧
     deserialize parseIntLit (utf8Encode "[1]".data ++ strBytes "xyz") =
       .ok (canonV (.varray (.cons (.vnumber (1 : Int)) .nil)))) ∧
    (deserialize parseIntLit (utf8Encode "42".data ++ strBytes " junk") =
       deserialize parseIntLit (utf8Encode "42".data) ∧
     deserialize parseIntLit (utf8Encode "42".data ++ strBytes " junk") =
       .ok (canonV (.vnumber (42 : Int)))) :=
  ⟨claim_C6 parseIntLit intRepr (.varray (.cons (.vnumber 1) .nil))
     ⟨⟨by decide, by decide, rfl⟩, trivial⟩ rfl (strBytes "xyz") (Or.inl rfl),
   claim_C6 parseIntLit intRepr (.vnumber 42) ⟨by decide, by decide, rfl⟩ rfl
     (strBytes " junk")
     (Or.inr (by
       intro b hb
       rw [show (strBytes " junk").head? = some 32 from rfl] at hb
       injection hb with hh
       subst hh
       decide))⟩

/-- C3: `serialize` is total except for the unrepresentable-control-character
case: for every `Value` whose strings contain no ASCII control characters other
than backspace, form feed, newline, carriage return and tab (`valCtlOk`),
`serialize` returns text and the abort branch is unreachable; if some string
contains such a control character, the call fails (the aborting
`panic!("control characters not allowed")` branch, modelled as `none`) instead
of producing a normal text result. -/
theorem claim_C3 {Flt : Type} (fltRepr : Flt → List Char) :
    (∀ v : Value Flt, valCtlOk v = true → ∃ t, serialize fltRepr v = some t) ∧
    (∀ v : Value Flt, valCtlOk v = false → serialize fltRepr v = none) :=
  ⟨fun v h => to_json_of_ctlOk fltRepr v h,
   fun v h => to_json_of_ctlBad fltRepr v h⟩

/-- C3 witness: a value with only representable characters serializes to text;
a string holding the control character U+0001 makes the call fail. -/
theorem claim_C3_witness :
    (∃ t, serialize intRepr
      (.vobject (.cons ['a'] (.vstring ['b', '\x09']) .nil)) = some t) ∧
    serialize intRepr (.vstring ['b', Char.ofNat 1]) = none :=
  ⟨(claim_C3 intRepr).1 _ (by decide), (claim_C3 intRepr).2 _ (by decide)⟩

/-- C9: encoder escaping of non-ASCII characters: for every string value with a
non-ASCII character `c` at any position (the surrounding characters containing
no unrepresentable control character, so the encoder succeeds), `serialize`
emits for `c` a single escape `\u` followed by the code point of `c` directly in
uppercase hexadecimal with at least 4 digits; for code points above U+FFFF the
escape has at least 5 digits (the code point itself, never a UTF-16
surrogate-pair escape). -/
theorem claim_C9 {Flt : Type} (fltRepr : Flt → List Char)
    (s1 s2 : List Char) (c : Char) (hc : 127 < c.toNat)
    (h1 : s1.all (fun d => !isBadControl d) = true)
    (h2 : s2.all (fun d => !isBadControl d) = true) :
    ∃ r1 r2 ds,
      serialize fltRepr (.vstring (s1 ++ c :: s2)) =
        some ('"' :: r1 ++ '\\' :: 'u' :: ds ++ r2 ++ ['"']) ∧
      (∀ d ∈ ds, isUpperHexDigit d = true) ∧
      4 ≤ ds.length ∧
      hexValue ds = c.toNat ∧
      (65535 < c.toNat → 5 ≤ ds.length) := by
  have hn0 : c.toNat ≠ 0 := by omega
  have hn8 : c.toNat < 16 ^ 8 := by
    have hv : c.toNat < 1114112 := by
      rcases c.valid with h | h <;> simp only [Char.toNat] <;> omega
    norm_num
    omega
  obtain ⟨hdig, hlen, hval, hast⟩ := hexMin4_spec hn0 hn8
  obtain ⟨r1, hr1⟩ := strBody_of_good h1
  obtain ⟨r2, hr2⟩ := strBody_of_good h2
  refine ⟨r1, r2, hexMin4 c.toNat, ?_, hdig, hlen, hval, fun h => hast (by omega)⟩
  show (do
    let b ← strBody (s1 ++ c :: s2)
    pure ('"' :: (b ++ ['"']))) = _
  rw [strBody_append, hr1]
  rw [show strBody (c :: s2) = (do
      let r ← charRepr c
      let rest ← strBody s2
      pure (r ++ rest)) from rfl]
  rw [charRepr_nonAscii hc, hr2]
  simp [List.append_assoc]

/-- C9 witness: in the string "a😀" the emoji U+1F600 is escaped with a single
run of 5 uppercase hex digits encoding the code point 128512 directly. -/
theorem claim_C9_witness :
    ∃ r1 r2 ds,
      serialize intRepr (Value.vstring (['a'] ++ '😀' :: [])) =
        some ('"' :: r1 ++ '\\' :: 'u' :: ds ++ r2 ++ ['"']) ∧
      (∀ d ∈ ds, isUpperHexDigit d = true) ∧
      4 ≤ ds.length ∧
      hexValue ds = '😀'.toNat ∧
      (65535 < '😀'.toNat → 5 ≤ ds.length) :=
  claim_C9 intRepr ['a'] [] '😀' (by decide) (by decide) (by decide)

end JR
